import Mathlib

/-!
Shallow embedding of chronos-tachyon/huffman (canonical Huffman codes).

Embedded from the Go sources under src/: decoder.go, encoder.go, util.go,
and the Code/Symbol definitions in the unnamed source parts.  Machine
integers (uint32) are modelled as Nat with explicit `% 2 ^ 32` at every
operation where Go wraps.  Go runtime panics (index out of range) and
assertion failures are modelled as explicit outcomes.  Fallible
constructors return an `Outcome`.

Modelling notes on faithfulness:
* `container/heap` guarantees that `Pop` removes the `Less`-minimal
  element; the comparator `freqHeap.Less` ((freq, uint32(symbol))
  lexicographic) is a strict total order on the node lists that occur
  (symbols are pairwise distinct), so the pop sequence is determined and
  the heap is embedded as repeated extraction of the unique minimum.
* `sort.Sort` with the total comparator `bySize.Less` produces the unique
  sorted permutation, embedded as a verified insertion sort.
* Loops over `sizes []byte` are indexed by `symbol < Symbol(len(sizes))`
  with Symbol an int32.  The encoder entry point models the int→int32
  conversion explicitly (`toInt32`): a negative count panics in
  `make([]Code, numSymbols)` (len out of range) and a truncated
  nonnegative count bounds the loops, which therefore run over
  `sizes.take numSymbols`.  `decoderInit` is embedded as a plain list
  traversal, which matches Go whenever `len(sizes) < 2^31`; the general
  decoder-side theorems carry that hypothesis.
-/

namespace Huffman

/-- Modelled from the spec: the constant `maxBitsPerCode` is referenced
throughout src/ but its defining file is not under src/; the spec fixes its
value to 15. -/
def maxBitsPerCode : Nat := 15

/-- Modulus of Go uint32 arithmetic. -/
def U32 : Nat := 2 ^ 32

/-- The sentinel Symbol(-1) returned when no symbol is decoded. -/
def InvalidSymbol : Int := -1

/-- Code (Size byte, Bits uint32): a bit sequence; the least significant bit
of `bits` is the first bit transmitted. -/
structure Code where
  size : Nat
  bits : Nat
deriving DecidableEq, Repr

/-- reverseBits(size, bits) = bits.Reverse32 >> (32 - size): reverse the low
`size` bits, discarding bits at positions at or above `size`.  Recursive Nat
formulation: input bit i (i < size) becomes output bit (size - 1 - i). -/
def revBits : Nat → Nat → Nat
  | 0, _ => 0
  | n + 1, x => x % 2 * 2 ^ n + revBits n (x / 2)

/-- MakeCode: construct a Code from bits already in transmission order. -/
def MakeCode (size bits : Nat) : Code := ⟨size, bits⟩

/-- MakeReversedCode: construct a Code from bits in natural (MSB-first)
order, reversing them into transmission order. -/
def MakeReversedCode (size bits : Nat) : Code := ⟨size, revBits size bits⟩

/-- The three error values produced by src/ constructors:
"invalid bit length ..." (decoder.go:55, encoder.go:415),
"degenerate Huffman tree: expected %d, got %d" (decoder.go:89),
"too many symbols have a code length of %d" (encoder.go:432). -/
inductive HErr where
  | invalidLength (got max : Nat)
  | degenerate (expected got : Nat)
  | tooManySymbols (size : Nat)
deriving DecidableEq, Repr

/-- Result of running a Go constructor: normal return, error return,
out-of-range runtime panic (array index out of range, or
makeslice: len out of range on a negative count), or assertion failure
(github.com/chronos-tachyon/assert). -/
inductive Outcome (α : Type) where
  | ok (a : α)
  | err (e : HErr)
  | oob
  | assertFailed
deriving DecidableEq

/-- Whether an Outcome is a normal return. -/
def Outcome.isOk {α : Type} : Outcome α → Bool
  | .ok _ => true
  | _ => false

/-- Whether an Outcome is an error return. -/
def Outcome.isErr {α : Type} : Outcome α → Bool
  | .err _ => true
  | _ => false

/-! ## Decoder -/

/-- decoderData: symbol plus min/max total code sizes reachable from a
table key. -/
structure DData where
  symbol : Int
  minSize : Nat
  maxSize : Nat
deriving DecidableEq, Repr

/-- The decoder lookup table `map[Code]decoderData`, as an association
list with map semantics (at most one entry per key). -/
abbrev Table := List (Code × DData)

/-- Map lookup `table[k]`. -/
def tget (t : Table) (k : Code) : Option DData :=
  (t.find? fun p => decide (p.1 = k)).map (fun p => p.2)

/-- Map insertion/overwrite `table[k] = v`. -/
def tset : Table → Code → DData → Table
  | [], k, v => [(k, v)]
  | (k0, v0) :: rest, k, v =>
    if k0 = k then (k, v) :: rest else (k0, v0) :: tset rest k v

/-- The loop of decoder.go fillTable: walk upward from a full code through
its transmission-order proper prefixes, merging child summaries, with the
shared-prefix short circuit.  The loop runs while hc.Size ≠ 0 and every
iteration shrinks hc.Size by one, so it is structural in a fuel argument
instantiated with hc.size.  `bit := 1 <<< (hc.size - 1)`; `hc.Bits ^= bit`
yields the sibling; `hc.Size--; hc.Bits &^= bit` yields the parent (clear
the single bit, set or not). -/
def fillLoop : Nat → Table → DData → Code → Table
  | 0, t, _, _ => t
  | fuel + 1, t, dd, hc =>
    if hc.size = 0 then t
    else
      let bit := 2 ^ (hc.size - 1)
      let sib : Code := ⟨hc.size, Nat.xor hc.bits bit⟩
      let ddNew : DData :=
        match tget t sib with
        | some ds => ⟨InvalidSymbol, min dd.minSize ds.minSize, max dd.maxSize ds.maxSize⟩
        | none => ⟨InvalidSymbol, dd.minSize, dd.maxSize⟩
      let parent : Code :=
        ⟨hc.size - 1, if sib.bits / bit % 2 = 1 then sib.bits - bit else sib.bits⟩
      match tget t parent with
      | some ddOld =>
        if ddOld = ddNew then t else fillLoop fuel (tset t parent ddNew) ddNew parent
      | none => fillLoop fuel (tset t parent ddNew) ddNew parent

/-- decoder.go fillTable: store the leaf entry for a full code, then run the
prefix walk. -/
def fillTable (t : Table) (symbol : Int) (hc : Code) : Table :=
  fillLoop hc.size (tset t hc ⟨symbol, hc.size, hc.size⟩) ⟨symbol, hc.size, hc.size⟩ hc

/-- State of the first loop of Decoder.Init: countArray (a fixed array of
maxBitsPerCode = 15 uint32 slots), the number of symbols with nonzero
sizes, and the running minSize/maxSize. -/
structure ScanSt where
  count : List Nat
  live : Nat
  minS : Nat
  maxS : Nat
deriving DecidableEq, Repr

/-- The first loop of Decoder.Init: histogram the nonzero sizes, rejecting
sizes above maxBitsPerCode.  `countArray` has exactly maxBitsPerCode (= 15)
slots, indices 0..14, so the increment `countArray[size]++` is an index out
of range panic when size = 15 (the guard only rejects size > 15). -/
def scanSizes : List Nat → ScanSt → Outcome ScanSt
  | [], st => .ok st
  | size :: rest, st =>
    if size = 0 then scanSizes rest st
    else if size > maxBitsPerCode then .err (.invalidLength size maxBitsPerCode)
    else
      let st1 :=
        if st.live = 0 then { st with minS := size, maxS := size }
        else if st.minS > size then { st with minS := size }
        else if st.maxS < size then { st with maxS := size }
        else st
      if size < maxBitsPerCode then
        scanSizes rest
          { st1 with
            count := st1.count.set size ((st1.count.getD size 0 + 1) % U32)
            live := (st1.live + 1) % U32 }
      else .oob

/-- The second loop of Decoder.Init: `for bits := minSize; bits <= maxSize;
bits++ { code = (code + countArray[bits-1]) << 1; nextCodeArray[bits] = code }`
in uint32 arithmetic.  Structural in the number of remaining iterations. -/
def ncLoop (count : List Nat) : Nat → Nat → List Nat → Nat → List Nat × Nat
  | 0, _, nca, code => (nca, code)
  | fuel + 1, bits, nca, code =>
    let code2 := (code + count.getD (bits - 1) 0) * 2 % U32
    ncLoop count fuel (bits + 1) (nca.set bits code2) code2

/-- The third loop of Decoder.Init: assign each live symbol the next code of
its size, reverse it into transmission order, and insert it into the table.
Also returns the list of (symbol, transmission code) assignments made, in
order, which is the argument stream fed to fillTable. -/
def assignLoop :
    List Nat → Nat → List Nat → Table → List (Int × Code) → Table × List (Int × Code)
  | [], _, _, t, asg => (t, asg)
  | size :: rest, idx, nca, t, asg =>
    if size = 0 then assignLoop rest (idx + 1) nca t asg
    else
      let code := nca.getD size 0
      let nca2 := nca.set size ((code + 1) % U32)
      let hc := MakeReversedCode size code
      assignLoop rest (idx + 1) nca2 (fillTable t (Int.ofNat idx) hc)
        (asg ++ [(Int.ofNat idx, hc)])

/-- Decoder state: table, copy of the size array, cached minSize/maxSize. -/
structure Decoder where
  table : Table
  sizes : List Nat
  minSize : Nat
  maxSize : Nat
deriving DecidableEq, Repr

/-- Decoder.Init, returning also the assignment list produced by the third
loop (the exact (symbol, code) stream inserted into the table). -/
def decoderInitCore (sizes : List Nat) : Outcome (Decoder × List (Int × Code)) :=
  match scanSizes sizes ⟨List.replicate maxBitsPerCode 0, 0, 0, 0⟩ with
  | .err e => .err e
  | .oob => .oob
  | .assertFailed => .assertFailed
  | .ok st =>
    if st.live = 0 then .ok (⟨[], [], 0, 0⟩, [])
    else
      let p := ncLoop st.count (st.maxS + 1 - st.minS) st.minS (List.replicate maxBitsPerCode 0) 0
      let codeTot := (p.2 + st.count.getD st.maxS 0) % U32
      if codeTot = 1 ∧ st.maxS = 1 then
        let r := assignLoop sizes 0 p.1 [] []
        .ok (⟨r.1, sizes, st.minS, st.maxS⟩, r.2)
      else if codeTot = 2 ^ st.maxS then
        let r := assignLoop sizes 0 p.1 [] []
        .ok (⟨r.1, sizes, st.minS, st.maxS⟩, r.2)
      else .err (.degenerate (2 ^ st.maxS) codeTot)

/-- Decoder.Init. -/
def decoderInit (sizes : List Nat) : Outcome Decoder :=
  match decoderInitCore sizes with
  | .ok p => .ok p.1
  | .err e => .err e
  | .oob => .oob
  | .assertFailed => .assertFailed

/-- The (symbol, transmission code) assignments made by Decoder.Init, empty
if Init did not succeed. -/
def decoderCodes (sizes : List Nat) : List (Int × Code) :=
  match decoderInitCore sizes with
  | .ok p => p.2
  | _ => []

/-- Decoder.Decode: table lookup; a missing key decodes to
(InvalidSymbol, 0, 0). -/
def Decode (d : Decoder) (hc : Code) : Int × Nat × Nat :=
  match tget d.table hc with
  | some dd => (dd.symbol, dd.minSize, dd.maxSize)
  | none => (InvalidSymbol, 0, 0)

/-- Decoder.SizeBySymbol returns the stored copy of the size array. -/
def Decoder.SizeBySymbol (d : Decoder) : List Nat := d.sizes

/-! ## Encoder -/

/-- Encoder state: per-symbol codes and cached minSize/maxSize. -/
structure Encoder where
  codes : List Code
  minSize : Nat
  maxSize : Nat
deriving DecidableEq, Repr

/-- Encoder.Encode: look up a symbol's code. -/
def Encoder.Encode (e : Encoder) (symbol : Nat) : Code := e.codes.getD symbol ⟨0, 0⟩

/-- Encoder.SizeBySymbol: the per-symbol bit length array. -/
def Encoder.SizeBySymbol (e : Encoder) : List Nat := e.codes.map (·.size)

/-- The comparator bySize.Less, made total: (size, symbol) lexicographic. -/
def sizeLE (a b : Nat × Nat) : Bool := a.2 < b.2 || (a.2 = b.2 && a.1 ≤ b.1)

/-- Insertion into a sizeLE-sorted list. -/
def insertBySize (x : Nat × Nat) : List (Nat × Nat) → List (Nat × Nat)
  | [] => [x]
  | y :: ys => if sizeLE x y then x :: y :: ys else y :: insertBySize x ys

/-- Sorting of the (symbol, size) pairs.  sort.Sort with the total strict
comparator bySize.Less produces the unique sorted permutation, here realised
as insertion sort. -/
def sortBySize : List (Nat × Nat) → List (Nat × Nat)
  | [] => []
  | x :: xs => insertBySize x (sortBySize xs)

/-- Step 1 of secondPass: collect (symbol, size) for each nonzero size, in
symbol order, rejecting sizes above maxBitsPerCode. -/
def collectPairs : List Code → Nat → Except HErr (List (Nat × Nat))
  | [], _ => .ok []
  | c :: rest, idx =>
    if c.size = 0 then collectPairs rest (idx + 1)
    else if c.size > maxBitsPerCode then .error (.invalidLength c.size maxBitsPerCode)
    else
      match collectPairs rest (idx + 1) with
      | .ok l => .ok ((idx, c.size) :: l)
      | .error e => .error e

/-- Result of secondPass.  Go mutates `codes` in place, so an error return
leaves the writes made before the failure; `err` carries that state.  `oob`
models the index out of range panic of `sorted[0]` on an empty sorted list. -/
inductive SPRes where
  | ok (codes : List Code)
  | err (e : HErr) (codes : List Code)
  | oob
deriving DecidableEq

/-- Write `codes[sym].Bits = b`, leaving Size unchanged. -/
def setBits (codes : List Code) (sym : Nat) (b : Nat) : List Code :=
  codes.set sym ⟨(codes.getD sym ⟨0, 0⟩).size, b⟩

/-- Step 2 of secondPass: walk the sorted list assigning consecutive codes.
The Go check `nextCode &^ mask != 0` (mask = (1 <<< size) - 1, values below
2 ^ 32) holds exactly when nextCode ≥ 2 ^ size, written that way here. -/
def spLoop : List (Nat × Nat) → Nat → Nat → List Code → SPRes
  | [], _, _, codes => .ok codes
  | item :: rest, lastSize, nextCode, codes =>
    let nc := if item.2 > lastSize then nextCode * 2 ^ (item.2 - lastSize) % U32 else nextCode
    let ls := if item.2 > lastSize then item.2 else lastSize
    if 2 ^ item.2 ≤ nc then .err (.tooManySymbols item.2) codes
    else spLoop rest ls ((nc + 1) % U32) (setBits codes item.1 (revBits item.2 nc))

/-- encoder.go secondPass. -/
def secondPass (codes : List Code) : SPRes :=
  match collectPairs codes 0 with
  | .error e => .err e codes
  | .ok pairs =>
    match sortBySize pairs with
    | [] => .oob
    | s0 :: rest => spLoop (s0 :: rest) s0.2 0 codes

/-- The hasMinMax fold of Encoder.InitFromSizes. -/
def mmLoop : List Nat → Nat → Nat → Bool → Nat × Nat
  | [], mn, mx, _ => (mn, mx)
  | s :: rest, mn, mx, has =>
    if s = 0 then mmLoop rest mn mx has
    else if !has then mmLoop rest s s true
    else if mn > s then mmLoop rest s mx true
    else if mx < s then mmLoop rest mn s true
    else mmLoop rest mn mx true

/-- Go int→int32 conversion (Symbol is int32): truncate to 32 bits and
reinterpret the sign bit. -/
def toInt32 (n : Nat) : Int :=
  if n % 2 ^ 32 < 2 ^ 31 then Int.ofNat (n % 2 ^ 32)
  else Int.ofNat (n % 2 ^ 32) - 2 ^ 32

/-- The loops of Encoder.InitFromSizes over the numSymbols selected
entries: set codes[symbol].Size from the size list, track min/max, then
run secondPass.  On error the target Encoder is not assigned. -/
def encoderInitFromSizesCore (sizes : List Nat) : Outcome Encoder :=
  let codes0 : List Code := sizes.map (fun s => ⟨s, 0⟩)
  let mm := mmLoop sizes 0 0 false
  match secondPass codes0 with
  | .ok c => .ok ⟨c, mm.1, mm.2⟩
  | .err e _ => .err e
  | .oob => .oob

/-- Encoder.InitFromSizes: `numSymbols := Symbol(len(sizes))` truncates
the length to int32.  A negative count panics at
`make([]Code, numSymbols)` before any loop runs; otherwise the loops are
bounded by `symbol < numSymbols`, i.e. they see only the first
numSymbols entries of the list. -/
def encoderInitFromSizes (sizes : List Nat) : Outcome Encoder :=
  let numSymbols := toInt32 sizes.length
  if numSymbols < 0 then .oob
  else encoderInitFromSizesCore (sizes.take numSymbols.toNat)

/-- Below the int32 boundary the conversion is the identity and the whole
list is processed. -/
theorem encoderInitFromSizes_eq_core (sizes : List Nat)
    (hlen : sizes.length < 2 ^ 31) :
    encoderInitFromSizes sizes = encoderInitFromSizesCore sizes := by
  have h1 : sizes.length % 2 ^ 32 = sizes.length :=
    Nat.mod_eq_of_lt (by omega)
  simp only [encoderInitFromSizes, toInt32, h1, if_pos hlen]
  rw [if_neg (show ¬ Int.ofNat sizes.length < 0 from
    Int.not_lt.mpr (Int.ofNat_nonneg sizes.length))]
  have h2 : (Int.ofNat sizes.length).toNat = sizes.length := rfl
  rw [h2, List.take_length]

/-! ## Tree builder (firstPass) -/

/-- Saturating uint32 addition from firstPass: `freqSum := a + b` in uint32,
clamped to MaxUint32 when the wrapped sum is below `a`. -/
def satAdd (a b : Nat) : Nat :=
  let s := (a + b) % U32
  if s < a then U32 - 1 else s

/-- uint32(symbol) for an int32-valued symbol, as used by freqHeap.Less. -/
def u32key (s : Int) : Nat := ((s + U32) % U32).toNat

/-- freqHeap.Less: by (freq, uint32(symbol)) lexicographic. -/
def nodeLess (a b : Int × Nat) : Bool :=
  a.2 < b.2 || (a.2 = b.2 && u32key a.1 < u32key b.1)

/-- The nodeLess-least node of `m :: l`. -/
def minNode : List (Int × Nat) → (Int × Nat) → Int × Nat
  | [], m => m
  | x :: xs, m => minNode xs (if nodeLess x m then x else m)

/-- Remove the first occurrence of a node. -/
def removeFirst : List (Int × Nat) → (Int × Nat) → List (Int × Nat)
  | [], _ => []
  | x :: xs, y => if x = y then xs else x :: removeFirst xs y

/-- heap.Pop: container/heap removes the Less-least element, and Less is a
strict total order on the node lists that occur (symbols are distinct), so
the popped element is the unique minimum. -/
def popMin (l : List (Int × Nat)) : Option ((Int × Nat) × List (Int × Nat)) :=
  match l with
  | [] => none
  | x :: xs =>
    let m := minNode xs x
    some (m, removeFirst l m)

/-- Step 2 of firstPass: pop the two smallest nodes, combine with saturating
addition into a synthetic node (ids counting up from math.MinInt32), push it,
until a single node (the root) remains.  Fuel (the node count) bounds the
iterations since each combine shrinks the list by one. -/
def combineLoop : Nat → List (Int × Nat) → Int → List (Int × Int) → List (Int × Int) × Int
  | 0, l, _, synths => (synths, (l.headD (0, 0)).1)
  | fuel + 1, l, nextSyn, synths =>
    match popMin l with
    | none => (synths, 0)
    | some (a, l1) =>
      match popMin l1 with
      | none => (synths, a.1)
      | some (b, l2) =>
        combineLoop fuel (l2 ++ [(nextSyn, satAdd a.2 b.2)]) (nextSyn + 1)
          (synths ++ [(a.1, b.1)])

/-- State of the step-3 tree walk: codes plus the min/max tracking. -/
structure WalkSt where
  codes : List Code
  minS : Nat
  maxS : Nat
  has : Bool

/-- Write `codes[sym].Size = size`, leaving Bits unchanged. -/
def setSize (codes : List Code) (sym : Nat) (size : Nat) : List Code :=
  codes.set sym ⟨size, (codes.getD sym ⟨0, 0⟩).bits⟩

/-- processChild for a natural symbol: record its depth as the code size and
update the min/max tracking. -/
def procNat (st : WalkSt) (sym : Nat) (depth : Nat) : WalkSt :=
  let codes := setSize st.codes sym depth
  if !st.has then ⟨codes, depth, depth, true⟩
  else if st.minS > depth then ⟨codes, depth, st.maxS, true⟩
  else if st.maxS < depth then ⟨codes, st.minS, depth, true⟩
  else ⟨codes, st.minS, st.maxS, true⟩

/-- Step 3 of firstPass: the stack-based tree walk, as the recursion it
simulates.  A child at stack depth d receives size d; synthetic children are
descended into left first, then right.  Synthetic ids index `synths` offset
by math.MinInt32.  Fuel bounds the depth: every synthetic child was created
before its parent, so the depth never exceeds the synthetic count. -/
def walk (synths : List (Int × Int)) : Nat → Int → Nat → WalkSt → WalkSt
  | 0, _, _, st => st
  | fuel + 1, sym, depth, st =>
    if 0 ≤ sym then procNat st sym.toNat depth
    else
      let p := synths.getD (sym + 2 ^ 31).toNat (0, 0)
      let st1 := walk synths fuel p.1 (depth + 1) st
      walk synths fuel p.2 (depth + 1) st1

/-- encoder.go firstPass: build the tree by combining, then walk it to
derive per-symbol sizes and the min/max. -/
def firstPass (codes : List Code) (nodes : List (Int × Nat)) :
    List Code × Nat × Nat :=
  let c := combineLoop nodes.length nodes (-(2 ^ 31 : Int)) []
  let st := walk c.1 (c.1.length + 1) c.2 0 ⟨codes, 0, 0, false⟩
  (st.codes, st.minS, st.maxS)

/-- The node collection loop of Encoder.Init: symbols with nonzero
frequency, in symbol order. -/
def collectNodes : List Nat → Nat → List (Int × Nat)
  | [], _ => []
  | f :: rest, idx =>
    if f ≠ 0 then (Int.ofNat idx, f) :: collectNodes rest (idx + 1)
    else collectNodes rest (idx + 1)

/-- The degenerate branch of Encoder.Init (at most two live symbols): each
node gets the 1-bit code equal to its list index, in symbol order. -/
def assignSmall (codes : List Code) : List (Int × Nat) → Nat → List Code
  | [], _ => codes
  | n :: rest, idx => assignSmall (codes.set n.1.toNat (MakeCode 1 idx)) rest (idx + 1)

/-- Encoder.Init from frequencies.  The asserts panic when numSymbols < 1,
numSymbols > MaxSymbol, or numSymbols < len(frequencies).  The error of the
internal secondPass is explicitly discarded (`_ = secondPass(codes)`), so
the Encoder is built from whatever state secondPass left behind. -/
def encoderInit (numSymbols : Nat) (frequencies : List Nat) : Outcome Encoder :=
  if numSymbols < 1 then .assertFailed
  else if numSymbols > 2 ^ 31 - 1 then .assertFailed
  else if numSymbols < frequencies.length then .assertFailed
  else
    let codes0 : List Code := List.replicate numSymbols ⟨0, 0⟩
    let nodes := collectNodes frequencies 0
    if nodes.length ≤ 2 then .ok ⟨assignSmall codes0 nodes 0, 1, 1⟩
    else
      let fp := firstPass codes0 nodes
      match secondPass fp.1 with
      | .ok c => .ok ⟨c, fp.2.1, fp.2.2⟩
      | .err _ cs => .ok ⟨cs, fp.2.1, fp.2.2⟩
      | .oob => .oob

/-- Encoder.InitFromDecoder = InitFromSizes on the Decoder's size array. -/
def encoderInitFromDecoder (d : Decoder) : Outcome Encoder :=
  encoderInitFromSizes d.sizes

/-- Decoder.InitFromEncoder = Init on the Encoder's size array. -/
def decoderInitFromEncoder (e : Encoder) : Outcome Decoder :=
  decoderInit e.SizeBySymbol

/-! ## Spec-side notions used in claim statements -/

/-- Transmission-order bit-prefix: the first `p.size` transmitted bits of
`c` (its low bits) spell `p`. -/
def isPfxOf (p c : Code) : Prop := p.size ≤ c.size ∧ c.bits % 2 ^ p.size = p.bits

instance (p c : Code) : Decidable (isPfxOf p c) := by
  unfold isPfxOf; infer_instance

/-- The Encoder of a successful construction, or a junk Encoder. -/
def encOf (o : Outcome Encoder) : Encoder :=
  match o with
  | .ok e => e
  | _ => ⟨[], 0, 0⟩

/-- The Decoder of a successful construction, or a junk Decoder. -/
def decOf (o : Outcome Decoder) : Decoder :=
  match o with
  | .ok d => d
  | _ => ⟨[], [], 0, 0⟩

theorem revBits_lt (n : Nat) : ∀ x, revBits n x < 2 ^ n := by
  induction n with
  | zero => intro x; simp [revBits]
  | succ n ih =>
    intro x
    simp only [revBits]
    have h1 : x % 2 ≤ 1 := Nat.le_of_lt_succ (Nat.mod_lt x (by norm_num))
    have h2 := ih (x / 2)
    have h3 : x % 2 * 2 ^ n ≤ 2 ^ n := by
      calc x % 2 * 2 ^ n ≤ 1 * 2 ^ n := Nat.mul_le_mul_right _ h1
        _ = 2 ^ n := one_mul _
    have h4 : 2 ^ (n + 1) = 2 ^ n + 2 ^ n := by ring
    omega

theorem revBits_msb (n : Nat) : ∀ x c, x < 2 ^ n → c ≤ 1 →
    revBits (n + 1) (x + c * 2 ^ n) = 2 * revBits n x + c := by
  induction n with
  | zero =>
    intro x c hx hc
    interval_cases x
    interval_cases c <;> rfl
  | succ n ih =>
    intro x c hx hc
    have hsplit : (x + c * 2 ^ (n + 1)) % 2 = x % 2 := by
      have : c * 2 ^ (n + 1) = c * 2 ^ n * 2 := by ring
      omega
    have hdiv : (x + c * 2 ^ (n + 1)) / 2 = x / 2 + c * 2 ^ n := by
      have : c * 2 ^ (n + 1) = c * 2 ^ n * 2 := by ring
      omega
    have hx2 : x / 2 < 2 ^ n := by
      have : 2 ^ (n + 1) = 2 ^ n * 2 := by ring
      omega
    calc revBits (n + 1 + 1) (x + c * 2 ^ (n + 1))
        = (x + c * 2 ^ (n + 1)) % 2 * 2 ^ (n + 1) +
            revBits (n + 1) ((x + c * 2 ^ (n + 1)) / 2) := rfl
      _ = x % 2 * 2 ^ (n + 1) + revBits (n + 1) (x / 2 + c * 2 ^ n) := by
          rw [hsplit, hdiv]
      _ = x % 2 * 2 ^ (n + 1) + (2 * revBits n (x / 2) + c) := by
          rw [ih (x / 2) c hx2 hc]
      _ = 2 * (x % 2 * 2 ^ n + revBits n (x / 2)) + c := by ring
      _ = 2 * revBits (n + 1) x + c := rfl

theorem revBits_invol (n : Nat) : ∀ x, x < 2 ^ n → revBits n (revBits n x) = x := by
  induction n with
  | zero => intro x hx; interval_cases x; rfl
  | succ n ih =>
    intro x hx
    have h1 : revBits (n + 1) x = revBits n (x / 2) + x % 2 * 2 ^ n := by
      simp only [revBits]; ring
    have h2 : revBits n (x / 2) < 2 ^ n := revBits_lt n _
    have h3 : x % 2 ≤ 1 := Nat.le_of_lt_succ (Nat.mod_lt x (by norm_num))
    have hx2 : x / 2 < 2 ^ n := by
      have : 2 ^ (n + 1) = 2 ^ n * 2 := by ring
      omega
    rw [h1, revBits_msb n _ _ h2 h3, ih (x / 2) hx2]
    omega

theorem revBits_mod (b : Nat) : ∀ d x, revBits (b + d) x % 2 ^ b = revBits b (x / 2 ^ d) := by
  intro d
  induction d with
  | zero =>
    intro x
    simp only [Nat.add_zero, pow_zero, Nat.div_one]
    exact Nat.mod_eq_of_lt (revBits_lt b x)
  | succ d ih =>
    intro x
    have hb : b + (d + 1) = (b + d) + 1 := by ring
    rw [hb]
    have h1 : revBits ((b + d) + 1) x = x % 2 * 2 ^ (b + d) + revBits (b + d) (x / 2) := rfl
    rw [h1]
    have h2 : x % 2 * 2 ^ (b + d) = x % 2 * 2 ^ d * 2 ^ b := by ring
    rw [h2, Nat.add_comm (x % 2 * 2 ^ d * 2 ^ b), Nat.add_mul_mod_self_right]
    rw [ih (x / 2)]
    have h3 : x / 2 / 2 ^ d = x / 2 ^ (d + 1) := by
      rw [Nat.div_div_eq_div_mul]
      congr 1
      ring
    rw [h3]

theorem isPfxOf_rev_iff (b b1 v v1 : Nat) (hb : b ≤ b1) (hv : v < 2 ^ b)
    (hv1 : v1 < 2 ^ b1) :
    isPfxOf ⟨b, revBits b v⟩ ⟨b1, revBits b1 v1⟩ ↔ v1 / 2 ^ (b1 - b) = v := by
  have hb1 : b1 = b + (b1 - b) := by omega
  constructor
  · rintro ⟨-, h⟩
    simp only at h
    rw [hb1, revBits_mod b (b1 - b) v1] at h
    have hd : v1 / 2 ^ (b1 - b) < 2 ^ b := by
      rw [Nat.div_lt_iff_lt_mul (Nat.pos_pow_of_pos _ (by norm_num))]
      calc v1 < 2 ^ b1 := hv1
        _ = 2 ^ b * 2 ^ (b1 - b) := by rw [← pow_add, Nat.add_sub_cancel' hb]
    calc v1 / 2 ^ (b1 - b)
        = revBits b (revBits b (v1 / 2 ^ (b1 - b))) := (revBits_invol b _ hd).symm
      _ = revBits b (revBits b v) := by rw [h]
      _ = v := revBits_invol b v hv
  · intro h
    refine ⟨hb, ?_⟩
    simp only
    rw [hb1, revBits_mod b (b1 - b) v1, h]

/-! ## Table (association list) lemmas -/

theorem tget_tset_self (t : Table) (k : Code) (v : DData) :
    tget (tset t k v) k = some v := by
  induction t with
  | nil => simp [tset, tget, List.find?]
  | cons p rest ih =>
    rcases p with ⟨k0, v0⟩
    by_cases h : k0 = k
    · subst h
      simp [tset, tget, List.find?]
    · simp only [tset, tget, List.find?, if_neg h, decide_eq_false h] at ih ⊢
      exact ih

theorem tget_tset_ne (t : Table) (k : Code) (v : DData) (q : Code) (h : q ≠ k) :
    tget (tset t k v) q = tget t q := by
  have hk : ¬ (k = q) := fun hh => h hh.symm
  induction t with
  | nil => simp [tset, tget, List.find?, hk]
  | cons p rest ih =>
    rcases p with ⟨k0, v0⟩
    by_cases h0 : k0 = k
    · subst h0
      simp [tset, tget, List.find?, hk]
    · by_cases hq : k0 = q
      · subst hq
        simp [tset, tget, List.find?, h0]
      · simp only [tset, tget, List.find?, if_neg h0, decide_eq_false hq] at ih ⊢
        exact ih

/-! ## List getD/set helpers -/

theorem getD_set_self {α : Type} (l : List α) (i : Nat) (a d : α) (h : i < l.length) :
    (l.set i a).getD i d = a := by
  rw [List.getD_eq_getElem?_getD, List.getElem?_set_self h]
  rfl

theorem getD_set_ne {α : Type} (l : List α) (i j : Nat) (a d : α) (h : i ≠ j) :
    (l.set i a).getD j d = l.getD j d := by
  rw [List.getD_eq_getElem?_getD, List.getElem?_set_ne h, ← List.getD_eq_getElem?_getD]

theorem pairwise_mem_rel {α : Type} {R : α → α → Prop} :
    ∀ {l : List α}, l.Pairwise R → ∀ {a b : α}, a ∈ l → b ∈ l → a ≠ b → R a b ∨ R b a := by
  intro l h
  induction h with
  | nil => intro a b ha _ _; exact absurd ha (List.not_mem_nil a)
  | cons hx _ ih =>
    intro a b ha hb hne
    rcases List.mem_cons.mp ha with rfl | ha2
    · rcases List.mem_cons.mp hb with rfl | hb2
      · exact absurd rfl hne
      · exact Or.inl (hx b hb2)
    · rcases List.mem_cons.mp hb with rfl | hb2
      · exact Or.inr (hx a ha2)
      · exact ih ha2 hb2 hne

/-! ## The canonical assignment (secondPass) in specification form -/

/-- The shift applied to nextCode when the current item's size exceeds the
last size (uint32). -/
def spStep (ls nc b : Nat) : Nat := if b > ls then nc * 2 ^ (b - ls) % U32 else nc

/-- The (symbol, size, natural-order value) triples the spLoop fold writes,
in processing order. -/
def spTriples : List (Nat × Nat) → Nat → Nat → List (Nat × Nat × Nat)
  | [], _, _ => []
  | item :: rest, ls, nc =>
    let nc2 := spStep ls nc item.2
    (item.1, item.2, nc2) ::
      spTriples rest (if item.2 > ls then item.2 else ls) ((nc2 + 1) % U32)

/-- Whether every mask check of the spLoop fold passes. -/
def spOk : List (Nat × Nat) → Nat → Nat → Bool
  | [], _, _ => true
  | item :: rest, ls, nc =>
    let nc2 := spStep ls nc item.2
    if 2 ^ item.2 ≤ nc2 then false
    else spOk rest (if item.2 > ls then item.2 else ls) ((nc2 + 1) % U32)

/-- Replay a triple list as Bits writes. -/
def writeAll (codes : List Code) : List (Nat × Nat × Nat) → List Code
  | [] => codes
  | tr :: rest => writeAll (setBits codes tr.1 (revBits tr.2.1 tr.2.2)) rest

theorem spLoop_ok_iff :
    ∀ (l : List (Nat × Nat)) (ls nc : Nat) (codes out : List Code),
      spLoop l ls nc codes = .ok out ↔
        spOk l ls nc = true ∧ out = writeAll codes (spTriples l ls nc) := by
  intro l
  induction l with
  | nil =>
    intro ls nc codes out
    constructor
    · intro h
      cases h
      exact ⟨rfl, rfl⟩
    · rintro ⟨-, rfl⟩
      rfl
  | cons item rest ih =>
    intro ls nc codes out
    simp only [spLoop, spOk, spTriples, writeAll, spStep]
    by_cases hchk :
        2 ^ item.2 ≤ if item.2 > ls then nc * 2 ^ (item.2 - ls) % U32 else nc
    · rw [if_pos hchk]
      constructor
      · intro h; cases h
      · rintro ⟨h, -⟩
        rw [if_pos hchk] at h
        cases h
    · simp only [if_neg hchk]
      exact ih _ _ _ _

/-- The (symbol, size) projection of the triples is the input list. -/
theorem spTriples_proj :
    ∀ (l : List (Nat × Nat)) (ls nc : Nat),
      (spTriples l ls nc).map (fun tr => (tr.1, tr.2.1)) = l := by
  intro l
  induction l with
  | nil => intro ls nc; rfl
  | cons item rest ih =>
    intro ls nc
    simp only [spTriples, List.map_cons, ih]

/-- Main invariant of the canonical assignment: along a size-sorted item
list with sizes in [ls, 15] and nextCode within the budget of ls, a
successful run produces values below 2 ^ size that dominate nextCode, and
later values, scaled down to an earlier size, strictly exceed the earlier
value. -/
theorem spInv :
    ∀ (l : List (Nat × Nat)) (ls nc : Nat),
      l.Pairwise (fun a b => a.2 ≤ b.2) →
      (∀ p ∈ l, ls ≤ p.2 ∧ p.2 ≤ 15) →
      nc ≤ 2 ^ ls →
      spOk l ls nc = true →
      (∀ tr ∈ spTriples l ls nc,
        ls ≤ tr.2.1 ∧ nc * 2 ^ (tr.2.1 - ls) ≤ tr.2.2 ∧ tr.2.2 < 2 ^ tr.2.1) ∧
      (spTriples l ls nc).Pairwise
        (fun t1 t2 => t1.2.1 ≤ t2.2.1 ∧ (t1.2.2 + 1) * 2 ^ (t2.2.1 - t1.2.1) ≤ t2.2.2) := by
  intro l
  induction l with
  | nil =>
    intro ls nc _ _ _ _
    exact ⟨fun tr htr => absurd htr (List.not_mem_nil tr), List.Pairwise.nil⟩
  | cons item rest ih =>
    intro ls nc hsort hrange hnc hok
    have hitem := hrange item (List.mem_cons_self item rest)
    have hls_le : ls ≤ item.2 := hitem.1
    have hb15 : item.2 ≤ 15 := hitem.2
    -- the computed value has no uint32 wrap
    have hprod : nc * 2 ^ (item.2 - ls) ≤ 2 ^ item.2 := by
      calc nc * 2 ^ (item.2 - ls) ≤ 2 ^ ls * 2 ^ (item.2 - ls) :=
            Nat.mul_le_mul_right _ hnc
        _ = 2 ^ item.2 := by rw [← pow_add, Nat.add_sub_cancel' hls_le]
    have hsmall : nc * 2 ^ (item.2 - ls) < U32 := by
      have h15 : (2 : Nat) ^ item.2 ≤ 2 ^ 15 := Nat.pow_le_pow_right (by norm_num) hb15
      have : (2 : Nat) ^ 15 < U32 := by norm_num [U32]
      omega
    have hstep : spStep ls nc item.2 = nc * 2 ^ (item.2 - ls) := by
      unfold spStep
      by_cases hgt : item.2 > ls
      · rw [if_pos hgt, Nat.mod_eq_of_lt hsmall]
      · rw [if_neg hgt]
        have : item.2 = ls := by omega
        rw [this]
        simp
    set nc2 := spStep ls nc item.2 with hnc2def
    simp only [spOk] at hok
    by_cases hchk : 2 ^ item.2 ≤ nc2
    · rw [if_pos hchk] at hok
      cases hok
    · rw [if_neg hchk] at hok
      push_neg at hchk
      have hrest_range : ∀ p ∈ rest, item.2 ≤ p.2 ∧ p.2 ≤ 15 := by
        intro p hp
        exact ⟨(List.pairwise_cons.mp hsort).1 p hp, (hrange p (List.mem_cons_of_mem _ hp)).2⟩
      have hmax : (if item.2 > ls then item.2 else ls) = item.2 := by
        by_cases hgt : item.2 > ls
        · rw [if_pos hgt]
        · rw [if_neg hgt]; omega
      have hnc3 : (nc2 + 1) % U32 = nc2 + 1 := by
        apply Nat.mod_eq_of_lt
        have h15 : (2 : Nat) ^ item.2 ≤ 2 ^ 15 := Nat.pow_le_pow_right (by norm_num) hb15
        have : (2 : Nat) ^ 15 < U32 := by norm_num [U32]
        omega
      rw [hmax, hnc3] at hok
      have hnext : nc2 + 1 ≤ 2 ^ item.2 := by omega
      have ihres := ih item.2 (nc2 + 1) (List.pairwise_cons.mp hsort).2 hrest_range hnext hok
      constructor
      · intro tr htr
        simp only [spTriples, ← hnc2def, hmax, hnc3] at htr
        rcases List.mem_cons.mp htr with rfl | htr2
        · refine ⟨hls_le, ?_, ?_⟩
          · exact le_of_eq hstep.symm
          · exact hchk
        · have hd := ihres.1 tr htr2
          refine ⟨le_trans hls_le hd.1, ?_, hd.2.2⟩
          have hexp : item.2 - ls + (tr.2.1 - item.2) = tr.2.1 - ls := by omega
          calc nc * 2 ^ (tr.2.1 - ls)
              = nc * (2 ^ (item.2 - ls) * 2 ^ (tr.2.1 - item.2)) := by
                rw [← pow_add, hexp]
            _ = nc * 2 ^ (item.2 - ls) * 2 ^ (tr.2.1 - item.2) := by ring
            _ = nc2 * 2 ^ (tr.2.1 - item.2) := by rw [hstep]
            _ ≤ (nc2 + 1) * 2 ^ (tr.2.1 - item.2) :=
                Nat.mul_le_mul_right _ (Nat.le_succ _)
            _ ≤ tr.2.2 := hd.2.1
      · simp only [spTriples, ← hnc2def, hmax, hnc3]
        refine List.pairwise_cons.mpr ⟨?_, ihres.2⟩
        intro tr htr
        have hd := ihres.1 tr htr
        exact ⟨hd.1, hd.2.1⟩

/-! ## Sorting lemmas -/

theorem sizeLE_iff (a b : Nat × Nat) :
    sizeLE a b = true ↔ a.2 < b.2 ∨ (a.2 = b.2 ∧ a.1 ≤ b.1) := by
  simp [sizeLE]

theorem sizeLE_total (a b : Nat × Nat) : sizeLE a b = true ∨ sizeLE b a = true := by
  rw [sizeLE_iff, sizeLE_iff]
  omega

theorem sizeLE_trans {a b c : Nat × Nat} (h1 : sizeLE a b = true) (h2 : sizeLE b c = true) :
    sizeLE a c = true := by
  rw [sizeLE_iff] at *
  omega

theorem mem_insertBySize (x : Nat × Nat) :
    ∀ (l : List (Nat × Nat)) (a : Nat × Nat), a ∈ insertBySize x l ↔ a = x ∨ a ∈ l := by
  intro l
  induction l with
  | nil => intro a; simp [insertBySize]
  | cons y ys ih =>
    intro a
    simp only [insertBySize]
    by_cases h : sizeLE x y = true
    · rw [if_pos h]
      simp only [List.mem_cons]
    · rw [if_neg h]
      simp only [List.mem_cons, ih]
      tauto

theorem insertBySize_perm (x : Nat × Nat) :
    ∀ l, List.Perm (insertBySize x l) (x :: l) := by
  intro l
  induction l with
  | nil => exact List.Perm.refl _
  | cons y ys ih =>
    simp only [insertBySize]
    by_cases h : sizeLE x y = true
    · rw [if_pos h]
    · rw [if_neg h]
      exact List.Perm.trans (List.Perm.cons y ih) (List.Perm.swap x y ys)

theorem insertBySize_sorted (x : Nat × Nat) :
    ∀ l, l.Pairwise (fun a b => sizeLE a b = true) →
      (insertBySize x l).Pairwise (fun a b => sizeLE a b = true) := by
  intro l
  induction l with
  | nil => intro _; simp [insertBySize]
  | cons y ys ih =>
    intro h
    rcases List.pairwise_cons.mp h with ⟨hy, hys⟩
    simp only [insertBySize]
    by_cases hxy : sizeLE x y = true
    · rw [if_pos hxy]
      refine List.pairwise_cons.mpr ⟨?_, h⟩
      intro b hb
      rcases List.mem_cons.mp hb with rfl | hb2
      · exact hxy
      · exact sizeLE_trans hxy (hy b hb2)
    · rw [if_neg hxy]
      have hyx : sizeLE y x = true := (sizeLE_total x y).resolve_left hxy
      refine List.pairwise_cons.mpr ⟨?_, ih hys⟩
      intro b hb
      rcases (mem_insertBySize x ys b).mp hb with rfl | hb2
      · exact hyx
      · exact hy b hb2

theorem sortBySize_perm : ∀ l : List (Nat × Nat), List.Perm (sortBySize l) l := by
  intro l
  induction l with
  | nil => exact List.Perm.refl _
  | cons x xs ih =>
    exact List.Perm.trans (insertBySize_perm x (sortBySize xs)) (List.Perm.cons x ih)

theorem sortBySize_sorted :
    ∀ l : List (Nat × Nat), (sortBySize l).Pairwise (fun a b => sizeLE a b = true) := by
  intro l
  induction l with
  | nil => exact List.Pairwise.nil
  | cons x xs ih => exact insertBySize_sorted x (sortBySize xs) ih

/-! ## Collection lemmas -/

/-- Specification form of the collection loops: the (symbol, size) pairs of
nonzero-size entries, in symbol order. -/
def livePairs : List Code → Nat → List (Nat × Nat)
  | [], _ => []
  | c :: rest, idx =>
    if c.size = 0 then livePairs rest (idx + 1) else (idx, c.size) :: livePairs rest (idx + 1)

theorem collectPairs_ok_eq :
    ∀ (codes : List Code) (idx : Nat) (l : List (Nat × Nat)),
      collectPairs codes idx = .ok l → l = livePairs codes idx := by
  intro codes
  induction codes with
  | nil =>
    intro idx l h
    cases h
    rfl
  | cons c rest ih =>
    intro idx l h
    simp only [collectPairs, livePairs] at h ⊢
    by_cases h0 : c.size = 0
    · rw [if_pos h0] at h ⊢
      exact ih _ _ h
    · rw [if_neg h0] at h ⊢
      by_cases h15 : c.size > maxBitsPerCode
      · rw [if_pos h15] at h
        cases h
      · rw [if_neg h15] at h
        cases hrec : collectPairs rest (idx + 1) with
        | ok l2 =>
          rw [hrec] at h
          cases h
          rw [ih _ _ hrec]
        | error e =>
          rw [hrec] at h
          cases h

theorem collectPairs_ok_le15 :
    ∀ (codes : List Code) (idx : Nat) (l : List (Nat × Nat)),
      collectPairs codes idx = .ok l → ∀ p ∈ l, p.2 ≤ maxBitsPerCode := by
  intro codes
  induction codes with
  | nil =>
    intro idx l h p hp
    cases h
    exact absurd hp (List.not_mem_nil p)
  | cons c rest ih =>
    intro idx l h p hp
    simp only [collectPairs] at h
    by_cases h0 : c.size = 0
    · rw [if_pos h0] at h
      exact ih _ _ h p hp
    · rw [if_neg h0] at h
      by_cases h15 : c.size > maxBitsPerCode
      · rw [if_pos h15] at h
        cases h
      · rw [if_neg h15] at h
        cases hrec : collectPairs rest (idx + 1) with
        | ok l2 =>
          rw [hrec] at h
          cases h
          rcases List.mem_cons.mp hp with rfl | hp2
          · omega
          · exact ih _ _ hrec p hp2
        | error e =>
          rw [hrec] at h
          cases h

theorem collectPairs_err_of_over :
    ∀ (codes : List Code) (idx : Nat), (∃ c ∈ codes, maxBitsPerCode < c.size) →
      ∃ e, collectPairs codes idx = .error e := by
  intro codes
  induction codes with
  | nil =>
    intro idx h
    rcases h with ⟨c, hc, -⟩
    exact absurd hc (List.not_mem_nil c)
  | cons c rest ih =>
    intro idx h
    simp only [collectPairs]
    by_cases h0 : c.size = 0
    · rw [if_pos h0]
      apply ih
      rcases h with ⟨c2, hc2, hgt⟩
      rcases List.mem_cons.mp hc2 with rfl | hc3
      · omega
      · exact ⟨c2, hc3, hgt⟩
    · rw [if_neg h0]
      by_cases h15 : c.size > maxBitsPerCode
      · rw [if_pos h15]
        exact ⟨_, rfl⟩
      · rw [if_neg h15]
        have hrest : ∃ c2 ∈ rest, maxBitsPerCode < c2.size := by
          rcases h with ⟨c2, hc2, hgt⟩
          rcases List.mem_cons.mp hc2 with rfl | hc3
          · omega
          · exact ⟨c2, hc3, hgt⟩
        rcases ih (idx + 1) hrest with ⟨e, he⟩
        rw [he]
        exact ⟨e, rfl⟩

theorem livePairs_mem :
    ∀ (codes : List Code) (idx : Nat) (p : Nat × Nat), p ∈ livePairs codes idx →
      idx ≤ p.1 ∧ p.1 - idx < codes.length ∧
        (codes.getD (p.1 - idx) ⟨0, 0⟩).size = p.2 ∧ p.2 ≠ 0 := by
  intro codes
  induction codes with
  | nil =>
    intro idx p hp
    exact absurd hp (List.not_mem_nil p)
  | cons c rest ih =>
    intro idx p hp
    simp only [livePairs] at hp
    by_cases h0 : c.size = 0
    · rw [if_pos h0] at hp
      have hr := ih (idx + 1) p hp
      have hgap : p.1 - idx = (p.1 - (idx + 1)) + 1 := by omega
      refine ⟨by omega, ?_, ?_, hr.2.2.2⟩
      · simp only [List.length_cons]
        omega
      · rw [hgap]
        simpa using hr.2.2.1
    · rw [if_neg h0] at hp
      rcases List.mem_cons.mp hp with rfl | hp2
      · refine ⟨le_refl _, by simp, ?_, h0⟩
        simp
      · have hr := ih (idx + 1) p hp2
        have hgap : p.1 - idx = (p.1 - (idx + 1)) + 1 := by omega
        refine ⟨by omega, ?_, ?_, hr.2.2.2⟩
        · simp only [List.length_cons]
          omega
        · rw [hgap]
          simpa using hr.2.2.1

theorem livePairs_mem_of :
    ∀ (codes : List Code) (idx j : Nat), j < codes.length →
      (codes.getD j ⟨0, 0⟩).size ≠ 0 →
      (idx + j, (codes.getD j ⟨0, 0⟩).size) ∈ livePairs codes idx := by
  intro codes
  induction codes with
  | nil =>
    intro idx j hj _
    simp at hj
  | cons c rest ih =>
    intro idx j hj hnz
    simp only [livePairs]
    cases j with
    | zero =>
      simp only [List.getD_cons_zero] at hnz ⊢
      rw [if_neg hnz]
      exact List.mem_cons_self _ _
    | succ j2 =>
      simp only [List.getD_cons_succ] at hnz ⊢
      have hj2 : j2 < rest.length := by
        simp only [List.length_cons] at hj
        omega
      have := ih (idx + 1) j2 hj2 hnz
      have harith : idx + 1 + j2 = idx + (j2 + 1) := by omega
      rw [harith] at this
      by_cases h0 : c.size = 0
      · rw [if_pos h0]
        exact this
      · rw [if_neg h0]
        exact List.mem_cons_of_mem _ this

theorem livePairs_pairwise :
    ∀ (codes : List Code) (idx : Nat),
      (livePairs codes idx).Pairwise (fun a b => a.1 < b.1) := by
  intro codes
  induction codes with
  | nil => intro idx; exact List.Pairwise.nil
  | cons c rest ih =>
    intro idx
    simp only [livePairs]
    by_cases h0 : c.size = 0
    · rw [if_pos h0]
      exact ih (idx + 1)
    · rw [if_neg h0]
      refine List.pairwise_cons.mpr ⟨?_, ih (idx + 1)⟩
      intro p hp
      have := (livePairs_mem rest (idx + 1) p hp).1
      simp only
      omega

/-! ## writeAll lemmas -/

theorem setBits_map_size (codes : List Code) (sym b : Nat) :
    (setBits codes sym b).map (fun c => c.size) = codes.map (fun c => c.size) := by
  unfold setBits
  by_cases h : sym < codes.length
  · rw [List.map_set]
    have : (codes.map (fun c => c.size)).getD sym 0 = (codes.getD sym ⟨0, 0⟩).size := by
      rw [List.getD_eq_getElem?_getD, List.getD_eq_getElem?_getD, List.getElem?_map]
      cases hx : codes[sym]? with
      | none => rfl
      | some c => rfl
    rw [← this]
    apply List.ext_getElem?
    intro i
    by_cases hi : i = sym
    · subst hi
      rw [List.getElem?_set_self (by simpa using h)]
      rw [List.getD_eq_getElem?_getD]
      cases hx : (codes.map (fun c => c.size))[i]? with
      | none =>
        rw [List.getElem?_eq_none_iff] at hx
        simp only [List.length_map] at hx
        omega
      | some v => simp [hx]
    · rw [List.getElem?_set_ne (fun hh => hi hh.symm)]
  · rw [List.set_eq_of_length_le (by omega)]

theorem writeAll_map_size :
    ∀ (trs : List (Nat × Nat × Nat)) (codes : List Code),
      (writeAll codes trs).map (fun c => c.size) = codes.map (fun c => c.size) := by
  intro trs
  induction trs with
  | nil => intro codes; rfl
  | cons tr rest ih =>
    intro codes
    simp only [writeAll]
    rw [ih, setBits_map_size]

theorem writeAll_length (trs : List (Nat × Nat × Nat)) (codes : List Code) :
    (writeAll codes trs).length = codes.length := by
  have := writeAll_map_size trs codes
  have h1 := congrArg List.length this
  simpa using h1

theorem writeAll_getD_notmem :
    ∀ (trs : List (Nat × Nat × Nat)) (codes : List Code) (j : Nat),
      (∀ tr ∈ trs, tr.1 ≠ j) →
      (writeAll codes trs).getD j ⟨0, 0⟩ = codes.getD j ⟨0, 0⟩ := by
  intro trs
  induction trs with
  | nil => intro codes j _; rfl
  | cons tr rest ih =>
    intro codes j hne
    simp only [writeAll]
    rw [ih _ _ (fun x hx => hne x (List.mem_cons_of_mem _ hx))]
    exact getD_set_ne _ _ _ _ _ (hne tr (List.mem_cons_self _ _))

theorem writeAll_getD_mem :
    ∀ (trs : List (Nat × Nat × Nat)) (codes : List Code) (sym b v : Nat),
      (sym, b, v) ∈ trs →
      trs.Pairwise (fun a c => a.1 ≠ c.1) →
      sym < codes.length →
      (writeAll codes trs).getD sym ⟨0, 0⟩ =
        ⟨(codes.getD sym ⟨0, 0⟩).size, revBits b v⟩ := by
  intro trs
  induction trs with
  | nil =>
    intro codes sym b v hmem _ _
    exact absurd hmem (List.not_mem_nil _)
  | cons tr rest ih =>
    intro codes sym b v hmem hpw hlen
    rcases List.pairwise_cons.mp hpw with ⟨hhead, hrest⟩
    rcases List.mem_cons.mp hmem with heq | hmem2
    · cases heq
      simp only [writeAll]
      rw [writeAll_getD_notmem rest _ sym (fun x hx => (hhead x hx).symm)]
      unfold setBits
      exact getD_set_self _ _ _ _ hlen
    · have hne : tr.1 ≠ sym := hhead (sym, b, v) hmem2
      simp only [writeAll]
      rw [ih _ sym b v hmem2 hrest (by simpa [setBits] using hlen)]
      unfold setBits
      rw [getD_set_ne _ _ _ _ _ hne]

/-! ## secondPass characterization -/

theorem secondPass_ok_cases (codes out : List Code) (h : secondPass codes = SPRes.ok out) :
    ∃ pairs s0 rest, collectPairs codes 0 = .ok pairs ∧ sortBySize pairs = s0 :: rest ∧
      spOk (s0 :: rest) s0.2 0 = true ∧
      out = writeAll codes (spTriples (s0 :: rest) s0.2 0) := by
  unfold secondPass at h
  cases hc : collectPairs codes 0 with
  | error e =>
    rw [hc] at h
    simp only at h
    cases h
  | ok pairs =>
    rw [hc] at h
    simp only at h
    cases hs : sortBySize pairs with
    | nil =>
      rw [hs] at h
      cases h
    | cons s0 rest =>
      rw [hs] at h
      rcases (spLoop_ok_iff _ _ _ _ _).mp h with ⟨hok, rfl⟩
      exact ⟨pairs, s0, rest, rfl, hs, hok, rfl⟩

theorem secondPass_ok_entries (codes out : List Code) (h : secondPass codes = SPRes.ok out) :
    (∀ j, j < codes.length → (codes.getD j ⟨0, 0⟩).size ≠ 0 →
      ∃ v, v < 2 ^ (codes.getD j ⟨0, 0⟩).size ∧
        out.getD j ⟨0, 0⟩ =
          ⟨(codes.getD j ⟨0, 0⟩).size, revBits (codes.getD j ⟨0, 0⟩).size v⟩) ∧
    (∀ j k, j < codes.length → k < codes.length → j ≠ k →
      (codes.getD j ⟨0, 0⟩).size ≠ 0 → (codes.getD k ⟨0, 0⟩).size ≠ 0 →
      ¬ isPfxOf (out.getD j ⟨0, 0⟩) (out.getD k ⟨0, 0⟩)) := by
  rcases secondPass_ok_cases codes out h with ⟨pairs, s0, rest, hc, hs, hok, rfl⟩
  have hpairs := collectPairs_ok_eq codes 0 pairs hc
  have hperm : List.Perm (s0 :: rest) pairs := hs ▸ sortBySize_perm pairs
  -- sortedness transferred to plain size comparison
  have hsorted0 : (s0 :: rest).Pairwise (fun a b => sizeLE a b = true) :=
    hs ▸ sortBySize_sorted pairs
  have hsorted : (s0 :: rest).Pairwise (fun a b : Nat × Nat => a.2 ≤ b.2) := by
    refine hsorted0.imp ?_
    intro a b hab
    rw [sizeLE_iff] at hab
    omega
  have hrange : ∀ p ∈ s0 :: rest, s0.2 ≤ p.2 ∧ p.2 ≤ 15 := by
    intro p hp
    have h15 : p.2 ≤ 15 :=
      collectPairs_ok_le15 codes 0 pairs hc p (hperm.mem_iff.mp hp)
    rcases List.mem_cons.mp hp with rfl | hp2
    · exact ⟨le_refl _, h15⟩
    · exact ⟨(List.pairwise_cons.mp hsorted).1 p hp2, h15⟩
  have hinv := spInv (s0 :: rest) s0.2 0 hsorted hrange (Nat.zero_le _) hok
  set trs := spTriples (s0 :: rest) s0.2 0 with htrs
  have hproj : trs.map (fun tr => (tr.1, tr.2.1)) = s0 :: rest := spTriples_proj _ _ _
  -- symbol distinctness carried to the triples
  have hpairs_ne : pairs.Pairwise (fun a b : Nat × Nat => a.1 ≠ b.1) := by
    rw [hpairs]
    refine (livePairs_pairwise codes 0).imp ?_
    intro a b hab
    omega
  have hsorted_ne : (s0 :: rest).Pairwise (fun a b : Nat × Nat => a.1 ≠ b.1) := by
    refine (List.Perm.pairwise_iff ?_ hperm).mpr hpairs_ne
    intro a b hab
    exact hab.symm
  have htrs_ne : trs.Pairwise (fun a b => a.1 ≠ b.1) := by
    have := hproj ▸ hsorted_ne
    rw [List.pairwise_map] at this
    exact this
  -- membership of each live symbol as a triple
  have hfind : ∀ j, j < codes.length → (codes.getD j ⟨0, 0⟩).size ≠ 0 →
      ∃ tr ∈ trs, tr.1 = j ∧ tr.2.1 = (codes.getD j ⟨0, 0⟩).size := by
    intro j hj hnz
    have hmem0 : (j, (codes.getD j ⟨0, 0⟩).size) ∈ livePairs codes 0 := by
      have := livePairs_mem_of codes 0 j hj hnz
      simpa using this
    have hmemp : (j, (codes.getD j ⟨0, 0⟩).size) ∈ pairs := hpairs ▸ hmem0
    have hmems : (j, (codes.getD j ⟨0, 0⟩).size) ∈ s0 :: rest := hperm.mem_iff.mpr hmemp
    have hmemm : (j, (codes.getD j ⟨0, 0⟩).size) ∈ trs.map (fun tr => (tr.1, tr.2.1)) :=
      hproj ▸ hmems
    rcases List.mem_map.mp hmemm with ⟨tr, htr, heq⟩
    exact ⟨tr, htr, congrArg Prod.fst heq, congrArg Prod.snd heq⟩
  have hentry : ∀ j, j < codes.length → (codes.getD j ⟨0, 0⟩).size ≠ 0 →
      ∃ tr ∈ trs, tr.1 = j ∧ tr.2.1 = (codes.getD j ⟨0, 0⟩).size ∧
        tr.2.2 < 2 ^ tr.2.1 ∧
        (writeAll codes trs).getD j ⟨0, 0⟩ =
          ⟨(codes.getD j ⟨0, 0⟩).size, revBits tr.2.1 tr.2.2⟩ := by
    intro j hj hnz
    rcases hfind j hj hnz with ⟨tr, htr, h1, h2⟩
    have hwf := (hinv.1 tr htr).2.2
    have htr2 : (tr.1, tr.2.1, tr.2.2) ∈ trs := by
      have : tr = (tr.1, tr.2.1, tr.2.2) := rfl
      rw [← this]
      exact htr
    have hw := writeAll_getD_mem trs codes tr.1 tr.2.1 tr.2.2 htr2 htrs_ne (h1 ▸ hj)
    rw [h1] at hw
    exact ⟨tr, htr, h1, h2, hwf, hw⟩
  constructor
  · intro j hj hnz
    rcases hentry j hj hnz with ⟨tr, htr, h1, h2, hwf, hw⟩
    refine ⟨tr.2.2, ?_, ?_⟩
    · rw [← h2]
      exact hwf
    · rw [hw, h2]
  · intro j k hj hk hjk hnzj hnzk
    rcases hentry j hj hnzj with ⟨tj, htj, hj1, hj2, hjwf, hjw⟩
    rcases hentry k hk hnzk with ⟨tk, htk, hk1, hk2, hkwf, hkw⟩
    have htne : tj ≠ tk := by
      intro hEq
      rw [hEq, hk1] at hj1
      exact hjk hj1.symm
    intro hpfx
    rw [hjw, hkw] at hpfx
    have hszle : (codes.getD j ⟨0, 0⟩).size ≤ (codes.getD k ⟨0, 0⟩).size := hpfx.1
    rcases pairwise_mem_rel hinv.2 htj htk htne with hrel | hrel
    · -- tj assigned before tk
      have hiff := isPfxOf_rev_iff tj.2.1 tk.2.1 tj.2.2 tk.2.2 hrel.1 hjwf hkwf
      rw [hj2, hk2] at hiff
      have hdiv : tk.2.2 / 2 ^ (tk.2.1 - tj.2.1) = tj.2.2 := by
        rw [← hj2, ← hk2] at hpfx
        rw [← hj2, ← hk2] at hiff
        exact hiff.mp hpfx
      have hge : tj.2.2 + 1 ≤ tk.2.2 / 2 ^ (tk.2.1 - tj.2.1) :=
        (Nat.le_div_iff_mul_le (Nat.pos_pow_of_pos _ (by norm_num))).mpr hrel.2
      omega
    · -- tk assigned before tj
      have hble : tk.2.1 ≤ tj.2.1 := hrel.1
      have hbeq : tj.2.1 = tk.2.1 := by
        rw [hj2, hk2]
        rw [hj2, hk2] at hble
        omega
      have hiff := isPfxOf_rev_iff tj.2.1 tk.2.1 tj.2.2 tk.2.2 (le_of_eq hbeq) hjwf hkwf
      have hdiv : tk.2.2 / 2 ^ (tk.2.1 - tj.2.1) = tj.2.2 := by
        rw [← hj2, ← hk2] at hpfx
        exact hiff.mp hpfx
      have hz : tk.2.1 - tj.2.1 = 0 := by omega
      rw [hz, pow_zero, Nat.div_one] at hdiv
      have : tk.2.2 + 1 ≤ tj.2.2 := by
        have h0 : (tk.2.2 + 1) * 2 ^ (tj.2.1 - tk.2.1) ≤ tj.2.2 := hrel.2
        have hz2 : tj.2.1 - tk.2.1 = 0 := by omega
        rw [hz2, pow_zero, Nat.mul_one] at h0
        exact h0
      omega

theorem secondPass_ok_map_size (codes out : List Code) (h : secondPass codes = SPRes.ok out) :
    out.map (fun c => c.size) = codes.map (fun c => c.size) := by
  rcases secondPass_ok_cases codes out h with ⟨pairs, s0, rest, hc, hs, hok, rfl⟩
  exact writeAll_map_size _ _

theorem secondPass_err_of_over (codes : List Code)
    (hover : ∃ c ∈ codes, maxBitsPerCode < c.size) :
    ∃ e, secondPass codes = SPRes.err e codes := by
  rcases collectPairs_err_of_over codes 0 hover with ⟨e, he⟩
  refine ⟨e, ?_⟩
  unfold secondPass
  rw [he]

/-! ## Encoder construction helpers -/

theorem map_mk_getD (sizes : List Nat) (j : Nat) (hj : j < sizes.length) :
    ((sizes.map (fun s => (⟨s, 0⟩ : Code))).getD j ⟨0, 0⟩) = ⟨sizes.getD j 0, 0⟩ := by
  rw [List.getD_eq_getElem?_getD, List.getD_eq_getElem?_getD, List.getElem?_map]
  rw [List.getElem?_eq_getElem hj]
  rfl

theorem map_size_of_mk (sizes : List Nat) :
    (sizes.map (fun s => (⟨s, 0⟩ : Code))).map (fun c => c.size) = sizes := by
  induction sizes with
  | nil => rfl
  | cons a l ih => simp only [List.map_cons, ih]

theorem encoderInitFromSizesCore_ok_cases (sizes : List Nat) (e : Encoder)
    (h : encoderInitFromSizesCore sizes = .ok e) :
    secondPass (sizes.map fun s => (⟨s, 0⟩ : Code)) = SPRes.ok e.codes := by
  simp only [encoderInitFromSizesCore] at h
  cases hsp : secondPass (sizes.map fun s => (⟨s, 0⟩ : Code)) with
  | ok c =>
    rw [hsp] at h
    simp only at h
    cases h
    rfl
  | err e2 cs =>
    rw [hsp] at h
    simp only at h
    cases h
  | oob =>
    rw [hsp] at h
    simp only at h
    cases h

theorem secondPass_ok_live_le15 (codes out : List Code) (h : secondPass codes = SPRes.ok out) :
    ∀ j, j < codes.length → (codes.getD j ⟨0, 0⟩).size ≠ 0 →
      (codes.getD j ⟨0, 0⟩).size ≤ maxBitsPerCode := by
  intro j hj hnz
  rcases secondPass_ok_cases codes out h with ⟨pairs, s0, rest, hc, hs, hok, -⟩
  have hmem0 : (j, (codes.getD j ⟨0, 0⟩).size) ∈ livePairs codes 0 := by
    have := livePairs_mem_of codes 0 j hj hnz
    simpa using this
  have hmemp : (j, (codes.getD j ⟨0, 0⟩).size) ∈ pairs :=
    (collectPairs_ok_eq codes 0 pairs hc) ▸ hmem0
  exact collectPairs_ok_le15 codes 0 pairs hc _ hmemp

/-! ## Claim C4 -/

/-- C4 amended: for size lists whose length fits the int32 symbol index
(`Symbol(len(sizes))` truncates longer lists, or panics at
`make([]Code, numSymbols)` when the count goes negative), the
error-reporting construction path (InitFromSizes, hence also
InitFromDecoder) reports InvalidLength/oversubscription to its caller
rather than silently producing a truncated table — a declared length above
maxBitsPerCode always yields an error return, and a successful return
carries exactly the requested sizes with every live code's bits properly
assigned inside its width.  (Encoder.Init from frequencies has no error
channel and discards the internal failure; see the counterexample.) -/
theorem c4_error_reporting :
    (∀ sizes : List Nat, sizes.length < 2 ^ 31 → (∃ s ∈ sizes, maxBitsPerCode < s) →
      (encoderInitFromSizes sizes).isErr = true) ∧
    (∀ (sizes : List Nat) (e : Encoder), sizes.length < 2 ^ 31 →
      encoderInitFromSizes sizes = .ok e →
      e.SizeBySymbol = sizes ∧
      ∀ j, j < sizes.length → sizes.getD j 0 ≠ 0 →
        sizes.getD j 0 ≤ maxBitsPerCode ∧
        (e.Encode j).size = sizes.getD j 0 ∧
        (e.Encode j).bits < 2 ^ sizes.getD j 0) := by
  constructor
  · intro sizes hlen hover
    have hover2 : ∃ c ∈ sizes.map (fun s => (⟨s, 0⟩ : Code)), maxBitsPerCode < c.size := by
      rcases hover with ⟨s, hs, hgt⟩
      exact ⟨⟨s, 0⟩, List.mem_map.mpr ⟨s, hs, rfl⟩, hgt⟩
    rcases secondPass_err_of_over _ hover2 with ⟨e, he⟩
    rw [encoderInitFromSizes_eq_core sizes hlen]
    simp only [encoderInitFromSizesCore]
    rw [he]
    rfl
  · intro sizes e hlen h
    rw [encoderInitFromSizes_eq_core sizes hlen] at h
    have hsp := encoderInitFromSizesCore_ok_cases sizes e h
    set codes0 := sizes.map (fun s => (⟨s, 0⟩ : Code)) with hc0
    have hlen0 : codes0.length = sizes.length := by
      rw [hc0, List.length_map]
    constructor
    · show e.codes.map (fun c => c.size) = sizes
      rw [secondPass_ok_map_size codes0 e.codes hsp, hc0, map_size_of_mk]
    · intro j hj hnz
      have hj0 : j < codes0.length := by omega
      have hgd : codes0.getD j ⟨0, 0⟩ = ⟨sizes.getD j 0, 0⟩ := map_mk_getD sizes j hj
      have hnz0 : (codes0.getD j ⟨0, 0⟩).size ≠ 0 := by
        rw [hgd]
        exact hnz
      have h15 := secondPass_ok_live_le15 codes0 e.codes hsp j hj0 hnz0
      rw [hgd] at h15
      rcases (secondPass_ok_entries codes0 e.codes hsp).1 j hj0 hnz0 with ⟨v, hv, hout⟩
      rw [hgd] at hv hout
      refine ⟨h15, ?_, ?_⟩
      · show (e.codes.getD j ⟨0, 0⟩).size = sizes.getD j 0
        rw [hout]
      · show (e.codes.getD j ⟨0, 0⟩).bits < 2 ^ sizes.getD j 0
        rw [hout]
        exact revBits_lt _ _

/-- Witness for c4_error_reporting: the overlong input [16] is refused with
an error, and the Scenario A input produces a fully assigned table. -/
theorem c4_error_reporting_witness :
    (∃ s ∈ [16], maxBitsPerCode < s) ∧
    (encoderInitFromSizes [16]).isErr = true ∧
    encoderInitFromSizes [4, 4, 3, 3, 3, 1] =
      .ok ⟨[⟨4, 7⟩, ⟨4, 15⟩, ⟨3, 1⟩, ⟨3, 5⟩, ⟨3, 3⟩, ⟨1, 0⟩], 1, 4⟩ ∧
    (⟨[⟨4, 7⟩, ⟨4, 15⟩, ⟨3, 1⟩, ⟨3, 5⟩, ⟨3, 3⟩, ⟨1, 0⟩], 1, 4⟩ : Encoder).SizeBySymbol =
      [4, 4, 3, 3, 3, 1] ∧
    (5 : Nat) < [4, 4, 3, 3, 3, 1].length ∧ [4, 4, 3, 3, 3, 1].getD 5 0 ≠ 0 ∧
    [4, 4, 3, 3, 3, 1].getD 5 0 ≤ maxBitsPerCode := by
  refine ⟨by decide, c4_error_reporting.1 [16] (by decide) (by decide), by decide, ?_,
    by decide, by decide, ?_⟩
  · exact (c4_error_reporting.2 [4, 4, 3, 3, 3, 1]
      ⟨[⟨4, 7⟩, ⟨4, 15⟩, ⟨3, 1⟩, ⟨3, 5⟩, ⟨3, 3⟩, ⟨1, 0⟩], 1, 4⟩ (by decide) (by decide)).1
  · exact ((c4_error_reporting.2 [4, 4, 3, 3, 3, 1]
      ⟨[⟨4, 7⟩, ⟨4, 15⟩, ⟨3, 1⟩, ⟨3, 5⟩, ⟨3, 3⟩, ⟨1, 0⟩], 1, 4⟩ (by decide) (by decide)).2 5
      (by decide) (by decide)).1

/-! ## Small (at most two live symbols) frequency path -/

theorem collectNodes_mem :
    ∀ (f : List Nat) (idx : Nat) (p : Int × Nat), p ∈ collectNodes f idx →
      ∃ k, p.1 = Int.ofNat k ∧ idx ≤ k := by
  intro f
  induction f with
  | nil =>
    intro idx p hp
    exact absurd hp (List.not_mem_nil p)
  | cons a rest ih =>
    intro idx p hp
    simp only [collectNodes] at hp
    by_cases h0 : a ≠ 0
    · rw [if_pos h0] at hp
      rcases List.mem_cons.mp hp with rfl | hp2
      · exact ⟨idx, rfl, le_refl _⟩
      · rcases ih (idx + 1) p hp2 with ⟨k, hk1, hk2⟩
        exact ⟨k, hk1, by omega⟩
    · rw [if_neg h0] at hp
      rcases ih (idx + 1) p hp with ⟨k, hk1, hk2⟩
      exact ⟨k, hk1, by omega⟩

theorem collectNodes_pairwise :
    ∀ (f : List Nat) (idx : Nat),
      (collectNodes f idx).Pairwise (fun a b => a.1 < b.1) := by
  intro f
  induction f with
  | nil => intro idx; exact List.Pairwise.nil
  | cons a rest ih =>
    intro idx
    simp only [collectNodes]
    by_cases h0 : a ≠ 0
    · rw [if_pos h0]
      refine List.pairwise_cons.mpr ⟨?_, ih (idx + 1)⟩
      intro p hp
      rcases collectNodes_mem rest (idx + 1) p hp with ⟨k, hk1, hk2⟩
      simp only [hk1]
      exact Int.ofNat_lt.mpr (by omega)
    · rw [if_neg h0]
      exact ih (idx + 1)

theorem encoderInit_ok_small (n : Nat) (f : List Nat) (e : Encoder)
    (h : encoderInit n f = .ok e) (hlen : (collectNodes f 0).length ≤ 2) :
    e.codes = assignSmall (List.replicate n ⟨0, 0⟩) (collectNodes f 0) 0 := by
  unfold encoderInit at h
  by_cases h1 : n < 1
  · rw [if_pos h1] at h
    cases h
  rw [if_neg h1] at h
  by_cases h2 : n > 2 ^ 31 - 1
  · rw [if_pos h2] at h
    cases h
  rw [if_neg h2] at h
  by_cases h3 : n < f.length
  · rw [if_pos h3] at h
    cases h
  rw [if_neg h3] at h
  simp only at h
  rw [if_pos hlen] at h
  cases h
  rfl

/-! ## Size histograms and the exact code-space sum -/

/-- Number of entries of the size list equal to b (used for b at least 1). -/
def cnt (S : List Nat) (b : Nat) : Nat := (S.filter (fun s => decide (s = b))).length

/-- Number of nonzero entries of the size list. -/
def liveCnt (S : List Nat) : Nat := (S.filter (fun s => decide (s ≠ 0))).length

/-- The exact (arbitrary-precision) consumed code space at depth b, by RFC
1951's recurrence: TT b = sum over live sizes a ≤ b of 2^(b - a). -/
def TT (S : List Nat) : Nat → Nat
  | 0 => 0
  | b + 1 => 2 * TT S b + cnt S (b + 1)

/-- What countArray slot b holds for the histogrammed list (slot 0 is never
incremented). -/
def cnt0 (S : List Nat) (b : Nat) : Nat := if b = 0 then 0 else cnt S b

/-- The largest entry of the size list (0 when empty or all-zero): for a
valid list this is the largest nonzero size. -/
def maxNZ (S : List Nat) : Nat := S.foldr max 0

theorem cnt_cons (a b : Nat) (R : List Nat) :
    cnt (a :: R) b = (if a = b then 1 else 0) + cnt R b := by
  by_cases h : a = b
  · simp [cnt, List.filter, h]
    omega
  · simp [cnt, List.filter, h]

theorem cnt_le_length (S : List Nat) (b : Nat) : cnt S b ≤ S.length := by
  exact List.length_filter_le _ _

theorem liveCnt_cons (a : Nat) (R : List Nat) :
    liveCnt (a :: R) = (if a = 0 then 0 else 1) + liveCnt R := by
  by_cases h : a = 0
  · simp [liveCnt, List.filter, h]
  · simp [liveCnt, List.filter, h]
    omega

theorem liveCnt_le_length (S : List Nat) : liveCnt S ≤ S.length := by
  exact List.length_filter_le _ _

theorem liveCnt_nil : liveCnt [] = 0 := rfl

theorem liveCnt_eq_zero_iff (S : List Nat) : liveCnt S = 0 ↔ ∀ s ∈ S, s = 0 := by
  induction S with
  | nil => simp [liveCnt]
  | cons a R ih =>
    rw [liveCnt_cons]
    by_cases h : a = 0
    · rw [if_pos h]
      simp only [Nat.zero_add, ih, List.mem_cons]
      constructor
      · intro hall s hs
        rcases hs with rfl | hs2
        · exact h
        · exact hall s hs2
      · intro hall s hs
        exact hall s (Or.inr hs)
    · rw [if_neg h]
      simp only [List.mem_cons]
      constructor
      · intro habs
        omega
      · intro hall
        exact absurd (hall a (Or.inl rfl)) h

theorem cnt_mem (S : List Nat) (b : Nat) (h : cnt S b ≠ 0) : b ∈ S := by
  unfold cnt at h
  have hne : S.filter (fun s => decide (s = b)) ≠ [] := by
    intro hnil
    rw [hnil] at h
    exact h rfl
  rcases List.exists_mem_of_ne_nil _ hne with ⟨x, hx⟩
  have := List.of_mem_filter hx
  have hxb : x = b := by simpa using this
  exact hxb ▸ List.mem_of_mem_filter hx

theorem cnt_pos_of_mem (S : List Nat) (b : Nat) (h : b ∈ S) : cnt S b ≠ 0 := by
  unfold cnt
  have : b ∈ S.filter (fun s => decide (s = b)) := List.mem_filter.mpr ⟨h, by simp⟩
  intro hzero
  rw [List.length_eq_zero] at hzero
  rw [hzero] at this
  exact absurd this (List.not_mem_nil b)

theorem TT_mono (S : List Nat) : ∀ b d, TT S b ≤ TT S (b + d) := by
  intro b d
  induction d with
  | zero => exact le_refl _
  | succ d ih =>
    have : b + (d + 1) = (b + d) + 1 := by omega
    rw [this]
    simp only [TT]
    omega

theorem TT_scale (S : List Nat) : ∀ b d, TT S b * 2 ^ d ≤ TT S (b + d) := by
  intro b d
  induction d with
  | zero => simp
  | succ d ih =>
    have h1 : b + (d + 1) = (b + d) + 1 := by omega
    rw [h1]
    simp only [TT]
    have h2 : TT S b * 2 ^ (d + 1) = 2 * (TT S b * 2 ^ d) := by ring
    omega

theorem TT_zero_below (S : List Nat) (m : Nat)
    (h : ∀ b, 1 ≤ b → b < m → cnt S b = 0) :
    ∀ b, b < m → TT S b = 0 := by
  intro b
  induction b with
  | zero => intro _; rfl
  | succ b ih =>
    intro hlt
    simp only [TT]
    rw [ih (by omega), h (b + 1) (by omega) hlt]

theorem TT_above (S : List Nat) (m : Nat)
    (h : ∀ b, m < b → cnt S b = 0) :
    ∀ d, TT S (m + d) = TT S m * 2 ^ d := by
  intro d
  induction d with
  | zero => simp
  | succ d ih =>
    have h1 : m + (d + 1) = (m + d) + 1 := by omega
    rw [h1]
    simp only [TT]
    rw [ih, h (m + d + 1) (by omega)]
    ring

theorem TT_le_pow (S : List Nat) (m : Nat)
    (hcomp : TT S m = 2 ^ m ∨ (TT S m = 1 ∧ m = 1)) :
    ∀ b, b ≤ m → TT S b ≤ 2 ^ b := by
  intro b hb
  rcases hcomp with hc | ⟨hc, hm⟩
  · have hs := TT_scale S b (m - b)
    have hbm : b + (m - b) = m := by omega
    rw [hbm, hc] at hs
    have hpow : (2 : Nat) ^ m = 2 ^ b * 2 ^ (m - b) := by
      rw [← pow_add, hbm]
    rw [hpow] at hs
    have hpos : 0 < 2 ^ (m - b) := Nat.pos_pow_of_pos _ (by norm_num)
    exact Nat.le_of_mul_le_mul_right hs hpos
  · subst hm
    interval_cases b
    · simp [TT]
    · rw [hc]
      norm_num

theorem maxNZ_ge (S : List Nat) : ∀ s ∈ S, s ≤ maxNZ S := by
  induction S with
  | nil => intro s hs; exact absurd hs (List.not_mem_nil s)
  | cons a R ih =>
    intro s hs
    simp only [maxNZ, List.foldr_cons] at *
    rcases List.mem_cons.mp hs with rfl | hs2
    · exact le_max_left _ _
    · exact le_trans (ih s hs2) (le_max_right _ _)

theorem maxNZ_mem (S : List Nat) : maxNZ S = 0 ∨ maxNZ S ∈ S := by
  induction S with
  | nil => exact Or.inl rfl
  | cons a R ih =>
    simp only [maxNZ, List.foldr_cons] at *
    rcases Nat.le_total a (R.foldr max 0) with h | h
    · rw [max_eq_right h]
      rcases ih with h0 | hmem
      · exact Or.inl h0
      · exact Or.inr (List.mem_cons_of_mem a hmem)
    · rw [max_eq_left h]
      exact Or.inr (List.mem_cons_self a R)

theorem cnt_zero_above_maxNZ (S : List Nat) : ∀ b, maxNZ S < b → cnt S b = 0 := by
  intro b hb
  by_contra h
  have hmem := cnt_mem S b h
  have := maxNZ_ge S b hmem
  omega

/-- cnt is invariant under permutation. -/
theorem cnt_perm {l l2 : List Nat} (h : List.Perm l l2) (b : Nat) : cnt l b = cnt l2 b := by
  unfold cnt
  exact (h.filter _).length_eq

theorem TT_perm {l l2 : List Nat} (h : List.Perm l l2) : ∀ b, TT l b = TT l2 b := by
  intro b
  induction b with
  | zero => rfl
  | succ b ih =>
    simp only [TT, ih, cnt_perm h]

/-- Counting nonzero targets ignores a nonzero filter. -/
theorem cnt_filter_ne_zero (S : List Nat) (b : Nat) (hb : b ≠ 0) :
    cnt (S.filter (fun s => decide (s ≠ 0))) b = cnt S b := by
  induction S with
  | nil => rfl
  | cons a R ih =>
    by_cases h0 : a = 0
    · subst h0
      have h1 : List.filter (fun s => decide (s ≠ 0)) (0 :: R) =
          List.filter (fun s => decide (s ≠ 0)) R := by simp
      rw [h1, ih, cnt_cons]
      rw [if_neg (by omega)]
      omega
    · have h1 : List.filter (fun s => decide (s ≠ 0)) (a :: R) =
          a :: List.filter (fun s => decide (s ≠ 0)) R := by simp [h0]
      rw [h1, cnt_cons, cnt_cons, ih]

/-- The decomposition of TT over a cons of sizes (the per-item code-space
consumption). -/
theorem TT_cons (s : Nat) (R : List Nat) (hs : 1 ≤ s) :
    ∀ b, TT (s :: R) b = TT R b + (if s ≤ b then 2 ^ (b - s) else 0) := by
  intro b
  induction b with
  | zero =>
    simp only [TT]
    rw [if_neg (by omega)]
  | succ b ih =>
    simp only [TT, cnt_cons, ih]
    by_cases hsb : s ≤ b
    · have h1 : s ≤ b + 1 := by omega
      have h2 : ¬ (s = b + 1) := by omega
      rw [if_pos hsb, if_pos h1, if_neg h2]
      have h3 : b + 1 - s = (b - s) + 1 := by omega
      rw [h3]
      have h4 : (2 : Nat) ^ (b - s + 1) = 2 * 2 ^ (b - s) := by ring
      omega
    · rw [if_neg hsb]
      by_cases hseq : s = b + 1
      · rw [if_pos hseq, if_pos (le_of_eq hseq)]
        have h3 : b + 1 - s = 0 := by omega
        rw [h3, pow_zero]
        omega
      · rw [if_neg hseq, if_neg (by omega : ¬ s ≤ b + 1)]
        omega

/-! ## Scan loop characterization -/

/-- One non-skipped iteration of the histogram loop (sizes in 1..14). -/
def scanStep (st : ScanSt) (s : Nat) : ScanSt :=
  let st1 :=
    if st.live = 0 then { st with minS := s, maxS := s }
    else if st.minS > s then { st with minS := s }
    else if st.maxS < s then { st with maxS := s }
    else st
  { st1 with
    count := st1.count.set s ((st1.count.getD s 0 + 1) % U32)
    live := (st1.live + 1) % U32 }

theorem scanSizes_cons_nz (s : Nat) (R : List Nat) (st : ScanSt)
    (hs0 : s ≠ 0) (hle : s ≤ 14) :
    scanSizes (s :: R) st = scanSizes R (scanStep st s) := by
  simp only [scanSizes, scanStep]
  rw [if_neg hs0, if_neg (by unfold maxBitsPerCode; omega : ¬ s > maxBitsPerCode),
    if_pos (by unfold maxBitsPerCode; omega : s < maxBitsPerCode)]

theorem scanStep_count (st : ScanSt) (s : Nat) :
    (scanStep st s).count = st.count.set s ((st.count.getD s 0 + 1) % U32) := by
  unfold scanStep
  by_cases h1 : st.live = 0
  · simp [h1]
  · by_cases h2 : st.minS > s
    · simp [h1, h2]
    · by_cases h3 : st.maxS < s
      · simp [h1, h2, h3]
      · simp [h1, h2, h3]

theorem scanStep_live (st : ScanSt) (s : Nat) :
    (scanStep st s).live = (st.live + 1) % U32 := by
  unfold scanStep
  by_cases h1 : st.live = 0
  · simp [h1]
  · by_cases h2 : st.minS > s
    · simp [h1, h2]
    · by_cases h3 : st.maxS < s
      · simp [h1, h2, h3]
      · simp [h1, h2, h3]

theorem scanStep_mm_zero (st : ScanSt) (s : Nat) (h : st.live = 0) :
    (scanStep st s).minS = s ∧ (scanStep st s).maxS = s := by
  unfold scanStep
  simp [h]

theorem scanStep_mm_nz (st : ScanSt) (s : Nat) (h : st.live ≠ 0)
    (hmm : st.minS ≤ st.maxS) :
    (scanStep st s).minS = min st.minS s ∧ (scanStep st s).maxS = max st.maxS s := by
  unfold scanStep
  by_cases h2 : st.minS > s
  · simp only [if_neg h, if_pos h2]
    constructor
    · simp
      omega
    · simp
      omega
  · by_cases h3 : st.maxS < s
    · simp only [if_neg h, if_neg h2, if_pos h3]
      constructor
      · simp
        omega
      · simp
        omega
    · simp only [if_neg h, if_neg h2, if_neg h3]
      constructor
      · simp
        omega
      · simp
        omega

theorem scanSizes_ok_rel :
    ∀ (S : List Nat) (st stout : ScanSt),
      scanSizes S st = .ok stout →
      st.count.length = 15 →
      st.live + liveCnt S < U32 →
      (∀ b, 1 ≤ b → b ≤ 14 → st.count.getD b 0 + cnt S b < U32) →
      (st.live ≠ 0 → st.minS ≤ st.maxS) →
      ((∀ s ∈ S, s = 0 ∨ (1 ≤ s ∧ s ≤ 14)) ∧
       stout.count.length = 15 ∧
       (∀ b, 1 ≤ b → b ≤ 14 → stout.count.getD b 0 = st.count.getD b 0 + cnt S b) ∧
       stout.count.getD 0 0 = st.count.getD 0 0 ∧
       stout.live = st.live + liveCnt S ∧
       (liveCnt S = 0 → stout = st) ∧
       (∀ s ∈ S, s ≠ 0 → stout.minS ≤ s ∧ s ≤ stout.maxS) ∧
       (st.live ≠ 0 → stout.minS ≤ st.minS ∧ st.maxS ≤ stout.maxS ∧
         (stout.minS = st.minS ∨ (stout.minS ∈ S ∧ stout.minS ≠ 0)) ∧
         (stout.maxS = st.maxS ∨ (stout.maxS ∈ S ∧ stout.maxS ≠ 0))) ∧
       (st.live = 0 → liveCnt S ≠ 0 →
         stout.minS ∈ S ∧ stout.minS ≠ 0 ∧ stout.maxS ∈ S ∧ stout.maxS ≠ 0) ∧
       (stout.live ≠ 0 → stout.minS ≤ stout.maxS)) := by
  intro S
  induction S with
  | nil =>
    intro st stout h hlen hlive hcnt hmm
    cases h
    refine ⟨fun s hs => absurd hs (List.not_mem_nil s), hlen, ?_, rfl, ?_, fun _ => rfl,
      fun s hs => absurd hs (List.not_mem_nil s), ?_, ?_, hmm⟩
    · intro b h1 h14
      have : cnt ([] : List Nat) b = 0 := rfl
      omega
    · have : liveCnt ([] : List Nat) = 0 := rfl
      omega
    · intro hl
      exact ⟨le_refl _, le_refl _, Or.inl rfl, Or.inl rfl⟩
    · intro h0 hne
      exact absurd rfl hne
  | cons s R ih =>
    intro st stout h hlen hlive hcnt hmm
    by_cases hs0 : s = 0
    · subst hs0
      have hscan : scanSizes (0 :: R) st = scanSizes R st := by
        simp [scanSizes]
      rw [hscan] at h
      have hlive2 : st.live + liveCnt R < U32 := by
        rw [liveCnt_cons] at hlive
        simpa using hlive
      have hcnt2 : ∀ b, 1 ≤ b → b ≤ 14 → st.count.getD b 0 + cnt R b < U32 := by
        intro b h1 h14
        have := hcnt b h1 h14
        rw [cnt_cons, if_neg (by omega)] at this
        omega
      rcases ih st stout h hlen hlive2 hcnt2 hmm with
        ⟨ha, hl2, hc2, hc0, hlv, hm4, hm1, hm2, hm3, hmout⟩
      refine ⟨?_, hl2, ?_, hc0, ?_, ?_, ?_, ?_, ?_, hmout⟩
      · intro x hx
        rcases List.mem_cons.mp hx with rfl | hx2
        · exact Or.inl rfl
        · exact ha x hx2
      · intro b h1 h14
        rw [cnt_cons, if_neg (by omega)]
        simpa using hc2 b h1 h14
      · rw [liveCnt_cons, if_pos rfl]
        simpa using hlv
      · intro hz
        rw [liveCnt_cons, if_pos rfl] at hz
        exact hm4 (by simpa using hz)
      · intro x hx hxnz
        rcases List.mem_cons.mp hx with rfl | hx2
        · exact absurd rfl hxnz
        · exact hm1 x hx2 hxnz
      · intro hlnz
        rcases hm2 hlnz with ⟨ha1, ha2, ha3, ha4⟩
        refine ⟨ha1, ha2, ?_, ?_⟩
        · rcases ha3 with he | ⟨hmem, hnz⟩
          · exact Or.inl he
          · exact Or.inr ⟨List.mem_cons_of_mem _ hmem, hnz⟩
        · rcases ha4 with he | ⟨hmem, hnz⟩
          · exact Or.inl he
          · exact Or.inr ⟨List.mem_cons_of_mem _ hmem, hnz⟩
      · intro hz hne
        rw [liveCnt_cons, if_pos rfl] at hne
        rcases hm3 hz (by simpa using hne) with ⟨ha1, ha2, ha3, ha4⟩
        exact ⟨List.mem_cons_of_mem _ ha1, ha2, List.mem_cons_of_mem _ ha3, ha4⟩
    · -- nonzero size
      by_cases hgt : s > maxBitsPerCode
      · exfalso
        simp only [scanSizes, if_neg hs0, if_pos hgt] at h
        cases h
      by_cases h15 : s = 15
      · exfalso
        subst h15
        simp only [scanSizes, if_neg hs0] at h
        rw [if_neg (by unfold maxBitsPerCode; omega)] at h
        rw [if_neg (by unfold maxBitsPerCode; omega)] at h
        cases h
      have hle : s ≤ 14 := by
        unfold maxBitsPerCode at hgt
        omega
      rw [scanSizes_cons_nz s R st hs0 hle] at h
      set st2 := scanStep st s with hst2
      have hcount2 : st2.count = st.count.set s ((st.count.getD s 0 + 1) % U32) :=
        scanStep_count st s
      have hlive2v : st2.live = (st.live + 1) % U32 := scanStep_live st s
      have hlcnt : liveCnt (s :: R) = 1 + liveCnt R := by
        rw [liveCnt_cons, if_neg hs0]
      have hnw1 : st.live + 1 < U32 := by omega
      have hlive2 : st2.live = st.live + 1 := by
        rw [hlive2v, Nat.mod_eq_of_lt hnw1]
      have hcnthead : cnt (s :: R) s = 1 + cnt R s := by
        rw [cnt_cons, if_pos rfl]
      have hs1 : 1 ≤ s := by omega
      have hnwc : st.count.getD s 0 + 1 < U32 := by
        have := hcnt s hs1 hle
        omega
      have hset_self : st2.count.getD s 0 = st.count.getD s 0 + 1 := by
        rw [hcount2, getD_set_self _ _ _ _ (by omega), Nat.mod_eq_of_lt hnwc]
      have hset_ne : ∀ b, b ≠ s → st2.count.getD b 0 = st.count.getD b 0 := by
        intro b hb
        rw [hcount2, getD_set_ne _ _ _ _ _ (fun hh => hb hh.symm)]
      have hlen2 : st2.count.length = 15 := by
        rw [hcount2, List.length_set]
        exact hlen
      have hlive3 : st2.live + liveCnt R < U32 := by
        rw [hlive2]
        omega
      have hcnt3 : ∀ b, 1 ≤ b → b ≤ 14 → st2.count.getD b 0 + cnt R b < U32 := by
        intro b h1 h14
        by_cases hb : b = s
        · subst hb
          rw [hset_self]
          have := hcnt b h1 h14
          rw [hcnthead] at this
          omega
        · rw [hset_ne b hb]
          have := hcnt b h1 h14
          rw [cnt_cons, if_neg (fun hh => hb hh.symm)] at this
          omega
      have hmm2 : st2.live ≠ 0 → st2.minS ≤ st2.maxS := by
        intro _
        by_cases hz : st.live = 0
        · rcases scanStep_mm_zero st s hz with ⟨he1, he2⟩
          rw [← hst2] at he1 he2
          omega
        · rcases scanStep_mm_nz st s hz (hmm hz) with ⟨he1, he2⟩
          rw [← hst2] at he1 he2
          have := hmm hz
          rw [he1, he2]
          omega
      rcases ih st2 stout h hlen2 hlive3 hcnt3 hmm2 with
        ⟨ha, hl2, hc2, hc0, hlv, hm4, hm1, hm2, hm3, hmout⟩
      have hst2nz : st2.live ≠ 0 := by
        rw [hlive2]
        omega
      -- bounds on the step's min/max
      have hminmax1 : st2.minS ≤ s ∧ s ≤ st2.maxS := by
        by_cases hz : st.live = 0
        · rcases scanStep_mm_zero st s hz with ⟨he1, he2⟩
          rw [← hst2] at he1 he2
          omega
        · rcases scanStep_mm_nz st s hz (hmm hz) with ⟨he1, he2⟩
          rw [← hst2] at he1 he2
          rw [he1, he2]
          constructor
          · exact min_le_right _ _
          · exact le_max_right _ _
      refine ⟨?_, hl2, ?_, ?_, ?_, ?_, ?_, ?_, ?_, hmout⟩
      · intro x hx
        rcases List.mem_cons.mp hx with rfl | hx2
        · exact Or.inr ⟨hs1, hle⟩
        · exact ha x hx2
      · intro b h1 h14
        by_cases hb : b = s
        · subst hb
          rw [hc2 b h1 h14, hset_self, hcnthead]
          omega
        · rw [hc2 b h1 h14, hset_ne b hb, cnt_cons, if_neg (fun hh => hb hh.symm)]
          omega
      · rw [hc0, hset_ne 0 (by omega)]
      · rw [hlv, hlive2, hlcnt]
        omega
      · intro hz
        rw [hlcnt] at hz
        omega
      · intro x hx hxnz
        rcases List.mem_cons.mp hx with rfl | hx2
        · rcases hm2 hst2nz with ⟨hb1, hb2, -, -⟩
          exact ⟨le_trans hb1 hminmax1.1, le_trans hminmax1.2 hb2⟩
        · exact hm1 x hx2 hxnz
      · intro hlnz
        rcases hm2 hst2nz with ⟨hb1, hb2, hb3, hb4⟩
        rcases scanStep_mm_nz st s hlnz (hmm hlnz) with ⟨he1, he2⟩
        rw [← hst2] at he1 he2
        refine ⟨?_, ?_, ?_, ?_⟩
        · rw [he1] at hb1
          exact le_trans hb1 (min_le_left _ _)
        · rw [he2] at hb2
          exact le_trans (le_max_left _ _) hb2
        · rcases hb3 with he | ⟨hmem, hnz⟩
          · rw [he1] at he
            rcases Nat.le_total st.minS s with hcmp | hcmp
            · rw [min_eq_left hcmp] at he
              exact Or.inl he
            · rw [min_eq_right hcmp] at he
              exact Or.inr ⟨he ▸ List.mem_cons_self s R, he ▸ hs0⟩
          · exact Or.inr ⟨List.mem_cons_of_mem _ hmem, hnz⟩
        · rcases hb4 with he | ⟨hmem, hnz⟩
          · rw [he2] at he
            rcases Nat.le_total s st.maxS with hcmp | hcmp
            · rw [max_eq_left hcmp] at he
              exact Or.inl he
            · rw [max_eq_right hcmp] at he
              exact Or.inr ⟨he ▸ List.mem_cons_self s R, he ▸ hs0⟩
          · exact Or.inr ⟨List.mem_cons_of_mem _ hmem, hnz⟩
      · intro hz hne
        rcases scanStep_mm_zero st s hz with ⟨he1, he2⟩
        rw [← hst2] at he1 he2
        rcases hm2 hst2nz with ⟨hb1, hb2, hb3, hb4⟩
        refine ⟨?_, ?_, ?_, ?_⟩
        · rcases hb3 with he | ⟨hmem, hnz⟩
          · rw [he1] at he
            exact he ▸ List.mem_cons_self s R
          · exact List.mem_cons_of_mem _ hmem
        · rcases hb3 with he | ⟨hmem, hnz⟩
          · rw [he1] at he
            rw [he]
            exact hs0
          · exact hnz
        · rcases hb4 with he | ⟨hmem, hnz⟩
          · rw [he2] at he
            exact he ▸ List.mem_cons_self s R
          · exact List.mem_cons_of_mem _ hmem
        · rcases hb4 with he | ⟨hmem, hnz⟩
          · rw [he2] at he
            rw [he]
            exact hs0
          · exact hnz

/-! ## nextCode loop characterization -/

theorem ncLoop_go (S : List Nat) (cn : List Nat) (maxS : Nat)
    (hcn : ∀ b, b ≤ 14 → cn.getD b 0 = cnt0 S b)
    (hmax1 : 1 ≤ maxS) (hmax14 : maxS ≤ 14)
    (hwrap : TT S maxS < U32) :
    ∀ (fuel bits : Nat) (nca : List Nat) (code : Nat),
      1 ≤ bits → bits + fuel = maxS + 1 →
      code = 2 * TT S (bits - 2) →
      nca.length = 15 →
      ((ncLoop cn fuel bits nca code).2 = 2 * TT S (maxS - 1) ∧
       (ncLoop cn fuel bits nca code).1.length = 15 ∧
       (∀ b, bits ≤ b → b ≤ maxS →
         (ncLoop cn fuel bits nca code).1.getD b 0 = 2 * TT S (b - 1)) ∧
       (∀ b, b < bits → (ncLoop cn fuel bits nca code).1.getD b 0 = nca.getD b 0)) := by
  intro fuel
  induction fuel with
  | zero =>
    intro bits nca code h1 hsum hcode hlen
    have hbits : bits = maxS + 1 := by omega
    subst hbits
    simp only [ncLoop]
    refine ⟨?_, hlen, ?_, ?_⟩
    · rw [hcode]
      have : maxS + 1 - 2 = maxS - 1 := by omega
      rw [this]
    · intro b hb1 hb2
      omega
    · intro b _
      trivial
  | succ fuel ih =>
    intro bits nca code h1 hsum hcode hlen
    have hbmax : bits ≤ maxS := by omega
    have hread : cn.getD (bits - 1) 0 = cnt0 S (bits - 1) := hcn _ (by omega)
    have hstep : (code + cn.getD (bits - 1) 0) * 2 = 2 * TT S (bits - 1) := by
      rw [hread, hcode]
      by_cases hb : bits = 1
      · subst hb
        simp [cnt0, TT]
      · have hb1 : bits - 1 = (bits - 2) + 1 := by omega
        rw [hb1]
        simp only [TT, cnt0]
        rw [if_neg (by omega)]
        ring
    have hm1 : TT S (bits - 1) ≤ TT S (maxS - 1) := by
      have := TT_mono S (bits - 1) ((maxS - 1) - (bits - 1))
      have harith : (bits - 1) + ((maxS - 1) - (bits - 1)) = maxS - 1 := by omega
      rw [harith] at this
      exact this
    have hts : TT S maxS = 2 * TT S (maxS - 1) + cnt S maxS := by
      conv_lhs => rw [show maxS = (maxS - 1) + 1 from by omega]
      simp only [TT]
      rw [show maxS - 1 + 1 = maxS from by omega]
    have hnw : (code + cn.getD (bits - 1) 0) * 2 < U32 := by
      rw [hstep]
      omega
    have hcode2 : (code + cn.getD (bits - 1) 0) * 2 % U32 = 2 * TT S (bits - 1) := by
      rw [Nat.mod_eq_of_lt hnw, hstep]
    simp only [ncLoop]
    rw [hcode2]
    have hlen2 : (nca.set bits (2 * TT S (bits - 1))).length = 15 := by
      rw [List.length_set]
      exact hlen
    have hcodeinv : 2 * TT S (bits - 1) = 2 * TT S ((bits + 1) - 2) := by
      have : (bits + 1) - 2 = bits - 1 := by omega
      rw [this]
    rcases ih (bits + 1) (nca.set bits (2 * TT S (bits - 1))) (2 * TT S (bits - 1))
        (by omega) (by omega) hcodeinv hlen2 with ⟨hh1, hh2, hh3, hh4⟩
    refine ⟨hh1, hh2, ?_, ?_⟩
    · intro b hb1 hb2
      by_cases hbb : b = bits
      · subst hbb
        rw [hh4 b (by omega)]
        exact getD_set_self _ _ _ _ (by omega)
      · exact hh3 b (by omega) hb2
    · intro b hb
      rw [hh4 b (by omega)]
      exact getD_set_ne _ _ _ _ _ (by omega)

/-! ## Assignment loop characterization -/

/-- The (symbol index, size, natural-order value) stream of the assignment
loop, with the nextCodeArray state threaded. -/
def asgRaw : List Nat → Nat → List Nat → List (Nat × Nat × Nat)
  | [], _, _ => []
  | s :: rest, idx, nca =>
    if s = 0 then asgRaw rest (idx + 1) nca
    else (idx, s, nca.getD s 0) ::
      asgRaw rest (idx + 1) (nca.set s ((nca.getD s 0 + 1) % U32))

/-- A raw assignment as the (symbol, transmission code) pair. -/
def rawToAsg (tr : Nat × Nat × Nat) : Int × Code :=
  (Int.ofNat tr.1, MakeReversedCode tr.2.1 tr.2.2)

/-- Folding fillTable over an assignment stream. -/
def tableOf (t : Table) : List (Int × Code) → Table
  | [] => t
  | (sym, c) :: rest => tableOf (fillTable t sym c) rest

theorem assignLoop_char :
    ∀ (L : List Nat) (idx : Nat) (nca : List Nat) (t : Table) (asg0 : List (Int × Code)),
      (assignLoop L idx nca t asg0).2 = asg0 ++ (asgRaw L idx nca).map rawToAsg ∧
      (assignLoop L idx nca t asg0).1 = tableOf t ((asgRaw L idx nca).map rawToAsg) := by
  intro L
  induction L with
  | nil =>
    intro idx nca t asg0
    simp [assignLoop, asgRaw, tableOf]
  | cons s rest ih =>
    intro idx nca t asg0
    simp only [assignLoop, asgRaw]
    by_cases h0 : s = 0
    · rw [if_pos h0, if_pos h0]
      exact ih _ _ _ _
    · rw [if_neg h0, if_neg h0]
      rcases ih (idx + 1) (nca.set s ((nca.getD s 0 + 1) % U32))
          (fillTable t (Int.ofNat idx) (MakeReversedCode s (nca.getD s 0)))
          (asg0 ++ [(Int.ofNat idx, MakeReversedCode s (nca.getD s 0))]) with ⟨ha, hb⟩
      constructor
      · rw [ha]
        simp [rawToAsg, List.append_assoc]
      · rw [hb]
        simp [tableOf, rawToAsg]

theorem getD_replicate (n : Nat) (b : Nat) : (List.replicate n (0 : Nat)).getD b 0 = 0 := by
  rw [List.getD_eq_getElem?_getD, List.getElem?_replicate]
  by_cases h : b < n
  · rw [if_pos h]
    rfl
  · rw [if_neg h]
    rfl

/-! ## Decoder.Init characterization -/

theorem decoderInitCore_ok_char (S : List Nat) (d : Decoder) (asg : List (Int × Code))
    (hlen : S.length < 2 ^ 31)
    (hlive : ∃ s ∈ S, s ≠ 0)
    (hwrap : TT S (maxNZ S) < U32)
    (h : decoderInitCore S = .ok (d, asg)) :
    d.sizes = S ∧
    (∀ s ∈ S, s = 0 ∨ (1 ≤ s ∧ s ≤ 14)) ∧
    d.maxSize = maxNZ S ∧
    d.minSize ≠ 0 ∧ d.minSize ≤ d.maxSize ∧ d.maxSize ≤ 14 ∧
    (∀ s ∈ S, s ≠ 0 → d.minSize ≤ s ∧ s ≤ d.maxSize) ∧
    (TT S d.maxSize = 2 ^ d.maxSize ∨ (TT S d.maxSize = 1 ∧ d.maxSize = 1)) ∧
    ∃ nca : List Nat, nca.length = 15 ∧
      (∀ b, d.minSize ≤ b → b ≤ d.maxSize → nca.getD b 0 = 2 * TT S (b - 1)) ∧
      asg = (asgRaw S 0 nca).map rawToAsg ∧
      d.table = tableOf [] ((asgRaw S 0 nca).map rawToAsg) := by
  have hlivecnt : liveCnt S ≠ 0 := by
    intro hz
    rcases hlive with ⟨s, hs, hsnz⟩
    exact hsnz ((liveCnt_eq_zero_iff S).mp hz s hs)
  simp only [decoderInitCore] at h
  cases hscan : scanSizes S ⟨List.replicate maxBitsPerCode 0, 0, 0, 0⟩ with
  | err e => rw [hscan] at h; cases h
  | oob => rw [hscan] at h; cases h
  | assertFailed => rw [hscan] at h; cases h
  | ok st =>
  rw [hscan] at h
  simp only at h
  have hU : U32 = 2 ^ 32 := rfl
  rcases scanSizes_ok_rel S ⟨List.replicate maxBitsPerCode 0, 0, 0, 0⟩ st hscan
      (by simp [maxBitsPerCode])
      (by have := liveCnt_le_length S; simp only; rw [hU]; omega)
      (by
        intro b h1 h14
        have := cnt_le_length S b
        simp only [getD_replicate]
        rw [hU]
        omega)
      (fun hcontra => absurd rfl hcontra) with
    ⟨ha, hl2, hc2, hc0, hlv, -, hm1, -, hm3, hmmout⟩
  simp only at hlv hc2 hc0 hm3
  have hstlive : st.live ≠ 0 := by
    rw [hlv]
    omega
  rw [if_neg hstlive] at h
  rcases hm3 trivial hlivecnt with ⟨hmn_mem, hmn_nz, hmx_mem, hmx_nz⟩
  have hmmle : st.minS ≤ st.maxS := hmmout hstlive
  -- the scan maximum is the list maximum
  have hmax_eq : st.maxS = maxNZ S := by
    have h1 : st.maxS ≤ maxNZ S := maxNZ_ge S _ hmx_mem
    have h2 : maxNZ S ≤ st.maxS := by
      rcases maxNZ_mem S with h0 | hmem
      · omega
      · by_cases hz : maxNZ S = 0
        · omega
        · exact (hm1 _ hmem hz).2
    omega
  have hmax14 : st.maxS ≤ 14 := by
    rcases ha _ hmx_mem with h0 | ⟨-, h14⟩
    · exact absurd h0 hmx_nz
    · exact h14
  have hmax1 : 1 ≤ st.maxS := by omega
  have hmin1 : 1 ≤ st.minS := by omega
  -- counts stored in the scan state
  have hcn : ∀ b, b ≤ 14 → st.count.getD b 0 = cnt0 S b := by
    intro b hb
    by_cases h0 : b = 0
    · subst h0
      rw [hc0, getD_replicate]
      rfl
    · rw [hc2 b (by omega) hb, getD_replicate, cnt0, if_neg h0]
      omega
  -- sizes below the minimum do not occur
  have hbelow : ∀ b, 1 ≤ b → b < st.minS → cnt S b = 0 := by
    intro b h1 hb
    by_contra hc
    have hmem := cnt_mem S b hc
    have := (hm1 b hmem (by omega)).1
    omega
  have hTT0 : TT S (st.minS - 2) = 0 :=
    TT_zero_below S st.minS hbelow _ (by omega)
  have hwrap2 : TT S st.maxS < U32 := by
    rw [hmax_eq]
    exact hwrap
  rcases ncLoop_go S st.count st.maxS hcn hmax1 hmax14 hwrap2
      (st.maxS + 1 - st.minS) st.minS (List.replicate maxBitsPerCode 0) 0
      hmin1 (by omega) (by rw [hTT0]) (by simp [maxBitsPerCode]) with
    ⟨hnc2, hnclen, hncget, -⟩
  -- the wrapped total equals the exact total
  have hTTmax : TT S st.maxS = 2 * TT S (st.maxS - 1) + cnt S st.maxS := by
    conv_lhs => rw [show st.maxS = (st.maxS - 1) + 1 from by omega]
    simp only [TT]
    rw [show st.maxS - 1 + 1 = st.maxS from by omega]
  have hgetmax : st.count.getD st.maxS 0 = cnt S st.maxS := by
    rw [hcn st.maxS hmax14, cnt0, if_neg (by omega)]
  have hbound : 2 * TT S (st.maxS - 1) + cnt S st.maxS < U32 := by
    rw [← hTTmax]
    exact hwrap2
  have hcodeTot :
      ((ncLoop st.count (st.maxS + 1 - st.minS) st.minS
          (List.replicate maxBitsPerCode 0) 0).2 + st.count.getD st.maxS 0) % U32 =
        TT S st.maxS := by
    rw [hnc2, hgetmax, Nat.mod_eq_of_lt hbound]
    exact hTTmax.symm
  rw [hcodeTot] at h
  by_cases hcond1 : TT S st.maxS = 1 ∧ st.maxS = 1
  · rw [if_pos hcond1] at h
    cases h
    rcases assignLoop_char S 0
        (ncLoop st.count (st.maxS + 1 - st.minS) st.minS
          (List.replicate maxBitsPerCode 0) 0).1 [] [] with ⟨hasg, htbl⟩
    refine ⟨rfl, ha, hmax_eq, hmn_nz, hmmle, hmax14, hm1, Or.inr hcond1, _, hnclen, hncget,
      by rw [hasg]; simp, by rw [htbl]⟩
  · rw [if_neg hcond1] at h
    by_cases hcond2 : TT S st.maxS = 2 ^ st.maxS
    · rw [if_pos hcond2] at h
      cases h
      rcases assignLoop_char S 0
          (ncLoop st.count (st.maxS + 1 - st.minS) st.minS
            (List.replicate maxBitsPerCode 0) 0).1 [] [] with ⟨hasg, htbl⟩
      refine ⟨rfl, ha, hmax_eq, hmn_nz, hmmle, hmax14, hm1, Or.inl hcond2, _, hnclen, hncget,
        by rw [hasg]; simp, by rw [htbl]⟩
    · rw [if_neg hcond2] at h
      cases h

/-! ## Assignment stream invariant -/

theorem getD_mem_of_lt {α : Type} (l : List α) (j : Nat) (d : α) (h : j < l.length) :
    l.getD j d ∈ l := by
  rw [List.getD_eq_getElem?_getD, List.getElem?_eq_getElem h]
  exact List.getElem_mem h

theorem asgRawInv :
    ∀ (L : List Nat) (idx : Nat) (nca : List Nat) (FL FH : Nat → Nat),
      nca.length = 15 →
      (∀ s ∈ L, s = 0 ∨ (1 ≤ s ∧ s ≤ 14)) →
      (∀ b, 1 ≤ b → b ≤ 14 → cnt L b ≠ 0 →
        FL b ≤ nca.getD b 0 ∧ nca.getD b 0 + cnt L b ≤ FH b ∧ FH b ≤ 2 ^ b) →
      (∀ b b2, 1 ≤ b → b < b2 → b2 ≤ 14 → cnt L b ≠ 0 → cnt L b2 ≠ 0 →
        FH b * 2 ^ (b2 - b) ≤ FL b2) →
      ((∀ tr ∈ asgRaw L idx nca,
         idx ≤ tr.1 ∧ tr.1 - idx < L.length ∧ L.getD (tr.1 - idx) 0 = tr.2.1 ∧
         1 ≤ tr.2.1 ∧ tr.2.1 ≤ 14 ∧ tr.2.2 < 2 ^ tr.2.1 ∧
         nca.getD tr.2.1 0 ≤ tr.2.2 ∧ tr.2.2 + 1 ≤ FH tr.2.1) ∧
       (∀ j, j < L.length → L.getD j 0 ≠ 0 →
         ∃ tr ∈ asgRaw L idx nca, tr.1 = idx + j ∧ tr.2.1 = L.getD j 0) ∧
       (asgRaw L idx nca).Pairwise (fun t1 t2 =>
         t1.1 < t2.1 ∧
         (t1.2.1 = t2.2.1 → t1.2.2 + 1 ≤ t2.2.2) ∧
         (t1.2.1 < t2.2.1 → (t1.2.2 + 1) * 2 ^ (t2.2.1 - t1.2.1) ≤ t2.2.2) ∧
         (t2.2.1 < t1.2.1 → (t2.2.2 + 1) * 2 ^ (t1.2.1 - t2.2.1) ≤ t1.2.2))) := by
  intro L
  induction L with
  | nil =>
    intro idx nca FL FH _ _ _ _
    refine ⟨fun tr htr => absurd htr (List.not_mem_nil tr), ?_, List.Pairwise.nil⟩
    intro j hj _
    simp at hj
  | cons s R ih =>
    intro idx nca FL FH hlen hsz hinv hsep
    by_cases h0 : s = 0
    · subst h0
      have hraw : asgRaw (0 :: R) idx nca = asgRaw R (idx + 1) nca := by
        simp [asgRaw]
      have hszR : ∀ x ∈ R, x = 0 ∨ (1 ≤ x ∧ x ≤ 14) :=
        fun x hx => hsz x (List.mem_cons_of_mem _ hx)
      have hcntR : ∀ b, 1 ≤ b → cnt (0 :: R) b = cnt R b := by
        intro b h1
        rw [cnt_cons, if_neg (by omega)]
        omega
      have hinvR : ∀ b, 1 ≤ b → b ≤ 14 → cnt R b ≠ 0 →
          FL b ≤ nca.getD b 0 ∧ nca.getD b 0 + cnt R b ≤ FH b ∧ FH b ≤ 2 ^ b := by
        intro b h1 h14 hc
        have := hinv b h1 h14 (by rw [hcntR b h1]; exact hc)
        rw [hcntR b h1] at this
        exact this
      have hsepR : ∀ b b2, 1 ≤ b → b < b2 → b2 ≤ 14 → cnt R b ≠ 0 → cnt R b2 ≠ 0 →
          FH b * 2 ^ (b2 - b) ≤ FL b2 := by
        intro b b2 h1 hlt h14 hc1 hc2
        exact hsep b b2 h1 hlt h14 (by rw [hcntR b h1]; exact hc1)
          (by rw [hcntR b2 (by omega)]; exact hc2)
      rcases ih (idx + 1) nca FL FH hlen hszR hinvR hsepR with ⟨hshape, hcomp, hpw⟩
      rw [hraw]
      refine ⟨?_, ?_, hpw⟩
      · intro tr htr
        rcases hshape tr htr with ⟨h1, h2, h3, h4, h5, h6, h7, h8⟩
        have hgap : tr.1 - idx = (tr.1 - (idx + 1)) + 1 := by omega
        refine ⟨by omega, ?_, ?_, h4, h5, h6, h7, h8⟩
        · simp only [List.length_cons]
          omega
        · rw [hgap]
          simpa using h3
      · intro j hj hnz
        cases j with
        | zero => simp at hnz
        | succ j2 =>
          simp only [List.length_cons] at hj
          simp only [List.getD_cons_succ] at hnz ⊢
          rcases hcomp j2 (by omega) hnz with ⟨tr, htr, he1, he2⟩
          exact ⟨tr, htr, by omega, he2⟩
    · -- live head
      rcases hsz s (List.mem_cons_self s R) with hz | ⟨hs1, hs14⟩
      · exact absurd hz h0
      have hcnthead : cnt (s :: R) s = 1 + cnt R s := by
        rw [cnt_cons, if_pos rfl]
      have hchd : cnt (s :: R) s ≠ 0 := by omega
      rcases hinv s hs1 hs14 hchd with ⟨hFLs, hBudget, hFHs⟩
      set v := nca.getD s 0 with hv
      have hvlt : v < 2 ^ s := by
        rw [hcnthead] at hBudget
        omega
      have hvFH : v + 1 ≤ FH s := by
        rw [hcnthead] at hBudget
        omega
      have hnw : (v + 1) % U32 = v + 1 := by
        apply Nat.mod_eq_of_lt
        have h14 : (2 : Nat) ^ s ≤ 2 ^ 14 := Nat.pow_le_pow_right (by norm_num) hs14
        have : (2 : Nat) ^ 14 < U32 := by norm_num [U32]
        omega
      have hraw : asgRaw (s :: R) idx nca =
          (idx, s, v) :: asgRaw R (idx + 1) (nca.set s (v + 1)) := by
        simp only [asgRaw, if_neg h0, ← hv, hnw]
      have hlen2 : (nca.set s (v + 1)).length = 15 := by
        rw [List.length_set]
        exact hlen
      have hszR : ∀ x ∈ R, x = 0 ∨ (1 ≤ x ∧ x ≤ 14) :=
        fun x hx => hsz x (List.mem_cons_of_mem _ hx)
      have hget2 : ∀ b, (nca.set s (v + 1)).getD b 0 =
          if b = s then v + 1 else nca.getD b 0 := by
        intro b
        by_cases hb : b = s
        · subst hb
          rw [if_pos rfl]
          exact getD_set_self _ _ _ _ (by omega)
        · rw [if_neg hb]
          exact getD_set_ne _ _ _ _ _ (fun hh => hb hh.symm)
      have hcntR : ∀ b, b ≠ s → cnt (s :: R) b = cnt R b := by
        intro b hb
        rw [cnt_cons, if_neg (fun hh => hb hh.symm)]
        omega
      have hinvR : ∀ b, 1 ≤ b → b ≤ 14 → cnt R b ≠ 0 →
          FL b ≤ (nca.set s (v + 1)).getD b 0 ∧
          (nca.set s (v + 1)).getD b 0 + cnt R b ≤ FH b ∧ FH b ≤ 2 ^ b := by
        intro b h1 h14 hc
        rw [hget2 b]
        by_cases hb : b = s
        · subst hb
          rw [if_pos rfl]
          rw [hcnthead] at hBudget
          exact ⟨by omega, by omega, hFHs⟩
        · rw [if_neg hb]
          have := hinv b h1 h14 (by rw [hcntR b hb]; exact hc)
          rw [hcntR b hb] at this
          exact this
      have hsepR : ∀ b b2, 1 ≤ b → b < b2 → b2 ≤ 14 → cnt R b ≠ 0 → cnt R b2 ≠ 0 →
          FH b * 2 ^ (b2 - b) ≤ FL b2 := by
        intro b b2 h1 hlt h14 hc1 hc2
        have hc1L : cnt (s :: R) b ≠ 0 := by
          rw [cnt_cons]
          by_cases hh : s = b
          · rw [if_pos hh]; omega
          · rw [if_neg hh]; omega
        have hc2L : cnt (s :: R) b2 ≠ 0 := by
          rw [cnt_cons]
          by_cases hh : s = b2
          · rw [if_pos hh]; omega
          · rw [if_neg hh]; omega
        exact hsep b b2 h1 hlt h14 hc1L hc2L
      rcases ih (idx + 1) (nca.set s (v + 1)) FL FH hlen2 hszR hinvR hsepR with
        ⟨hshape, hcomp, hpw⟩
      rw [hraw]
      refine ⟨?_, ?_, ?_⟩
      · intro tr htr
        rcases List.mem_cons.mp htr with rfl | htr2
        · refine ⟨le_refl _, by simp, by simp, hs1, hs14, hvlt, le_refl _, hvFH⟩
        · rcases hshape tr htr2 with ⟨h1, h2, h3, h4, h5, h6, h7, h8⟩
          have hgap : tr.1 - idx = (tr.1 - (idx + 1)) + 1 := by omega
          refine ⟨by omega, ?_, ?_, h4, h5, h6, ?_, h8⟩
          · simp only [List.length_cons]
            omega
          · rw [hgap]
            simpa using h3
          · rw [hget2 tr.2.1] at h7
            by_cases hb : tr.2.1 = s
            · rw [if_pos hb] at h7
              rw [hb, ← hv]
              omega
            · rw [if_neg hb] at h7
              exact h7
      · intro j hj hnz
        cases j with
        | zero =>
          refine ⟨(idx, s, v), List.mem_cons_self _ _, by omega, ?_⟩
          simp at hnz ⊢
        | succ j2 =>
          simp only [List.length_cons] at hj
          simp only [List.getD_cons_succ] at hnz ⊢
          rcases hcomp j2 (by omega) hnz with ⟨tr, htr, he1, he2⟩
          exact ⟨tr, List.mem_cons_of_mem _ htr, by omega, he2⟩
      · refine List.pairwise_cons.mpr ⟨?_, hpw⟩
        intro tr htr
        rcases hshape tr htr with ⟨h1, h2, h3, h4, h5, h6, h7, h8⟩
        have hb2mem : tr.2.1 ∈ R := by
          rw [← h3]
          exact getD_mem_of_lt R _ 0 h2
        have hb2cnt : cnt (s :: R) tr.2.1 ≠ 0 := by
          have := cnt_pos_of_mem R tr.2.1 hb2mem
          rw [cnt_cons]
          by_cases hh : s = tr.2.1
          · rw [if_pos hh]; omega
          · rw [if_neg hh]; omega
        refine ⟨by show idx < tr.1; omega, ?_, ?_, ?_⟩
        · intro heq
          have heq2 : s = tr.2.1 := heq
          rw [hget2 tr.2.1, if_pos heq2.symm] at h7
          show v + 1 ≤ tr.2.2
          omega
        · intro hlt
          have hlt2 : s < tr.2.1 := hlt
          show (v + 1) * 2 ^ (tr.2.1 - s) ≤ tr.2.2
          have hne : tr.2.1 ≠ s := by omega
          rw [hget2 tr.2.1, if_neg hne] at h7
          have hs1' := hsep s tr.2.1 hs1 hlt2 h5 hchd hb2cnt
          have hFLb : FL tr.2.1 ≤ nca.getD tr.2.1 0 :=
            (hinv tr.2.1 (by omega) h5 hb2cnt).1
          calc (v + 1) * 2 ^ (tr.2.1 - s)
              ≤ FH s * 2 ^ (tr.2.1 - s) := Nat.mul_le_mul_right _ hvFH
            _ ≤ FL tr.2.1 := hs1'
            _ ≤ nca.getD tr.2.1 0 := hFLb
            _ ≤ tr.2.2 := h7
        · intro hlt
          have hlt2 : tr.2.1 < s := hlt
          show (tr.2.2 + 1) * 2 ^ (s - tr.2.1) ≤ v
          have hs2' := hsep tr.2.1 s h4 hlt2 hs14 hb2cnt hchd
          calc (tr.2.2 + 1) * 2 ^ (s - tr.2.1)
              ≤ FH tr.2.1 * 2 ^ (s - tr.2.1) := Nat.mul_le_mul_right _ h8
            _ ≤ FL s := hs2'
            _ ≤ v := hFLs

/-! ## Kraft budget implies assignment success -/

theorem TT_congr (l l2 : List Nat) (h : ∀ a, 1 ≤ a → cnt l a = cnt l2 a) :
    ∀ b, TT l b = TT l2 b := by
  intro b
  induction b with
  | zero => rfl
  | succ b ih =>
    simp only [TT, ih, h (b + 1) (by omega)]

theorem spOk_of_kraft :
    ∀ (l : List (Nat × Nat)) (ls nc : Nat),
      l.Pairwise (fun a b => a.2 ≤ b.2) →
      (∀ p ∈ l, ls ≤ p.2 ∧ 1 ≤ p.2 ∧ p.2 ≤ 14) →
      1 ≤ ls → ls ≤ 14 →
      (∀ b, ls ≤ b → b ≤ 14 → nc * 2 ^ (b - ls) + TT (l.map (fun p => p.2)) b ≤ 2 ^ b) →
      spOk l ls nc = true := by
  intro l
  induction l with
  | nil => intro ls nc _ _ _ _ _; rfl
  | cons item rest ih =>
    intro ls nc hsort hrange hls1 hls14 hkraft
    rcases hrange item (List.mem_cons_self _ _) with ⟨hlsb, hb1, hb14⟩
    have hncle : nc ≤ 2 ^ ls := by
      have := hkraft ls (le_refl _) hls14
      rw [Nat.sub_self, pow_zero, Nat.mul_one] at this
      omega
    have hprod : nc * 2 ^ (item.2 - ls) ≤ 2 ^ item.2 := by
      calc nc * 2 ^ (item.2 - ls) ≤ 2 ^ ls * 2 ^ (item.2 - ls) :=
            Nat.mul_le_mul_right _ hncle
        _ = 2 ^ item.2 := by rw [← pow_add, Nat.add_sub_cancel' hlsb]
    have hsmall : nc * 2 ^ (item.2 - ls) < U32 := by
      have h14 : (2 : Nat) ^ item.2 ≤ 2 ^ 14 := Nat.pow_le_pow_right (by norm_num) hb14
      have : (2 : Nat) ^ 14 < U32 := by norm_num [U32]
      omega
    have hstep : spStep ls nc item.2 = nc * 2 ^ (item.2 - ls) := by
      unfold spStep
      by_cases hgt : item.2 > ls
      · rw [if_pos hgt, Nat.mod_eq_of_lt hsmall]
      · rw [if_neg hgt]
        have heq : item.2 = ls := by omega
        rw [heq]
        simp
    -- the map of the sizes decomposes over the head
    have hmap : (item :: rest).map (fun p => p.2) = item.2 :: rest.map (fun p => p.2) := rfl
    have hTTdec : ∀ c, item.2 ≤ c →
        TT ((item :: rest).map (fun p => p.2)) c =
          TT (rest.map (fun p => p.2)) c + 2 ^ (c - item.2) := by
      intro c hc
      rw [hmap, TT_cons item.2 _ hb1 c, if_pos hc]
    have hchk : spStep ls nc item.2 < 2 ^ item.2 := by
      rw [hstep]
      have := hkraft item.2 hlsb hb14
      rw [hTTdec item.2 (le_refl _), Nat.sub_self, pow_zero] at this
      omega
    have hnw2 : (spStep ls nc item.2 + 1) % U32 = spStep ls nc item.2 + 1 := by
      apply Nat.mod_eq_of_lt
      have h14 : (2 : Nat) ^ item.2 ≤ 2 ^ 14 := Nat.pow_le_pow_right (by norm_num) hb14
      have : (2 : Nat) ^ 14 < U32 := by norm_num [U32]
      omega
    have hmax : (if item.2 > ls then item.2 else ls) = item.2 := by
      by_cases hgt : item.2 > ls
      · rw [if_pos hgt]
      · rw [if_neg hgt]; omega
    simp only [spOk]
    rw [if_neg (by omega : ¬ 2 ^ item.2 ≤ spStep ls nc item.2), hmax, hnw2]
    apply ih item.2 (spStep ls nc item.2 + 1) (List.pairwise_cons.mp hsort).2
      (fun p hp => ⟨(List.pairwise_cons.mp hsort).1 p hp,
        (hrange p (List.mem_cons_of_mem _ hp)).2⟩) hb1 hb14
    intro c hc hc14
    have hk := hkraft c (le_trans hlsb hc) hc14
    rw [hTTdec c hc] at hk
    have hexp : nc * 2 ^ (c - ls) = nc * 2 ^ (item.2 - ls) * 2 ^ (c - item.2) := by
      rw [Nat.mul_assoc, ← pow_add]
      congr 2
      omega
    rw [hexp] at hk
    rw [hstep]
    have hexpand : (nc * 2 ^ (item.2 - ls) + 1) * 2 ^ (c - item.2) =
        nc * 2 ^ (item.2 - ls) * 2 ^ (c - item.2) + 2 ^ (c - item.2) := by ring
    omega

/-! ## Construction existence helpers -/

theorem collectPairs_ok_of_le15 :
    ∀ (codes : List Code) (idx : Nat), (∀ c ∈ codes, c.size ≤ maxBitsPerCode) →
      ∃ l, collectPairs codes idx = .ok l := by
  intro codes
  induction codes with
  | nil => intro idx _; exact ⟨[], rfl⟩
  | cons c rest ih =>
    intro idx hle
    simp only [collectPairs]
    by_cases h0 : c.size = 0
    · rw [if_pos h0]
      exact ih (idx + 1) (fun x hx => hle x (List.mem_cons_of_mem _ hx))
    · rw [if_neg h0]
      rw [if_neg (by have := hle c (List.mem_cons_self _ _); omega)]
      rcases ih (idx + 1) (fun x hx => hle x (List.mem_cons_of_mem _ hx)) with ⟨l, hl⟩
      rw [hl]
      exact ⟨_, rfl⟩

theorem livePairs_map_size (S : List Nat) :
    ∀ idx, (livePairs (S.map (fun s => (⟨s, 0⟩ : Code))) idx).map (fun p => p.2) =
      S.filter (fun s => decide (s ≠ 0)) := by
  induction S with
  | nil => intro idx; rfl
  | cons a R ih =>
    intro idx
    simp only [List.map_cons, livePairs]
    by_cases h0 : a = 0
    · subst h0
      rw [if_pos rfl]
      rw [ih (idx + 1)]
      simp
    · rw [if_neg h0]
      simp only [List.map_cons, ih (idx + 1)]
      have : List.filter (fun s => decide (s ≠ 0)) (a :: R) =
          a :: List.filter (fun s => decide (s ≠ 0)) R := by
        simp [h0]
      rw [this]

theorem getD_of_length_le {α : Type} (l : List α) (j : Nat) (d : α)
    (h : l.length ≤ j) : l.getD j d = d := by
  rw [List.getD_eq_getElem?_getD, List.getElem?_eq_none_iff.mpr h]
  rfl

theorem getD_replicate_self {α : Type} (n j : Nat) (d : α) :
    (List.replicate n d).getD j d = d := by
  rw [List.getD_eq_getElem?_getD, List.getElem?_replicate]
  by_cases h : j < n
  · rw [if_pos h]
    rfl
  · rw [if_neg h]
    rfl

theorem decoderInit_ok_cases (S : List Nat) (d : Decoder)
    (h : decoderInit S = .ok d) :
    ∃ asg, decoderInitCore S = .ok (d, asg) := by
  unfold decoderInit at h
  cases hc : decoderInitCore S with
  | ok p =>
    rw [hc] at h
    simp only at h
    cases h
    exact ⟨p.2, rfl⟩
  | err e => rw [hc] at h; cases h
  | oob => rw [hc] at h; cases h
  | assertFailed => rw [hc] at h; cases h

/-! ## Helper lemmas -/

theorem scanSizes_all_zero (sizes : List Nat) (h : ∀ s ∈ sizes, s = 0) (st : ScanSt) :
    scanSizes sizes st = .ok st := by
  induction sizes with
  | nil => rfl
  | cons a rest ih =>
    have ha : a = 0 := h a (List.mem_cons_self a rest)
    simp only [scanSizes, ha, if_pos rfl]
    exact ih fun s hs => h s (List.mem_cons_of_mem a hs)

theorem collectPairs_all_zero (codes : List Code) (h : ∀ c ∈ codes, c.size = 0)
    (idx : Nat) : collectPairs codes idx = .ok [] := by
  induction codes generalizing idx with
  | nil => rfl
  | cons c rest ih =>
    have hc : c.size = 0 := h c (List.mem_cons_self c rest)
    simp only [collectPairs, hc, if_pos rfl]
    exact ih (fun x hx => h x (List.mem_cons_of_mem c hx)) (idx + 1)

theorem secondPass_all_zero (codes : List Code) (h : ∀ c ∈ codes, c.size = 0) :
    secondPass codes = .oob := by
  simp only [secondPass, collectPairs_all_zero codes h 0, sortBySize]

theorem encoderInitFromSizesCore_all_zero (sizes : List Nat) (h : ∀ s ∈ sizes, s = 0) :
    encoderInitFromSizesCore sizes = .oob := by
  have hz : ∀ c ∈ sizes.map (fun s => (⟨s, 0⟩ : Code)), c.size = 0 := by
    intro c hc
    rcases List.mem_map.mp hc with ⟨s, hs, rfl⟩
    exact h s hs
  simp only [encoderInitFromSizesCore, secondPass_all_zero _ hz]

theorem TT_le_pow_all (S : List Nat) (m : Nat)
    (hcomp : TT S m = 2 ^ m ∨ (TT S m = 1 ∧ m = 1))
    (habove : ∀ b, m < b → cnt S b = 0) :
    ∀ b, TT S b ≤ 2 ^ b := by
  intro b
  by_cases hb : b ≤ m
  · exact TT_le_pow S m hcomp b hb
  · have hd := TT_above S m habove (b - m)
    rw [show m + (b - m) = b from by omega] at hd
    rcases hcomp with hc | ⟨hc, hm⟩
    · rw [hd, hc, ← pow_add, show m + (b - m) = b from by omega]
    · rw [hd, hc, one_mul]
      exact Nat.pow_le_pow_right (by norm_num) (by omega)

theorem encoderInitFromSizesCore_ok_of_facts (S : List Nat)
    (hrange : ∀ s ∈ S, s = 0 ∨ (1 ≤ s ∧ s ≤ 14))
    (hlive : ∃ s ∈ S, s ≠ 0)
    (hTTle : ∀ b, TT S b ≤ 2 ^ b) :
    ∃ e, encoderInitFromSizesCore S = .ok e ∧ e.SizeBySymbol = S := by
  set codes0 := S.map (fun s => (⟨s, 0⟩ : Code)) with hc0
  have hlen0 : codes0.length = S.length := by
    rw [hc0, List.length_map]
  have hcle : ∀ c ∈ codes0, c.size ≤ maxBitsPerCode := by
    intro c hc
    rcases List.mem_map.mp hc with ⟨s, hs, rfl⟩
    show s ≤ maxBitsPerCode
    rcases hrange s hs with h0 | ⟨-, h14⟩
    · rw [h0]
      exact Nat.zero_le _
    · unfold maxBitsPerCode
      omega
  rcases collectPairs_ok_of_le15 codes0 0 hcle with ⟨pairs, hcp⟩
  have hpe : pairs = livePairs codes0 0 := collectPairs_ok_eq codes0 0 pairs hcp
  rcases hlive with ⟨s, hsmem, hsnz⟩
  rcases List.getElem_of_mem hsmem with ⟨j, hj, hje⟩
  have hgdS : S.getD j 0 = s := by
    rw [List.getD_eq_getElem?_getD, List.getElem?_eq_getElem hj, hje]
    rfl
  have hj0 : j < codes0.length := by omega
  have hgd0 : codes0.getD j ⟨0, 0⟩ = ⟨S.getD j 0, 0⟩ := map_mk_getD S j hj
  have hnz0 : (codes0.getD j ⟨0, 0⟩).size ≠ 0 := by
    rw [hgd0]
    show S.getD j 0 ≠ 0
    rw [hgdS]
    exact hsnz
  have hmemp : (0 + j, (codes0.getD j ⟨0, 0⟩).size) ∈ pairs := by
    rw [hpe]
    exact livePairs_mem_of codes0 0 j hj0 hnz0
  cases hs2 : sortBySize pairs with
  | nil =>
    exfalso
    have hperm := sortBySize_perm pairs
    rw [hs2] at hperm
    exact List.ne_nil_of_mem hmemp hperm.symm.eq_nil
  | cons s0 rest =>
    have hperm : List.Perm (s0 :: rest) pairs := hs2 ▸ sortBySize_perm pairs
    have hsorted0 : (s0 :: rest).Pairwise (fun a b => sizeLE a b = true) :=
      hs2 ▸ sortBySize_sorted pairs
    have hsorted : (s0 :: rest).Pairwise (fun a b : Nat × Nat => a.2 ≤ b.2) := by
      refine hsorted0.imp ?_
      intro a b hab
      rw [sizeLE_iff] at hab
      omega
    have hrangeP : ∀ p ∈ s0 :: rest, s0.2 ≤ p.2 ∧ 1 ≤ p.2 ∧ p.2 ≤ 14 := by
      intro p hp
      have hmemP : p ∈ livePairs codes0 0 := by
        rw [← hpe]
        exact hperm.mem_iff.mp hp
      rcases livePairs_mem codes0 0 p hmemP with ⟨-, hplen, hpsz, hpnz⟩
      have hgd : codes0.getD (p.1 - 0) ⟨0, 0⟩ = ⟨S.getD (p.1 - 0) 0, 0⟩ :=
        map_mk_getD S _ (by omega)
      have hmemS : S.getD (p.1 - 0) 0 ∈ S := getD_mem_of_lt S _ 0 (by omega)
      have hp2 : p.2 = S.getD (p.1 - 0) 0 := by
        rw [← hpsz, hgd]
      rcases hrange _ hmemS with h0 | ⟨h1, h14⟩
      · omega
      · refine ⟨?_, by omega, by omega⟩
        rcases List.mem_cons.mp hp with rfl | hp2m
        · exact le_refl _
        · exact (List.pairwise_cons.mp hsorted).1 p hp2m
    have hls := hrangeP s0 (List.mem_cons_self _ _)
    have hmapperm : List.Perm ((s0 :: rest).map (fun p => p.2)) (pairs.map (fun p => p.2)) :=
      hperm.map _
    have hfilter : pairs.map (fun p => p.2) = S.filter (fun s => decide (s ≠ 0)) := by
      rw [hpe, hc0]
      exact livePairs_map_size S 0
    have hTTs : ∀ b, TT ((s0 :: rest).map (fun p => p.2)) b = TT S b := by
      intro b
      rw [TT_perm hmapperm b, hfilter]
      exact TT_congr _ _ (fun a ha => cnt_filter_ne_zero S a (by omega)) b
    have hok : spOk (s0 :: rest) s0.2 0 = true := by
      apply spOk_of_kraft (s0 :: rest) s0.2 0 hsorted
        (fun p hp => ⟨(hrangeP p hp).1, (hrangeP p hp).2⟩) hls.2.1 hls.2.2
      intro b hb hb14
      rw [Nat.zero_mul, Nat.zero_add, hTTs b]
      exact hTTle b
    have hsp : secondPass codes0 =
        SPRes.ok (writeAll codes0 (spTriples (s0 :: rest) s0.2 0)) := by
      have h1 : secondPass codes0 =
          match sortBySize pairs with
          | [] => SPRes.oob
          | s0 :: rest => spLoop (s0 :: rest) s0.2 0 codes0 := by
        unfold secondPass
        rw [hcp]
      rw [h1, hs2]
      exact (spLoop_ok_iff _ _ _ _ _).mpr ⟨hok, rfl⟩
    refine ⟨⟨writeAll codes0 (spTriples (s0 :: rest) s0.2 0),
      (mmLoop S 0 0 false).1, (mmLoop S 0 0 false).2⟩, ?_, ?_⟩
    · simp only [encoderInitFromSizesCore]
      rw [← hc0, hsp]
    · show (writeAll codes0 (spTriples (s0 :: rest) s0.2 0)).map (fun c => c.size) = S
      rw [writeAll_map_size, hc0, map_size_of_mk]

theorem decoderCodes_eq_of_core (S : List Nat) (d : Decoder) (asg : List (Int × Code))
    (h : decoderInitCore S = .ok (d, asg)) : decoderCodes S = asg := by
  unfold decoderCodes
  rw [h]

theorem decoderCodes_all_zero (S : List Nat) (h : ∀ s ∈ S, s = 0) :
    decoderCodes S = [] := by
  unfold decoderCodes
  have h1 : decoderInitCore S = .ok (⟨[], [], 0, 0⟩, []) := by
    unfold decoderInitCore
    rw [scanSizes_all_zero S h]
    rfl
  rw [h1]

/-- The assignment stream of a successful Decoder.Init, with its shape,
completeness and separation facts, in the no-wrap regime. -/
theorem decoder_raw_char (S : List Nat) (d : Decoder)
    (hlen : S.length < 2 ^ 31) (hlive : ∃ s ∈ S, s ≠ 0)
    (hwrap : TT S (maxNZ S) < U32) (hd : decoderInit S = .ok d) :
    ∃ raw : List (Nat × Nat × Nat),
      decoderCodes S = raw.map rawToAsg ∧
      d.table = tableOf [] (raw.map rawToAsg) ∧
      d.sizes = S ∧
      (∀ s ∈ S, s ≠ 0 → d.minSize ≤ s ∧ s ≤ d.maxSize) ∧
      d.minSize ≠ 0 ∧ d.maxSize ≤ 14 ∧
      (∀ tr ∈ raw, tr.1 < S.length ∧ S.getD tr.1 0 = tr.2.1 ∧
        1 ≤ tr.2.1 ∧ tr.2.1 ≤ 14 ∧ tr.2.2 < 2 ^ tr.2.1) ∧
      (∀ j, j < S.length → S.getD j 0 ≠ 0 →
        ∃ tr ∈ raw, tr.1 = j ∧ tr.2.1 = S.getD j 0) ∧
      raw.Pairwise (fun t1 t2 =>
        t1.1 < t2.1 ∧
        (t1.2.1 = t2.2.1 → t1.2.2 + 1 ≤ t2.2.2) ∧
        (t1.2.1 < t2.2.1 → (t1.2.2 + 1) * 2 ^ (t2.2.1 - t1.2.1) ≤ t2.2.2) ∧
        (t2.2.1 < t1.2.1 → (t2.2.2 + 1) * 2 ^ (t1.2.1 - t2.2.1) ≤ t1.2.2)) := by
  rcases decoderInit_ok_cases S d hd with ⟨asg, hcore⟩
  rcases decoderInitCore_ok_char S d asg hlen hlive hwrap hcore with
    ⟨hsizes, hrange, hmax, hmn_nz, hmmle, hmax14, hm1, hcomp, nca, hnclen, hncget, hasg, htbl⟩
  have hTTle : ∀ b, TT S b ≤ 2 ^ b := by
    apply TT_le_pow_all S d.maxSize hcomp
    intro b hb
    exact cnt_zero_above_maxNZ S b (by omega)
  have hinv : ∀ b, 1 ≤ b → b ≤ 14 → cnt S b ≠ 0 →
      2 * TT S (b - 1) ≤ nca.getD b 0 ∧ nca.getD b 0 + cnt S b ≤ TT S b ∧
        TT S b ≤ 2 ^ b := by
    intro b h1 h14 hcnt
    have hmemS : b ∈ S := cnt_mem S b hcnt
    have hmm := hm1 b hmemS (by omega)
    have hget := hncget b hmm.1 hmm.2
    refine ⟨le_of_eq hget.symm, ?_, hTTle b⟩
    rw [hget]
    have hTTrec : TT S b = 2 * TT S (b - 1) + cnt S b := by
      conv_lhs => rw [show b = (b - 1) + 1 from by omega]
      simp only [TT]
      rw [show b - 1 + 1 = b from by omega]
    omega
  have hsep : ∀ b b2, 1 ≤ b → b < b2 → b2 ≤ 14 → cnt S b ≠ 0 → cnt S b2 ≠ 0 →
      TT S b * 2 ^ (b2 - b) ≤ 2 * TT S (b2 - 1) := by
    intro b b2 h1 hlt h14 _ _
    have hs := TT_scale S b (b2 - 1 - b)
    have harith : b + (b2 - 1 - b) = b2 - 1 := by omega
    rw [harith] at hs
    have hexp : (2 : Nat) ^ (b2 - b) = 2 ^ (b2 - 1 - b) * 2 := by
      rw [← pow_succ]
      congr 1
      omega
    rw [hexp, ← Nat.mul_assoc]
    omega
  rcases asgRawInv S 0 nca (fun b => 2 * TT S (b - 1)) (fun b => TT S b)
      hnclen hrange hinv hsep with ⟨hshape, hcompl, hpw⟩
  refine ⟨asgRaw S 0 nca, by rw [decoderCodes_eq_of_core S d asg hcore, hasg],
    by rw [htbl], hsizes, hm1, hmn_nz, hmax14, ?_, ?_, hpw⟩
  · intro tr htr
    rcases hshape tr htr with ⟨-, hlt, hget, h1, h14, hv, -, -⟩
    rw [Nat.sub_zero] at hlt hget
    exact ⟨hlt, hget, h1, h14, hv⟩
  · intro j hj hnz
    rcases hcompl j hj hnz with ⟨tr, htr, h1, h2⟩
    rw [Nat.zero_add] at h1
    exact ⟨tr, htr, h1, h2⟩

/-- Separated assignment values give mutually prefix-free reversed codes. -/
theorem raw_pairwise_nonprefix (raw : List (Nat × Nat × Nat))
    (hshape : ∀ tr ∈ raw, 1 ≤ tr.2.1 ∧ tr.2.2 < 2 ^ tr.2.1)
    (hpw : raw.Pairwise (fun t1 t2 =>
      t1.1 < t2.1 ∧
      (t1.2.1 = t2.2.1 → t1.2.2 + 1 ≤ t2.2.2) ∧
      (t1.2.1 < t2.2.1 → (t1.2.2 + 1) * 2 ^ (t2.2.1 - t1.2.1) ≤ t2.2.2) ∧
      (t2.2.1 < t1.2.1 → (t2.2.2 + 1) * 2 ^ (t1.2.1 - t2.2.1) ≤ t1.2.2))) :
    (raw.map rawToAsg).Pairwise (fun p q =>
      ¬ isPfxOf p.2 q.2 ∧ ¬ isPfxOf q.2 p.2 ∧ p.2 ≠ q.2) := by
  rw [List.pairwise_map]
  refine hpw.imp_of_mem ?_
  intro t1 t2 h1 h2 hrel
  rcases hshape t1 h1 with ⟨hb1, hv1⟩
  rcases hshape t2 h2 with ⟨hb2, hv2⟩
  have hc1 : (rawToAsg t1).2 = ⟨t1.2.1, revBits t1.2.1 t1.2.2⟩ := rfl
  have hc2 : (rawToAsg t2).2 = ⟨t2.2.1, revBits t2.2.1 t2.2.2⟩ := rfl
  have hnp1 : ¬ isPfxOf (rawToAsg t1).2 (rawToAsg t2).2 := by
    rw [hc1, hc2]
    by_cases hble : t1.2.1 ≤ t2.2.1
    · rw [isPfxOf_rev_iff t1.2.1 t2.2.1 t1.2.2 t2.2.2 hble hv1 hv2]
      intro hdiv
      by_cases heq : t1.2.1 = t2.2.1
      · have := hrel.2.1 heq
        rw [heq, Nat.sub_self, pow_zero, Nat.div_one] at hdiv
        omega
      · have hlt := hrel.2.2.1 (by omega)
        have hge : t1.2.2 + 1 ≤ t2.2.2 / 2 ^ (t2.2.1 - t1.2.1) :=
          (Nat.le_div_iff_mul_le (Nat.pos_pow_of_pos _ (by norm_num))).mpr hlt
        omega
    · intro hpfx
      exact hble hpfx.1
  have hnp2 : ¬ isPfxOf (rawToAsg t2).2 (rawToAsg t1).2 := by
    rw [hc1, hc2]
    by_cases hble : t2.2.1 ≤ t1.2.1
    · rw [isPfxOf_rev_iff t2.2.1 t1.2.1 t2.2.2 t1.2.2 hble hv2 hv1]
      intro hdiv
      by_cases heq : t2.2.1 = t1.2.1
      · have := hrel.2.1 heq.symm
        rw [heq, Nat.sub_self, pow_zero, Nat.div_one] at hdiv
        omega
      · have hlt := hrel.2.2.2 (by omega)
        have hge : t2.2.2 + 1 ≤ t1.2.2 / 2 ^ (t1.2.1 - t2.2.1) :=
          (Nat.le_div_iff_mul_le (Nat.pos_pow_of_pos _ (by norm_num))).mpr hlt
        omega
    · intro hpfx
      exact hble hpfx.1
  refine ⟨hnp1, hnp2, ?_⟩
  intro heq
  apply hnp1
  rw [heq]
  exact ⟨le_refl _, Nat.mod_eq_of_lt (by rw [hc2]; exact revBits_lt _ _)⟩

/-! ## Bit arithmetic for the fillTable walk -/

theorem xor_double (a b r : Nat) (hr : r < 2) :
    Nat.xor (2 * a + r) (2 * b) = 2 * Nat.xor a b + r := by
  interval_cases r
  · have h1 : 2 * a + 0 = Nat.bit false a := by simp [Nat.bit]
    have h2 : 2 * b = Nat.bit false b := by simp [Nat.bit]
    rw [h1, h2]
    show Nat.bit false a ^^^ Nat.bit false b = _
    rw [Nat.xor_bit]
    simp [Nat.bit]
    rfl
  · have h1 : 2 * a + 1 = Nat.bit true a := by simp [Nat.bit]
    have h2 : 2 * b = Nat.bit false b := by simp [Nat.bit]
    rw [h1, h2]
    show Nat.bit true a ^^^ Nat.bit false b = _
    rw [Nat.xor_bit]
    simp [Nat.bit]
    rfl

/-- Xor with the top bit of an (s+1)-bit value sets or clears that bit. -/
theorem xor_top_bit (s : Nat) : ∀ x, x < 2 ^ (s + 1) →
    Nat.xor x (2 ^ s) = if x / 2 ^ s % 2 = 1 then x - 2 ^ s else x + 2 ^ s := by
  induction s with
  | zero =>
    intro x hx
    interval_cases x <;> decide
  | succ s ih =>
    intro x hx
    have hdecomp := Nat.div_add_mod x 2
    have hr : x % 2 < 2 := Nat.mod_lt _ (by norm_num)
    have hq : x / 2 < 2 ^ (s + 1) := by
      have : x < 2 * 2 ^ (s + 1) := by
        rw [pow_succ] at hx
        omega
      omega
    have h1 : (2 : Nat) ^ (s + 1) = 2 * 2 ^ s := by ring
    have hxor : Nat.xor x (2 ^ (s + 1)) = 2 * Nat.xor (x / 2) (2 ^ s) + x % 2 := by
      conv_lhs => rw [← hdecomp, h1]
      exact xor_double (x / 2) (2 ^ s) (x % 2) hr
    rw [hxor, ih (x / 2) hq]
    have hdiv : x / 2 ^ (s + 1) = x / 2 / 2 ^ s := by
      rw [h1, Nat.div_div_eq_div_mul, Nat.mul_comm]
    rw [hdiv]
    clear hxor
    by_cases hb : x / 2 / 2 ^ s % 2 = 1
    · rw [if_pos hb, if_pos hb]
      have hpos : 0 < 2 ^ s := Nat.pos_pow_of_pos _ (by norm_num)
      have h3 : 1 ≤ x / 2 / 2 ^ s := by
        rcases Nat.eq_zero_or_pos (x / 2 / 2 ^ s) with h0 | h0
        · rw [h0] at hb
          simp at hb
        · exact h0
      have hge : 1 * 2 ^ s ≤ x / 2 := (Nat.le_div_iff_mul_le hpos).mp h3
      clear ih hb h3 hdiv
      omega
    · rw [if_neg hb, if_neg hb]
      clear ih hb hdiv
      omega

/-! ## Prefix order basics -/

theorem isPfxOf_refl (c : Code) (h : c.bits < 2 ^ c.size) : isPfxOf c c :=
  ⟨le_refl _, Nat.mod_eq_of_lt h⟩

theorem isPfxOf_trans {a b c : Code} (h1 : isPfxOf a b) (h2 : isPfxOf b c) :
    isPfxOf a c := by
  refine ⟨le_trans h1.1 h2.1, ?_⟩
  have hd : (2 : Nat) ^ a.size ∣ 2 ^ b.size := pow_dvd_pow 2 h1.1
  rw [← Nat.mod_mod_of_dvd c.bits hd, h2.2, h1.2]

theorem code_eq_of_pfx_sz {k c : Code} (h : isPfxOf k c) (hsz : c.size ≤ k.size)
    (hb : c.bits < 2 ^ c.size) : k = c := by
  have h1 : k.size = c.size := le_antisymm h.1 hsz
  have h2 : k.bits = c.bits := by
    rw [← h.2, h1, Nat.mod_eq_of_lt hb]
  cases k
  cases c
  simp only [Code.mk.injEq]
  exact ⟨h1, h2⟩

/-! ## Specification of the decoder lookup table -/

/-- v is the least size of a code weakly extending k in the assignment
list (k itself if assigned, else a code k is a strict transmission-order
prefix of). -/
def MinSpec (l : List (Int × Code)) (k : Code) (v : Nat) : Prop :=
  (∃ p ∈ l, isPfxOf k p.2 ∧ p.2.size = v) ∧ (∀ p ∈ l, isPfxOf k p.2 → v ≤ p.2.size)

/-- v is the greatest size of a code weakly extending k. -/
def MaxSpec (l : List (Int × Code)) (k : Code) (v : Nat) : Prop :=
  (∃ p ∈ l, isPfxOf k p.2 ∧ p.2.size = v) ∧ (∀ p ∈ l, isPfxOf k p.2 → p.2.size ≤ v)

/-- The intended content of a table entry at key k for an assignment list:
min/max summarize the weak extensions of k, and the symbol is the assigned
one (k a full code) or InvalidSymbol (k an interior prefix). -/
def entryRel (l : List (Int × Code)) (k : Code) (dd : DData) : Prop :=
  MinSpec l k dd.minSize ∧ MaxSpec l k dd.maxSize ∧
    ((∃ p ∈ l, p.2 = k ∧ dd.symbol = p.1) ∨
      ((∀ p ∈ l, p.2 ≠ k) ∧ dd.symbol = InvalidSymbol))

/-- Correctness of a table at one key: a stored entry satisfies entryRel,
a missing key has no weak extensions in the list. -/
def okAt (l : List (Int × Code)) (t : Table) (k : Code) : Prop :=
  match tget t k with
  | some dd => entryRel l k dd
  | none => ∀ p ∈ l, ¬ isPfxOf k p.2

theorem entryRel_append_iff (l : List (Int × Code)) (sym : Int) (c k : Code) (dd : DData)
    (hc2 : c.bits < 2 ^ c.size) (h : ¬ isPfxOf k c) :
    entryRel (l ++ [(sym, c)]) k dd ↔ entryRel l k dd := by
  have hkc : k ≠ c := fun he => h (he ▸ isPfxOf_refl c hc2)
  constructor
  · rintro ⟨⟨⟨p, hp, hpx, hps⟩, hminb⟩, ⟨⟨q, hq, hqx, hqs⟩, hmaxb⟩, hsymb⟩
    have hpl : p ∈ l := by
      rcases List.mem_append.mp hp with h1 | h1
      · exact h1
      · rw [List.mem_singleton.mp h1] at hpx
        exact absurd hpx h
    have hql : q ∈ l := by
      rcases List.mem_append.mp hq with h1 | h1
      · exact h1
      · rw [List.mem_singleton.mp h1] at hqx
        exact absurd hqx h
    refine ⟨⟨⟨p, hpl, hpx, hps⟩, fun r hr hx => hminb r (List.mem_append_left _ hr) hx⟩,
      ⟨⟨q, hql, hqx, hqs⟩, fun r hr hx => hmaxb r (List.mem_append_left _ hr) hx⟩, ?_⟩
    rcases hsymb with ⟨p2, hp2, hp2k, hp2s⟩ | ⟨hall, hinv⟩
    · rcases List.mem_append.mp hp2 with h1 | h1
      · exact Or.inl ⟨p2, h1, hp2k, hp2s⟩
      · rw [List.mem_singleton.mp h1] at hp2k
        exact absurd hp2k.symm hkc
    · exact Or.inr ⟨fun p2 hp2 => hall p2 (List.mem_append_left _ hp2), hinv⟩
  · rintro ⟨⟨⟨p, hp, hpx, hps⟩, hminb⟩, ⟨⟨q, hq, hqx, hqs⟩, hmaxb⟩, hsymb⟩
    refine ⟨⟨⟨p, List.mem_append_left _ hp, hpx, hps⟩, ?_⟩,
      ⟨⟨q, List.mem_append_left _ hq, hqx, hqs⟩, ?_⟩, ?_⟩
    · intro r hr hx
      rcases List.mem_append.mp hr with h1 | h1
      · exact hminb r h1 hx
      · rw [List.mem_singleton.mp h1] at hx
        exact absurd hx h
    · intro r hr hx
      rcases List.mem_append.mp hr with h1 | h1
      · exact hmaxb r h1 hx
      · rw [List.mem_singleton.mp h1] at hx
        exact absurd hx h
    · rcases hsymb with ⟨p2, hp2, hp2k, hp2s⟩ | ⟨hall, hinv⟩
      · exact Or.inl ⟨p2, List.mem_append_left _ hp2, hp2k, hp2s⟩
      · refine Or.inr ⟨?_, hinv⟩
        intro p2 hp2
        rcases List.mem_append.mp hp2 with h1 | h1
        · exact hall p2 h1
        · rw [List.mem_singleton.mp h1]
          exact fun he => hkc he.symm

theorem okAt_append_of_not_pfx (l : List (Int × Code)) (sym : Int) (c k : Code) (t : Table)
    (hc2 : c.bits < 2 ^ c.size) (h : ¬ isPfxOf k c)
    (hk : okAt l t k) : okAt (l ++ [(sym, c)]) t k := by
  unfold okAt at hk ⊢
  cases htg : tget t k with
  | some dd =>
    rw [htg] at hk
    have hk2 : entryRel l k dd := hk
    exact (entryRel_append_iff l sym c k dd hc2 h).mpr hk2
  | none =>
    rw [htg] at hk
    have hk2 : ∀ p ∈ l, ¬ isPfxOf k p.2 := hk
    intro p hp
    rcases List.mem_append.mp hp with h1 | h1
    · exact hk2 p h1
    · rw [List.mem_singleton.mp h1]
      exact h

theorem okAt_append_absorbed (l : List (Int × Code)) (sym : Int) (c k parent : Code)
    (t : Table) (mn mx : Nat)
    (hkp : isPfxOf k parent) (hkc : k ≠ c)
    (hmn : MinSpec l parent mn) (hmx : MaxSpec l parent mx)
    (hmnle : mn ≤ c.size) (hmxge : c.size ≤ mx)
    (hk : okAt l t k) : okAt (l ++ [(sym, c)]) t k := by
  rcases hmn.1 with ⟨p0, hp0, hp0x, hp0s⟩
  rcases hmx.1 with ⟨q0, hq0, hq0x, hq0s⟩
  have hp0k : isPfxOf k p0.2 := isPfxOf_trans hkp hp0x
  have hq0k : isPfxOf k q0.2 := isPfxOf_trans hkp hq0x
  unfold okAt at hk ⊢
  cases htg : tget t k with
  | none =>
    rw [htg] at hk
    have hk2 : ∀ p ∈ l, ¬ isPfxOf k p.2 := hk
    exact absurd hp0k (hk2 p0 hp0)
  | some dd =>
    rw [htg] at hk
    have hk2 : entryRel l k dd := hk
    obtain ⟨hminS, hmaxS, hsymb⟩ := hk2
    have hmnk : dd.minSize ≤ mn := by
      have := hminS.2 p0 hp0 hp0k
      omega
    have hmxk : mx ≤ dd.maxSize := by
      have := hmaxS.2 q0 hq0 hq0k
      omega
    refine ⟨⟨?_, ?_⟩, ⟨?_, ?_⟩, ?_⟩
    · rcases hminS.1 with ⟨p, hp, hx, hs⟩
      exact ⟨p, List.mem_append_left _ hp, hx, hs⟩
    · intro p hp hx
      rcases List.mem_append.mp hp with h1 | h1
      · exact hminS.2 p h1 hx
      · rw [List.mem_singleton.mp h1]
        show dd.minSize ≤ c.size
        omega
    · rcases hmaxS.1 with ⟨p, hp, hx, hs⟩
      exact ⟨p, List.mem_append_left _ hp, hx, hs⟩
    · intro p hp hx
      rcases List.mem_append.mp hp with h1 | h1
      · exact hmaxS.2 p h1 hx
      · rw [List.mem_singleton.mp h1]
        show c.size ≤ dd.maxSize
        omega
    · rcases hsymb with ⟨p2, hp2, hp2k, hp2s⟩ | ⟨hall, hinv⟩
      · exact Or.inl ⟨p2, List.mem_append_left _ hp2, hp2k, hp2s⟩
      · refine Or.inr ⟨?_, hinv⟩
        intro p2 hp2
        rcases List.mem_append.mp hp2 with h1 | h1
        · exact hall p2 h1
        · rw [List.mem_singleton.mp h1]
          exact fun he => hkc he.symm

theorem entryRel_leaf (l : List (Int × Code)) (sym : Int) (c : Code)
    (hc2 : c.bits < 2 ^ c.size)
    (hpwc : ∀ p ∈ l, ¬ isPfxOf p.2 c ∧ ¬ isPfxOf c p.2 ∧ p.2 ≠ c) :
    entryRel (l ++ [(sym, c)]) c ⟨sym, c.size, c.size⟩ := by
  have hself : (sym, c) ∈ l ++ [(sym, c)] :=
    List.mem_append_right _ (List.mem_singleton.mpr rfl)
  refine ⟨⟨⟨(sym, c), hself, isPfxOf_refl c hc2, rfl⟩, ?_⟩,
    ⟨⟨(sym, c), hself, isPfxOf_refl c hc2, rfl⟩, ?_⟩,
    Or.inl ⟨(sym, c), hself, rfl, rfl⟩⟩
  · intro p hp hx
    exact hx.1
  · intro p hp hx
    rcases List.mem_append.mp hp with h1 | h1
    · exact absurd hx (hpwc p h1).2.1
    · rw [List.mem_singleton.mp h1]

/-! ## The fillTable walk builds the specified table -/

theorem fillLoop_succ (fuel : Nat) (t : Table) (dd : DData) (hc sib parent : Code)
    (ddNew : DData)
    (hsz : hc.size = fuel + 1)
    (hsib : sib = ⟨hc.size, Nat.xor hc.bits (2 ^ (hc.size - 1))⟩)
    (hparent : parent = ⟨hc.size - 1,
      if sib.bits / 2 ^ (hc.size - 1) % 2 = 1 then sib.bits - 2 ^ (hc.size - 1)
      else sib.bits⟩)
    (hddNew : ddNew = (match tget t sib with
      | some ds => ⟨InvalidSymbol, min dd.minSize ds.minSize, max dd.maxSize ds.maxSize⟩
      | none => (⟨InvalidSymbol, dd.minSize, dd.maxSize⟩ : DData))) :
    fillLoop (fuel + 1) t dd hc =
      match tget t parent with
      | some ddOld =>
        if ddOld = ddNew then t else fillLoop fuel (tset t parent ddNew) ddNew parent
      | none => fillLoop fuel (tset t parent ddNew) ddNew parent := by
  subst hsib hparent hddNew
  simp only [fillLoop]
  rw [if_neg (by omega)]


theorem fillLoop_stop (fuel : Nat) (t : Table) (dd : DData) (hc sib parent : Code)
    (ddNew ddOld : DData)
    (hsz : hc.size = fuel + 1)
    (hsib : sib = ⟨hc.size, Nat.xor hc.bits (2 ^ (hc.size - 1))⟩)
    (hparent : parent = ⟨hc.size - 1,
      if sib.bits / 2 ^ (hc.size - 1) % 2 = 1 then sib.bits - 2 ^ (hc.size - 1)
      else sib.bits⟩)
    (hddNew : ddNew = (match tget t sib with
      | some ds => ⟨InvalidSymbol, min dd.minSize ds.minSize, max dd.maxSize ds.maxSize⟩
      | none => (⟨InvalidSymbol, dd.minSize, dd.maxSize⟩ : DData)))
    (htpar : tget t parent = some ddOld) (heq : ddOld = ddNew) :
    fillLoop (fuel + 1) t dd hc = t := by
  rw [fillLoop_succ fuel t dd hc sib parent ddNew hsz hsib hparent hddNew, htpar]
  dsimp only
  rw [if_pos heq]

theorem fillLoop_go (fuel : Nat) (t : Table) (dd : DData) (hc sib parent : Code)
    (ddNew : DData)
    (hsz : hc.size = fuel + 1)
    (hsib : sib = ⟨hc.size, Nat.xor hc.bits (2 ^ (hc.size - 1))⟩)
    (hparent : parent = ⟨hc.size - 1,
      if sib.bits / 2 ^ (hc.size - 1) % 2 = 1 then sib.bits - 2 ^ (hc.size - 1)
      else sib.bits⟩)
    (hddNew : ddNew = (match tget t sib with
      | some ds => ⟨InvalidSymbol, min dd.minSize ds.minSize, max dd.maxSize ds.maxSize⟩
      | none => (⟨InvalidSymbol, dd.minSize, dd.maxSize⟩ : DData)))
    (hcase : tget t parent = none ∨
      ∃ ddOld, tget t parent = some ddOld ∧ ddOld ≠ ddNew) :
    fillLoop (fuel + 1) t dd hc = fillLoop fuel (tset t parent ddNew) ddNew parent := by
  rw [fillLoop_succ fuel t dd hc sib parent ddNew hsz hsib hparent hddNew]
  rcases hcase with h | ⟨ddOld, h, hne⟩
  · rw [h]
  · rw [h]
    dsimp only
    rw [if_neg hne]

theorem fillLoop_ok
    (done : List (Int × Code)) (sym : Int) (c : Code)
    (hc2 : c.bits < 2 ^ c.size)
    (hshape : ∀ p ∈ done, p.2.bits < 2 ^ p.2.size)
    (hpwc : ∀ p ∈ done, ¬ isPfxOf p.2 c ∧ ¬ isPfxOf c p.2 ∧ p.2 ≠ c) :
    ∀ (m : Nat) (t : Table) (dd : DData),
      m ≤ c.size →
      tget t ⟨m, c.bits % 2 ^ m⟩ = some dd →
      entryRel (done ++ [(sym, c)]) ⟨m, c.bits % 2 ^ m⟩ dd →
      (∀ k : Code, isPfxOf k c → m ≤ k.size → okAt (done ++ [(sym, c)]) t k) →
      (∀ k : Code, ¬ (isPfxOf k c ∧ m ≤ k.size) → okAt done t k) →
      ∀ k : Code, okAt (done ++ [(sym, c)]) (fillLoop m t dd ⟨m, c.bits % 2 ^ m⟩) k := by
  intro m
  induction m with
  | zero =>
    intro t dd hmle htget hrel hupd hold k
    show okAt (done ++ [(sym, c)]) t k
    by_cases hk : isPfxOf k c
    · exact hupd k hk (Nat.zero_le _)
    · exact okAt_append_of_not_pfx done sym c k t hc2 hk (hold k (fun h => hk h.1))
  | succ m' ih =>
    intro t dd hmle htget hrel hupd hold
    have hp2 : 0 < 2 ^ m' := Nat.pos_pow_of_pos _ (by norm_num)
    set P := c.bits % 2 ^ m' with hP_def
    set X := c.bits % 2 ^ (m' + 1) with hX_def
    set S := Nat.xor X (2 ^ m') with hS_def
    have hX : X < 2 ^ (m' + 1) := by
      rw [hX_def]
      exact Nat.mod_lt _ (Nat.pos_pow_of_pos _ (by norm_num))
    have hP : P < 2 ^ m' := by
      rw [hP_def]
      exact Nat.mod_lt _ hp2
    have hXP : X % 2 ^ m' = P := by
      rw [hX_def, Nat.mod_mod_of_dvd _ (pow_dvd_pow 2 (Nat.le_succ m')), ← hP_def]
    have hqlt : X / 2 ^ m' < 2 := by
      rw [Nat.div_lt_iff_lt_mul hp2]
      have hps : (2 : Nat) ^ (m' + 1) = 2 ^ m' * 2 := pow_succ 2 m'
      omega
    have hdecomp : 2 ^ m' * (X / 2 ^ m') + P = X := by
      have := Nat.div_add_mod X (2 ^ m')
      rw [hXP] at this
      exact this
    have hsplit : (X = P ∧ X / 2 ^ m' = 0) ∨ (X = P + 2 ^ m' ∧ X / 2 ^ m' = 1) := by
      rcases Nat.le_one_iff_eq_zero_or_eq_one.mp (Nat.le_of_lt_succ hqlt) with h0 | h0
      · left
        rw [h0] at hdecomp
        simp only [Nat.mul_zero, Nat.zero_add] at hdecomp
        exact ⟨hdecomp.symm, h0⟩
      · right
        rw [h0] at hdecomp
        simp only [Nat.mul_one] at hdecomp
        exact ⟨by omega, h0⟩
    have hxor := xor_top_bit m' X hX
    have hsibP : (X = P ∧ S = P + 2 ^ m') ∨ (X = P + 2 ^ m' ∧ S = P) := by
      rcases hsplit with ⟨hXv, hq⟩ | ⟨hXv, hq⟩
      · left
        refine ⟨hXv, ?_⟩
        rw [hS_def, hxor, if_neg (by rw [hq]; decide)]
        omega
      · right
        refine ⟨hXv, ?_⟩
        rw [hS_def, hxor, if_pos (by rw [hq])]
        omega
    have hSne : S ≠ X := by
      rcases hsibP with ⟨h1, h2⟩ | ⟨h1, h2⟩ <;> omega
    have hparent' : (if S / 2 ^ m' % 2 = 1 then S - 2 ^ m' else S) = P := by
      rcases hsibP with ⟨hXv, hS2⟩ | ⟨hXv, hS2⟩
      · have h1 : S / 2 ^ m' = 1 := by
          rw [hS2, Nat.add_div_right _ hp2, Nat.div_eq_of_lt hP]
        rw [if_pos (by rw [h1])]
        omega
      · have h1 : S / 2 ^ m' = 0 := by
          rw [hS2]
          exact Nat.div_eq_of_lt hP
        rw [if_neg (by rw [h1]; decide)]
        exact hS2
    -- prefix facts
    have hpfx_cur_c : isPfxOf ⟨m' + 1, X⟩ c := ⟨hmle, hX_def.symm⟩
    have hpfx_pc_c : isPfxOf ⟨m', P⟩ c := ⟨le_trans (Nat.le_succ m') hmle, hP_def.symm⟩
    have hpfx_pc_cur : isPfxOf (⟨m', P⟩ : Code) ⟨m' + 1, X⟩ := ⟨Nat.le_succ m', hXP⟩
    have hpfx_pc_sib : isPfxOf (⟨m', P⟩ : Code) ⟨m' + 1, S⟩ := by
      refine ⟨Nat.le_succ m', ?_⟩
      show S % 2 ^ m' = P
      rcases hsibP with ⟨h1, h2⟩ | ⟨h1, h2⟩
      · rw [h2, Nat.add_mod_right, Nat.mod_eq_of_lt hP]
      · rw [h2, Nat.mod_eq_of_lt hP]
    have hsib_not_pfx : ¬ isPfxOf ⟨m' + 1, S⟩ c := by
      intro h
      exact hSne h.2.symm
    have hpc_unassigned : ∀ p ∈ done ++ [(sym, c)], p.2 ≠ (⟨m', P⟩ : Code) := by
      intro p hp
      rcases List.mem_append.mp hp with h1 | h1
      · intro he
        apply (hpwc p h1).1
        rw [he]
        exact hpfx_pc_c
      · rw [List.mem_singleton.mp h1]
        intro he
        have hcs : c.size = m' := congrArg Code.size he
        omega
    -- partition of the parent's extensions between the two children
    have hpart : ∀ p ∈ done ++ [(sym, c)], isPfxOf ⟨m', P⟩ p.2 →
        isPfxOf ⟨m' + 1, X⟩ p.2 ∨ isPfxOf ⟨m' + 1, S⟩ p.2 := by
      intro p hp hx
      have hps : p.2.bits < 2 ^ p.2.size := by
        rcases List.mem_append.mp hp with h1 | h1
        · exact hshape p h1
        · rw [List.mem_singleton.mp h1]
          exact hc2
      have hsz : m' + 1 ≤ p.2.size := by
        by_contra hlt
        have heq : (⟨m', P⟩ : Code) = p.2 := by
          apply code_eq_of_pfx_sz hx ?_ hps
          show p.2.size ≤ m'
          omega
        exact hpc_unassigned p hp heq.symm
      have hx2 : p.2.bits % 2 ^ m' = P := hx.2
      have hxx : p.2.bits % 2 ^ (m' + 1) % 2 ^ m' = P := by
        rw [Nat.mod_mod_of_dvd _ (pow_dvd_pow 2 (Nat.le_succ m'))]
        exact hx2
      have hq2 : p.2.bits % 2 ^ (m' + 1) / 2 ^ m' < 2 := by
        rw [Nat.div_lt_iff_lt_mul hp2]
        have hxlt : p.2.bits % 2 ^ (m' + 1) < 2 ^ (m' + 1) :=
          Nat.mod_lt _ (Nat.pos_pow_of_pos _ (by norm_num))
        have hps2 : (2 : Nat) ^ (m' + 1) = 2 ^ m' * 2 := pow_succ 2 m'
        omega
      have hdec2 := Nat.div_add_mod (p.2.bits % 2 ^ (m' + 1)) (2 ^ m')
      rw [hxx] at hdec2
      rcases Nat.le_one_iff_eq_zero_or_eq_one.mp (Nat.le_of_lt_succ hq2) with h0 | h0
      · rw [h0] at hdec2
        simp only [Nat.mul_zero, Nat.zero_add] at hdec2
        rcases hsibP with ⟨hXv, hSv⟩ | ⟨hXv, hSv⟩
        · left
          exact ⟨hsz, by rw [← hdec2, ← hXv]⟩
        · right
          exact ⟨hsz, by rw [← hdec2, ← hSv]⟩
      · rw [h0] at hdec2
        simp only [Nat.mul_one] at hdec2
        rcases hsibP with ⟨hXv, hSv⟩ | ⟨hXv, hSv⟩
        · right
          refine ⟨hsz, ?_⟩
          show p.2.bits % 2 ^ (m' + 1) = S
          omega
        · left
          refine ⟨hsz, ?_⟩
          show p.2.bits % 2 ^ (m' + 1) = X
          omega
    -- the merged parent entry is correct
    have hnew : entryRel (done ++ [(sym, c)]) ⟨m', P⟩
        (match tget t ⟨m' + 1, S⟩ with
         | some ds => ⟨InvalidSymbol, min dd.minSize ds.minSize, max dd.maxSize ds.maxSize⟩
         | none => ⟨InvalidSymbol, dd.minSize, dd.maxSize⟩) := by
      have hsib_ok' : okAt (done ++ [(sym, c)]) t ⟨m' + 1, S⟩ :=
        okAt_append_of_not_pfx done sym c _ t hc2 hsib_not_pfx
          (hold _ (fun h => hsib_not_pfx h.1))
      cases htsib : tget t ⟨m' + 1, S⟩ with
      | some ds =>
        have hds : entryRel (done ++ [(sym, c)]) ⟨m' + 1, S⟩ ds := by
          unfold okAt at hsib_ok'
          rw [htsib] at hsib_ok'
          exact hsib_ok'
        refine ⟨⟨?_, ?_⟩, ⟨?_, ?_⟩, Or.inr ⟨hpc_unassigned, rfl⟩⟩
        · show ∃ p ∈ done ++ [(sym, c)], isPfxOf ⟨m', P⟩ p.2 ∧
            p.2.size = min dd.minSize ds.minSize
          rcases le_total dd.minSize ds.minSize with hle | hle
          · rcases hrel.1.1 with ⟨p, hp, hx, hs⟩
            exact ⟨p, hp, isPfxOf_trans hpfx_pc_cur hx, by rw [hs, min_eq_left hle]⟩
          · rcases hds.1.1 with ⟨p, hp, hx, hs⟩
            exact ⟨p, hp, isPfxOf_trans hpfx_pc_sib hx, by rw [hs, min_eq_right hle]⟩
        · intro p hp hx
          show min dd.minSize ds.minSize ≤ p.2.size
          rcases hpart p hp hx with hcur | hsib
          · have := hrel.1.2 p hp hcur
            have hm := min_le_left dd.minSize ds.minSize
            omega
          · have := hds.1.2 p hp hsib
            have hm := min_le_right dd.minSize ds.minSize
            omega
        · show ∃ p ∈ done ++ [(sym, c)], isPfxOf ⟨m', P⟩ p.2 ∧
            p.2.size = max dd.maxSize ds.maxSize
          rcases le_total dd.maxSize ds.maxSize with hle | hle
          · rcases hds.2.1.1 with ⟨p, hp, hx, hs⟩
            exact ⟨p, hp, isPfxOf_trans hpfx_pc_sib hx, by rw [hs, max_eq_right hle]⟩
          · rcases hrel.2.1.1 with ⟨p, hp, hx, hs⟩
            exact ⟨p, hp, isPfxOf_trans hpfx_pc_cur hx, by rw [hs, max_eq_left hle]⟩
        · intro p hp hx
          show p.2.size ≤ max dd.maxSize ds.maxSize
          rcases hpart p hp hx with hcur | hsib
          · have := hrel.2.1.2 p hp hcur
            have hm := le_max_left dd.maxSize ds.maxSize
            omega
          · have := hds.2.1.2 p hp hsib
            have hm := le_max_right dd.maxSize ds.maxSize
            omega
      | none =>
        have hnone : ∀ p ∈ done ++ [(sym, c)], ¬ isPfxOf ⟨m' + 1, S⟩ p.2 := by
          unfold okAt at hsib_ok'
          rw [htsib] at hsib_ok'
          exact hsib_ok'
        refine ⟨⟨?_, ?_⟩, ⟨?_, ?_⟩, Or.inr ⟨hpc_unassigned, rfl⟩⟩
        · show ∃ p ∈ done ++ [(sym, c)], isPfxOf ⟨m', P⟩ p.2 ∧ p.2.size = dd.minSize
          rcases hrel.1.1 with ⟨p, hp, hx, hs⟩
          exact ⟨p, hp, isPfxOf_trans hpfx_pc_cur hx, hs⟩
        · intro p hp hx
          show dd.minSize ≤ p.2.size
          rcases hpart p hp hx with hcur | hsib
          · exact hrel.1.2 p hp hcur
          · exact absurd hsib (hnone p hp)
        · show ∃ p ∈ done ++ [(sym, c)], isPfxOf ⟨m', P⟩ p.2 ∧ p.2.size = dd.maxSize
          rcases hrel.2.1.1 with ⟨p, hp, hx, hs⟩
          exact ⟨p, hp, isPfxOf_trans hpfx_pc_cur hx, hs⟩
        · intro p hp hx
          show p.2.size ≤ dd.maxSize
          rcases hpart p hp hx with hcur | hsib
          · exact hrel.2.1.2 p hp hcur
          · exact absurd hsib (hnone p hp)
    -- the recursive call maintains the invariant
    have hupd2 : ∀ k : Code, isPfxOf k c → m' ≤ k.size →
        okAt (done ++ [(sym, c)])
          (tset t ⟨m', P⟩
            (match tget t ⟨m' + 1, S⟩ with
             | some ds =>
               ⟨InvalidSymbol, min dd.minSize ds.minSize, max dd.maxSize ds.maxSize⟩
             | none => ⟨InvalidSymbol, dd.minSize, dd.maxSize⟩)) k := by
      intro k hk1 hk5
      by_cases hk4 : k = (⟨m', P⟩ : Code)
      · subst hk4
        unfold okAt
        rw [tget_tset_self]
        exact hnew
      · unfold okAt
        rw [tget_tset_ne t _ _ k hk4]
        by_cases hk6 : m' + 1 ≤ k.size
        · exact hupd k hk1 hk6
        · exfalso
          apply hk4
          have h1 : k.size = m' := by omega
          have h2 : c.bits % 2 ^ k.size = k.bits := hk1.2
          rw [h1] at h2
          rw [← hP_def] at h2
          cases k with
          | mk ks kb =>
            have h1b : ks = m' := h1
            have h2b : P = kb := h2
            subst h1b
            rw [h2b]
    have hold2 : ∀ k : Code, ¬ (isPfxOf k c ∧ m' ≤ k.size) →
        okAt done
          (tset t ⟨m', P⟩
            (match tget t ⟨m' + 1, S⟩ with
             | some ds =>
               ⟨InvalidSymbol, min dd.minSize ds.minSize, max dd.maxSize ds.maxSize⟩
             | none => ⟨InvalidSymbol, dd.minSize, dd.maxSize⟩)) k := by
      intro k hnk
      have hk4 : k ≠ (⟨m', P⟩ : Code) := by
        intro he
        apply hnk
        rw [he]
        exact ⟨hpfx_pc_c, le_refl _⟩
      unfold okAt
      rw [tget_tset_ne t _ _ k hk4]
      exact hold k (fun h => hnk ⟨h.1, by omega⟩)
    have hrec : ∀ k : Code, okAt (done ++ [(sym, c)])
        (fillLoop m'
          (tset t ⟨m', P⟩
            (match tget t ⟨m' + 1, S⟩ with
             | some ds =>
               ⟨InvalidSymbol, min dd.minSize ds.minSize, max dd.maxSize ds.maxSize⟩
             | none => ⟨InvalidSymbol, dd.minSize, dd.maxSize⟩))
          (match tget t ⟨m' + 1, S⟩ with
           | some ds =>
             ⟨InvalidSymbol, min dd.minSize ds.minSize, max dd.maxSize ds.maxSize⟩
           | none => ⟨InvalidSymbol, dd.minSize, dd.maxSize⟩)
          ⟨m', P⟩) k :=
      ih _ _ (by omega) (tget_tset_self t ⟨m', P⟩ _) hnew hupd2 hold2
    -- dispatch on the parent entry
    cases htpar : tget t ⟨m', P⟩ with
    | none =>
      rw [fillLoop_go m' t dd ⟨m' + 1, X⟩ ⟨m' + 1, S⟩ ⟨m', P⟩ _ rfl
        (by rw [hS_def]; rfl) (by
          show (⟨m', P⟩ : Code) = ⟨m', if S / 2 ^ m' % 2 = 1 then S - 2 ^ m' else S⟩
          rw [hparent']) rfl (Or.inl htpar)]
      exact hrec
    | some ddOld =>
      have hpold2 : entryRel done ⟨m', P⟩ ddOld := by
        have hpold : okAt done t ⟨m', P⟩ := by
          apply hold
          intro h
          have h2 : m' + 1 ≤ m' := h.2
          omega
        unfold okAt at hpold
        rw [htpar] at hpold
        exact hpold
      by_cases heq : ddOld =
          (match tget t ⟨m' + 1, S⟩ with
           | some ds =>
             (⟨InvalidSymbol, min dd.minSize ds.minSize, max dd.maxSize ds.maxSize⟩ : DData)
           | none => ⟨InvalidSymbol, dd.minSize, dd.maxSize⟩)
      · rw [fillLoop_stop m' t dd ⟨m' + 1, X⟩ ⟨m' + 1, S⟩ ⟨m', P⟩ _ ddOld rfl
          (by rw [hS_def]; rfl) (by
            show (⟨m', P⟩ : Code) = ⟨m', if S / 2 ^ m' % 2 = 1 then S - 2 ^ m' else S⟩
            rw [hparent']) rfl htpar heq]
        -- early exit: every key already satisfies the new spec
        intro k
        by_cases hk1 : isPfxOf k c
        · by_cases hk5 : m' + 1 ≤ k.size
          · exact hupd k hk1 hk5
          · by_cases hk3 : k.size = m'
            · have hkeq : k = (⟨m', P⟩ : Code) := by
                have h2 : c.bits % 2 ^ k.size = k.bits := hk1.2
                rw [hk3] at h2
                rw [← hP_def] at h2
                cases k with
                | mk ks kb =>
                  have h1b : ks = m' := hk3
                  have h2b : P = kb := h2
                  subst h1b
                  rw [h2b]
              rw [hkeq]
              show okAt (done ++ [(sym, c)]) t ⟨m', P⟩
              unfold okAt
              rw [htpar]
              rw [heq]
              exact hnew
            · have hkp : isPfxOf k (⟨m', P⟩ : Code) := by
                refine ⟨?_, ?_⟩
                · show k.size ≤ m'
                  omega
                · show P % 2 ^ k.size = k.bits
                  rw [hP_def, Nat.mod_mod_of_dvd _ (pow_dvd_pow 2 (by omega : k.size ≤ m'))]
                  exact hk1.2
              have hkc : k ≠ c := by
                intro he
                rw [he] at hk5
                omega
              have hnewrel := hnew
              rw [← heq] at hnewrel
              have hminc : ddOld.minSize ≤ c.size :=
                hnewrel.1.2 (sym, c)
                  (List.mem_append_right _ (List.mem_singleton.mpr rfl)) hpfx_pc_c
              have hmaxc : c.size ≤ ddOld.maxSize :=
                hnewrel.2.1.2 (sym, c)
                  (List.mem_append_right _ (List.mem_singleton.mpr rfl)) hpfx_pc_c
              exact okAt_append_absorbed done sym c k ⟨m', P⟩ t ddOld.minSize
                ddOld.maxSize hkp hkc hpold2.1 hpold2.2.1 hminc hmaxc
                (hold k (fun h => hk5 h.2))
        · exact okAt_append_of_not_pfx done sym c k t hc2 hk1
            (hold k (fun h => hk1 h.1))
      · rw [fillLoop_go m' t dd ⟨m' + 1, X⟩ ⟨m' + 1, S⟩ ⟨m', P⟩ _ rfl
          (by rw [hS_def]; rfl) (by
            show (⟨m', P⟩ : Code) = ⟨m', if S / 2 ^ m' % 2 = 1 then S - 2 ^ m' else S⟩
            rw [hparent']) rfl (Or.inr ⟨ddOld, htpar, heq⟩)]
        exact hrec


theorem fillTable_ok (done : List (Int × Code)) (sym : Int) (c : Code) (t : Table)
    (hc2 : c.bits < 2 ^ c.size)
    (hshape : ∀ p ∈ done, p.2.bits < 2 ^ p.2.size)
    (hpwc : ∀ p ∈ done, ¬ isPfxOf p.2 c ∧ ¬ isPfxOf c p.2 ∧ p.2 ≠ c)
    (hok : ∀ k, okAt done t k) :
    ∀ k, okAt (done ++ [(sym, c)]) (fillTable t sym c) k := by
  have hceq : c = (⟨c.size, c.bits % 2 ^ c.size⟩ : Code) := by
    rw [Nat.mod_eq_of_lt hc2]
  have h1 : tget (tset t c ⟨sym, c.size, c.size⟩) ⟨c.size, c.bits % 2 ^ c.size⟩ =
      some ⟨sym, c.size, c.size⟩ := by
    rw [← hceq]
    exact tget_tset_self t c _
  have hrel : entryRel (done ++ [(sym, c)]) ⟨c.size, c.bits % 2 ^ c.size⟩
      ⟨sym, c.size, c.size⟩ := by
    rw [← hceq]
    exact entryRel_leaf done sym c hc2 hpwc
  have hupd : ∀ k : Code, isPfxOf k c → c.size ≤ k.size →
      okAt (done ++ [(sym, c)]) (tset t c ⟨sym, c.size, c.size⟩) k := by
    intro k hk1 hk2
    have hkeq : k = c := code_eq_of_pfx_sz hk1 hk2 hc2
    subst hkeq
    unfold okAt
    rw [tget_tset_self]
    exact entryRel_leaf done sym k hc2 hpwc
  have hold : ∀ k : Code, ¬ (isPfxOf k c ∧ c.size ≤ k.size) →
      okAt done (tset t c ⟨sym, c.size, c.size⟩) k := by
    intro k hnk
    have hk4 : k ≠ c := by
      intro he
      subst he
      exact hnk ⟨isPfxOf_refl k hc2, le_refl _⟩
    unfold okAt
    rw [tget_tset_ne t _ _ k hk4]
    exact hok k
  have hmain := fillLoop_ok done sym c hc2 hshape hpwc c.size
    (tset t c ⟨sym, c.size, c.size⟩) ⟨sym, c.size, c.size⟩ (le_refl _) h1 hrel hupd hold
  have h2 : fillTable t sym c =
      fillLoop c.size (tset t c ⟨sym, c.size, c.size⟩) ⟨sym, c.size, c.size⟩
        ⟨c.size, c.bits % 2 ^ c.size⟩ := by
    rw [← hceq]
    rfl
  rw [h2]
  exact hmain

theorem tableOf_ok :
    ∀ (rest done : List (Int × Code)) (t : Table),
      (∀ p ∈ done ++ rest, p.2.bits < 2 ^ p.2.size) →
      (done ++ rest).Pairwise
        (fun p q => ¬ isPfxOf p.2 q.2 ∧ ¬ isPfxOf q.2 p.2 ∧ p.2 ≠ q.2) →
      (∀ k, okAt done t k) →
      ∀ k, okAt (done ++ rest) (tableOf t rest) k := by
  intro rest
  induction rest with
  | nil =>
    intro done t hsh hpw hok k
    rw [List.append_nil]
    exact hok k
  | cons pc rest ih =>
    intro done t hsh hpw hok k
    rcases pc with ⟨sym, c⟩
    have hassoc : done ++ (sym, c) :: rest = (done ++ [(sym, c)]) ++ rest := by
      simp
    rw [hassoc]
    show okAt ((done ++ [(sym, c)]) ++ rest) (tableOf (fillTable t sym c) rest) k
    have hcmem : (sym, c) ∈ done ++ (sym, c) :: rest :=
      List.mem_append_right _ (List.mem_cons_self _ _)
    apply ih (done ++ [(sym, c)]) (fillTable t sym c)
    · rw [← hassoc]
      exact hsh
    · rw [← hassoc]
      exact hpw
    · apply fillTable_ok done sym c t (hsh (sym, c) hcmem)
        (fun p hp => hsh p (List.mem_append_left _ hp)) ?_ hok
      intro p hp
      have hpw2 := (List.pairwise_append.mp hpw).2.2
      exact hpw2 p hp (sym, c) (List.mem_cons_self _ _)

theorem tableOf_ok_nil (asg : List (Int × Code))
    (hsh : ∀ p ∈ asg, p.2.bits < 2 ^ p.2.size)
    (hpw : asg.Pairwise (fun p q => ¬ isPfxOf p.2 q.2 ∧ ¬ isPfxOf q.2 p.2 ∧ p.2 ≠ q.2)) :
    ∀ k, okAt asg (tableOf [] asg) k := by
  have hbase : ∀ k : Code, okAt [] ([] : Table) k := by
    intro k
    show ∀ p ∈ ([] : List (Int × Code)), ¬ isPfxOf k p.2
    intro p hp
    exact absurd hp (List.not_mem_nil p)
  have := tableOf_ok asg [] [] (by simpa using hsh) (by simpa using hpw) hbase
  intro k
  have h2 := this k
  rw [List.nil_append] at h2
  exact h2


theorem decoder_table_char (S : List Nat) (d : Decoder)
    (hlen : S.length < 2 ^ 31) (hlive : ∃ s ∈ S, s ≠ 0)
    (hwrap : TT S (maxNZ S) < U32) (hd : decoderInit S = .ok d) :
    (∀ k, okAt (decoderCodes S) d.table k) ∧
    (∀ p ∈ decoderCodes S, p.2.bits < 2 ^ p.2.size) ∧
    (decoderCodes S).Pairwise
      (fun p q => ¬ isPfxOf p.2 q.2 ∧ ¬ isPfxOf q.2 p.2 ∧ p.2 ≠ q.2) := by
  rcases decoder_raw_char S d hlen hlive hwrap hd with
    ⟨raw, hcodes, htbl, -, -, -, -, hshape, -, hpw⟩
  have hsh : ∀ p ∈ raw.map rawToAsg, p.2.bits < 2 ^ p.2.size := by
    intro p hp
    rcases List.mem_map.mp hp with ⟨tr, htr, rfl⟩
    show (MakeReversedCode tr.2.1 tr.2.2).bits < 2 ^ (MakeReversedCode tr.2.1 tr.2.2).size
    exact revBits_lt _ _
  have hpwA := raw_pairwise_nonprefix raw
    (fun tr htr => ⟨(hshape tr htr).2.2.1, (hshape tr htr).2.2.2.2⟩) hpw
  refine ⟨?_, ?_, ?_⟩
  · rw [hcodes, htbl]
    exact tableOf_ok_nil (raw.map rawToAsg) hsh hpwA
  · rw [hcodes]
    exact hsh
  · rw [hcodes]
    exact hpwA

/-! ## Claim theorems -/

/-- C3: the claim says every size list with entries in 0..15 is processed by
Decoder.Init without out-of-bounds access, a declared length of exactly 15
being accepted by the guard.  The code is wrong: `countArray` has only
maxBitsPerCode = 15 slots (indices 0..14), so a length of 15 passes the
`size > maxBitsPerCode` guard and then `countArray[size]++` indexes out of
range.  Evaluating the embedding at the failing input [15] yields the
out-of-bounds panic outcome. -/
theorem c3_len15_out_of_bounds :
    decoderInit [15] = .oob ∧ ¬ (15 > maxBitsPerCode) := by
  exact ⟨rfl, by decide⟩

/-- C5 (Scenario A): building from [4,4,3,3,3,1] over 6 symbols gives
symbol 5 the 1-bit code 0, symbols 2,3,4 the 3-bit transmission codes
001(=1), 101(=5), 011(=3), symbols 0,1 the 4-bit codes 0111(=7), 1111(=15),
with MinSize 1 and MaxSize 4, on both the Encoder and the Decoder. -/
theorem c5_scenario_a :
    (encoderInitFromSizes [4, 4, 3, 3, 3, 1]).isOk = true ∧
    (encOf (encoderInitFromSizes [4, 4, 3, 3, 3, 1])).codes =
      [⟨4, 7⟩, ⟨4, 15⟩, ⟨3, 1⟩, ⟨3, 5⟩, ⟨3, 3⟩, ⟨1, 0⟩] ∧
    (encOf (encoderInitFromSizes [4, 4, 3, 3, 3, 1])).minSize = 1 ∧
    (encOf (encoderInitFromSizes [4, 4, 3, 3, 3, 1])).maxSize = 4 ∧
    (decoderInit [4, 4, 3, 3, 3, 1]).isOk = true ∧
    decoderCodes [4, 4, 3, 3, 3, 1] =
      [(0, ⟨4, 7⟩), (1, ⟨4, 15⟩), (2, ⟨3, 1⟩), (3, ⟨3, 5⟩), (4, ⟨3, 3⟩), (5, ⟨1, 0⟩)] ∧
    Decode (decOf (decoderInit [4, 4, 3, 3, 3, 1])) ⟨1, 0⟩ = (5, 1, 1) ∧
    Decode (decOf (decoderInit [4, 4, 3, 3, 3, 1])) ⟨3, 1⟩ = (2, 3, 3) ∧
    Decode (decOf (decoderInit [4, 4, 3, 3, 3, 1])) ⟨3, 5⟩ = (3, 3, 3) ∧
    Decode (decOf (decoderInit [4, 4, 3, 3, 3, 1])) ⟨3, 3⟩ = (4, 3, 3) ∧
    Decode (decOf (decoderInit [4, 4, 3, 3, 3, 1])) ⟨4, 7⟩ = (0, 4, 4) ∧
    Decode (decOf (decoderInit [4, 4, 3, 3, 3, 1])) ⟨4, 15⟩ = (1, 4, 4) ∧
    (decOf (decoderInit [4, 4, 3, 3, 3, 1])).minSize = 1 ∧
    (decOf (decoderInit [4, 4, 3, 3, 3, 1])).maxSize = 4 := by
  decide

/-- C6 (Scenario B): Encoder.Init with 6 symbols and frequencies
[5,9,12,13,16,45] derives, through the min-heap tree-building path, exactly
the per-symbol lengths [4,4,3,3,3,1]. -/
theorem c6_scenario_b :
    (encoderInit 6 [5, 9, 12, 13, 16, 45]).isOk = true ∧
    (encOf (encoderInit 6 [5, 9, 12, 13, 16, 45])).SizeBySymbol = [4, 4, 3, 3, 3, 1] := by
  decide

/-- C9: the synthetic node frequency is the saturating uint32 sum: for
in-range operands it equals min(a + b, 2^32 - 1) exactly, never a wrapped
value. -/
theorem c9_saturating_add (a b : Nat) (ha : a < U32) (hb : b < U32) :
    satAdd a b = min (a + b) (U32 - 1) := by
  have h32 : U32 = 4294967296 := by norm_num [U32]
  simp only [satAdd, h32]
  rw [Nat.min_def]
  split <;> split <;> omega

/-- Witness for c9_saturating_add at a concrete overflowing input. -/
theorem c9_saturating_add_witness :
    2 ^ 31 < U32 ∧ 2 ^ 31 + 2 ^ 31 > U32 - 1 ∧
    satAdd (2 ^ 31) (2 ^ 31) = min (2 ^ 31 + 2 ^ 31) (U32 - 1) :=
  ⟨by norm_num [U32], by norm_num [U32],
    c9_saturating_add (2 ^ 31) (2 ^ 31) (by norm_num [U32]) (by norm_num [U32])⟩

/-- The 17-symbol frequency list 1,1,2,4,...,2^15: each frequency at least
the sum of all the smaller ones, so the Huffman tree is a 16-deep chain. -/
def fibLike17 : List Nat :=
  [1, 1, 2, 4, 8, 16, 32, 64, 128, 256, 512, 1024, 2048, 4096, 8192, 16384, 32768]

/-- C4 counterexample: Encoder.Init from frequencies completes without any
failure report even though the derived lengths reach 16 > maxBitsPerCode:
`_ = secondPass(codes)` discards the InvalidLength error, leaving symbol 0
with a 16-bit size and unassigned (zero) bits. -/
theorem c4_cex_init_completes_on_overlong :
    (encoderInit 17 fibLike17).isOk = true ∧
    (encOf (encoderInit 17 fibLike17)).Encode 0 = ⟨16, 0⟩ ∧
    maxBitsPerCode < 16 := by
  decide

/-- C8 counterexample: on the frequency construction path the claim fails:
Encoder.Init on fibLike17 completes with at least two live symbols whose
codes are not prefix-free: symbol 16 holds the 1-bit code 0, which is a
strict transmission-order bit-prefix of symbol 0's 16-bit code 0. -/
theorem c8_cex_freq_path_not_pfx_free :
    (encoderInit 17 fibLike17).isOk = true ∧
    (encOf (encoderInit 17 fibLike17)).Encode 16 = ⟨1, 0⟩ ∧
    (encOf (encoderInit 17 fibLike17)).Encode 0 = ⟨16, 0⟩ ∧
    isPfxOf ⟨1, 0⟩ ⟨16, 0⟩ ∧ (⟨1, 0⟩ : Code) ≠ ⟨16, 0⟩ := by
  decide

/-- C10 amended: for every size list with no nonzero entry (the empty
list included) whose length fits the int32 symbol index,
Encoder.InitFromSizes reads index 0 of the empty sorted list inside
secondPass — an out-of-bounds access — instead of returning an empty
Encoder; consequently converting the (accepted) empty Decoder to an
Encoder hits the same out-of-bounds access.  (For lengths in
[2^31, 2^32) the construction panics earlier, at make([]Code, numSymbols)
with a negative count — see the counterexample.) -/
theorem c10_all_zero_oob (sizes : List Nat) (hlen : sizes.length < 2 ^ 31)
    (h : ∀ s ∈ sizes, s = 0) :
    encoderInitFromSizes sizes = .oob ∧
    ∀ d, decoderInit sizes = .ok d → encoderInitFromDecoder d = .oob := by
  refine ⟨?_, ?_⟩
  · rw [encoderInitFromSizes_eq_core sizes hlen]
    exact encoderInitFromSizesCore_all_zero sizes h
  · intro d hd
    have hscan := scanSizes_all_zero sizes h ⟨List.replicate maxBitsPerCode 0, 0, 0, 0⟩
    simp only [decoderInit, decoderInitCore, hscan] at hd
    cases hd
    decide

/-- Witness for c10_all_zero_oob at the concrete input [0, 0]. -/
theorem c10_all_zero_oob_witness :
    ([0, 0] : List Nat).length < 2 ^ 31 ∧ (∀ s ∈ [0, 0], s = 0) ∧
    (encoderInitFromSizes [0, 0] = .oob ∧
      ∀ d, decoderInit [0, 0] = .ok d → encoderInitFromDecoder d = .oob) :=
  ⟨by decide, by decide, c10_all_zero_oob [0, 0] (by decide) (by decide)⟩

/-- C10 counterexample: the claim covers all-zero size lists of every
length and asserts the failure is the sorted[0] read inside secondPass.
For an all-zero list of length 2^31 the int32 symbol count
Symbol(len(sizes)) is -2^31, so Encoder.InitFromSizes panics earlier, at
make([]Code, numSymbols) with a negative length, before secondPass ever
runs: the negative-count branch is taken, not the sorted[0] read. -/
theorem c10_cex_negative_make :
    toInt32 (List.replicate (2 ^ 31) (0 : Nat)).length = -(2 ^ 31) ∧
    encoderInitFromSizes (List.replicate (2 ^ 31) 0) = .oob := by
  have hl : (List.replicate (2 ^ 31) (0 : Nat)).length = 2 ^ 31 :=
    List.length_replicate _ _
  have ht : toInt32 (2 ^ 31) = -(2 ^ 31) := by decide
  refine ⟨by rw [hl, ht], ?_⟩
  simp only [encoderInitFromSizes, hl, ht]
  rw [if_pos (by decide : (-(2 ^ 31) : Int) < 0)]

/-- C1 corrected (round trip): the all-zero part of the claim fails (see
the counterexample theorem: the degenerate all-zero decoder converts to an
out-of-bounds panic, not an encoder).  For every accepted size list with at
least one live symbol (within the no-wrap regime of the uint32 arithmetic
and the int32 symbol indexing), the round trip holds: the Decoder stores S,
Encoder.InitFromDecoder succeeds with SizeBySymbol = S, and converting that
Encoder back via Decoder.InitFromEncoder rebuilds the same Decoder. -/
theorem c1_round_trip (S : List Nat) (d : Decoder)
    (hlen : S.length < 2 ^ 31)
    (hlive : ∃ s ∈ S, s ≠ 0)
    (hwrap : TT S (maxNZ S) < U32)
    (hd : decoderInit S = .ok d) :
    d.SizeBySymbol = S ∧
    ∃ e, encoderInitFromDecoder d = .ok e ∧ e.SizeBySymbol = S ∧
      decoderInitFromEncoder e = .ok d := by
  rcases decoderInit_ok_cases S d hd with ⟨asg, hcore⟩
  rcases decoderInitCore_ok_char S d asg hlen hlive hwrap hcore with
    ⟨hsizes, hrange, hmax, -, -, -, -, hcomp, -⟩
  have hTTle : ∀ b, TT S b ≤ 2 ^ b := by
    apply TT_le_pow_all S d.maxSize hcomp
    intro b hb
    exact cnt_zero_above_maxNZ S b (by omega)
  rcases encoderInitFromSizesCore_ok_of_facts S hrange hlive hTTle with ⟨e, he, hesz⟩
  refine ⟨hsizes, e, ?_, hesz, ?_⟩
  · show encoderInitFromSizes d.sizes = .ok e
    rw [hsizes, encoderInitFromSizes_eq_core S hlen]
    exact he
  · show decoderInit e.SizeBySymbol = .ok d
    rw [hesz]
    exact hd

theorem c1_round_trip_witness :
    ([4, 4, 3, 3, 3, 1] : List Nat).length < 2 ^ 31 ∧
    (∃ s ∈ ([4, 4, 3, 3, 3, 1] : List Nat), s ≠ 0) ∧
    TT [4, 4, 3, 3, 3, 1] (maxNZ [4, 4, 3, 3, 3, 1]) < U32 ∧
    (decoderInit [4, 4, 3, 3, 3, 1] = .ok (decOf (decoderInit [4, 4, 3, 3, 3, 1]))) ∧
    ((decOf (decoderInit [4, 4, 3, 3, 3, 1])).SizeBySymbol = [4, 4, 3, 3, 3, 1] ∧
      ∃ e, encoderInitFromDecoder (decOf (decoderInit [4, 4, 3, 3, 3, 1])) = .ok e ∧
        e.SizeBySymbol = [4, 4, 3, 3, 3, 1] ∧
        decoderInitFromEncoder e = .ok (decOf (decoderInit [4, 4, 3, 3, 3, 1]))) :=
  ⟨by decide, ⟨4, by decide, by decide⟩, by decide, by decide,
    c1_round_trip [4, 4, 3, 3, 3, 1] (decOf (decoderInit [4, 4, 3, 3, 3, 1]))
      (by decide) ⟨4, by decide, by decide⟩ (by decide) (by decide)⟩

/-- C1 counterexample: the claim includes the degenerate all-zero sequence.
Decoder.Init does accept the all-zero size list (here [0]), but converting
the resulting Decoder with Encoder.InitFromDecoder does not produce an
Encoder at all: secondPass indexes sorted[0] on an empty sorted list, an
out-of-bounds panic, so the round trip fails for the all-zero case. -/
theorem c1_cex_all_zero_conversion :
    (decoderInit [0]).isOk = true ∧
    encoderInitFromDecoder (decOf (decoderInit [0])) = .oob := by
  constructor
  · decide
  · decide

/-- C8 corrected: prefix-freedom of the assigned transmission-order codes.
It holds on the explicit-size path (secondPass success) for all pairs of
live symbols, on the Decoder path (within the no-wrap regime of the uint32
code-total arithmetic and the int32 symbol indexing), and on the
at-most-two-live-symbols frequency path.  The general frequency path can
violate it because Encoder.Init discards the secondPass error (see the
counterexample). -/
theorem c8_prefix_freedom :
    (∀ (codes out : List Code), secondPass codes = SPRes.ok out →
      ∀ j k, j < codes.length → k < codes.length → j ≠ k →
        (codes.getD j ⟨0, 0⟩).size ≠ 0 → (codes.getD k ⟨0, 0⟩).size ≠ 0 →
        ¬ isPfxOf (out.getD j ⟨0, 0⟩) (out.getD k ⟨0, 0⟩)) ∧
    (∀ (S : List Nat) (d : Decoder), S.length < 2 ^ 31 →
      TT S (maxNZ S) < U32 → decoderInit S = .ok d →
      (decoderCodes S).Pairwise (fun p q =>
        ¬ isPfxOf p.2 q.2 ∧ ¬ isPfxOf q.2 p.2 ∧ p.2 ≠ q.2)) ∧
    (∀ (n : Nat) (f : List Nat) (e : Encoder), encoderInit n f = .ok e →
      (collectNodes f 0).length ≤ 2 →
      ∀ j k, j < e.codes.length → k < e.codes.length → j ≠ k →
        (e.codes.getD j ⟨0, 0⟩).size ≠ 0 → (e.codes.getD k ⟨0, 0⟩).size ≠ 0 →
        ¬ isPfxOf (e.codes.getD j ⟨0, 0⟩) (e.codes.getD k ⟨0, 0⟩)) := by
  refine ⟨fun codes out h => (secondPass_ok_entries codes out h).2, ?_, ?_⟩
  · intro S d hlen hwrap hd
    by_cases hlive : ∃ s ∈ S, s ≠ 0
    · rcases decoder_raw_char S d hlen hlive hwrap hd with
        ⟨raw, hcodes, -, -, -, -, -, hshape, -, hpw⟩
      rw [hcodes]
      exact raw_pairwise_nonprefix raw
        (fun tr htr => ⟨(hshape tr htr).2.2.1, (hshape tr htr).2.2.2.2⟩) hpw
    · push_neg at hlive
      rw [decoderCodes_all_zero S hlive]
      exact List.Pairwise.nil
  · intro n f e he hsm j k hj hk hjk hnzj hnzk
    have hcodes := encoderInit_ok_small n f e he hsm
    cases hn : collectNodes f 0 with
    | nil =>
      rw [hn] at hcodes
      have hred : assignSmall (List.replicate n (⟨0, 0⟩ : Code)) [] 0 =
          List.replicate n ⟨0, 0⟩ := rfl
      rw [hred] at hcodes
      exfalso
      apply hnzj
      rw [hcodes, getD_replicate_self]
    | cons a tl =>
      cases tl with
      | nil =>
        rw [hn] at hcodes
        have hred : assignSmall (List.replicate n (⟨0, 0⟩ : Code)) [a] 0 =
            (List.replicate n ⟨0, 0⟩).set a.1.toNat (MakeCode 1 0) := rfl
        rw [hred] at hcodes
        have hother : ∀ i, i ≠ a.1.toNat → e.codes.getD i ⟨0, 0⟩ = ⟨0, 0⟩ := by
          intro i hi
          rw [hcodes, getD_set_ne _ _ _ _ _ hi.symm, getD_replicate_self]
        have hjA : j = a.1.toNat := by
          by_contra hc
          rw [hother j hc] at hnzj
          exact hnzj rfl
        have hkA : k = a.1.toNat := by
          by_contra hc
          rw [hother k hc] at hnzk
          exact hnzk rfl
        exact absurd (hjA.trans hkA.symm) hjk
      | cons b tl2 =>
        cases tl2 with
        | cons c tl3 =>
          rw [hn] at hsm
          simp only [List.length_cons] at hsm
          omega
        | nil =>
          rw [hn] at hcodes
          have hred : assignSmall (List.replicate n (⟨0, 0⟩ : Code)) [a, b] 0 =
              ((List.replicate n ⟨0, 0⟩).set a.1.toNat (MakeCode 1 0)).set
                b.1.toNat (MakeCode 1 1) := rfl
          rw [hred] at hcodes
          have hpw := collectNodes_pairwise f 0
          rw [hn] at hpw
          have hab : a.1 < b.1 := (List.pairwise_cons.mp hpw).1 b (List.mem_cons_self _ _)
          rcases collectNodes_mem f 0 a (by rw [hn]; exact List.mem_cons_self _ _) with
            ⟨ka, hka, -⟩
          rcases collectNodes_mem f 0 b
              (by rw [hn]; exact List.mem_cons_of_mem _ (List.mem_cons_self _ _)) with
            ⟨kb, hkb, -⟩
          have hAB : a.1.toNat ≠ b.1.toNat := by
            rw [hka, hkb] at hab ⊢
            have hlt : ka < kb := Int.ofNat_lt.mp hab
            intro h
            have h2 : ka = kb := h
            omega
          have hother : ∀ i, i ≠ a.1.toNat → i ≠ b.1.toNat →
              e.codes.getD i ⟨0, 0⟩ = ⟨0, 0⟩ := by
            intro i hA hB
            rw [hcodes, getD_set_ne _ _ _ _ _ hB.symm, getD_set_ne _ _ _ _ _ hA.symm,
              getD_replicate_self]
          have hA_val : a.1.toNat < n → e.codes.getD a.1.toNat ⟨0, 0⟩ = MakeCode 1 0 := by
            intro hlt
            rw [hcodes, getD_set_ne _ _ _ _ _ hAB.symm]
            exact getD_set_self _ _ _ _ (by rwa [List.length_replicate])
          have hA_dead : ¬ a.1.toNat < n → e.codes.getD a.1.toNat ⟨0, 0⟩ = ⟨0, 0⟩ := by
            intro hge
            rw [hcodes, getD_set_ne _ _ _ _ _ hAB.symm,
              List.set_eq_of_length_le (by rw [List.length_replicate]; omega),
              getD_replicate_self]
          have hB_val : b.1.toNat < n → e.codes.getD b.1.toNat ⟨0, 0⟩ = MakeCode 1 1 := by
            intro hlt
            rw [hcodes]
            exact getD_set_self _ _ _ _
              (by rw [List.length_set, List.length_replicate]; omega)
          have hB_dead : ¬ b.1.toNat < n → e.codes.getD b.1.toNat ⟨0, 0⟩ = ⟨0, 0⟩ := by
            intro hge
            rw [hcodes,
              List.set_eq_of_length_le
                (by rw [List.length_set, List.length_replicate]; omega),
              getD_set_ne _ _ _ _ _ hAB, getD_replicate_self]
          have hjc : j = a.1.toNat ∨ j = b.1.toNat := by
            by_contra hc
            push_neg at hc
            rw [hother j hc.1 hc.2] at hnzj
            exact hnzj rfl
          have hkc : k = a.1.toNat ∨ k = b.1.toNat := by
            by_contra hc
            push_neg at hc
            rw [hother k hc.1 hc.2] at hnzk
            exact hnzk rfl
          rcases hjc with rfl | rfl <;> rcases hkc with hk2 | hk2
          · exact absurd hk2.symm hjk
          · subst hk2
            have hpa : a.1.toNat < n := by
              by_contra hge
              rw [hA_dead hge] at hnzj
              exact hnzj rfl
            have hpb : b.1.toNat < n := by
              by_contra hge
              rw [hB_dead hge] at hnzk
              exact hnzk rfl
            rw [hA_val hpa, hB_val hpb]
            decide
          · subst hk2
            have hpa : a.1.toNat < n := by
              by_contra hge
              rw [hA_dead hge] at hnzk
              exact hnzk rfl
            have hpb : b.1.toNat < n := by
              by_contra hge
              rw [hB_dead hge] at hnzj
              exact hnzj rfl
            rw [hA_val hpa, hB_val hpb]
            decide
          · exact absurd hk2.symm hjk

theorem c8_prefix_freedom_witness :
    (¬ isPfxOf ((encOf (encoderInitFromSizes [1, 1])).codes.getD 0 ⟨0, 0⟩)
        ((encOf (encoderInitFromSizes [1, 1])).codes.getD 1 ⟨0, 0⟩)) ∧
    (decoderCodes [4, 4, 3, 3, 3, 1]).Pairwise (fun p q =>
      ¬ isPfxOf p.2 q.2 ∧ ¬ isPfxOf q.2 p.2 ∧ p.2 ≠ q.2) ∧
    ¬ isPfxOf ((encOf (encoderInit 2 [5, 9])).codes.getD 0 ⟨0, 0⟩)
        ((encOf (encoderInit 2 [5, 9])).codes.getD 1 ⟨0, 0⟩) :=
  ⟨c8_prefix_freedom.1 (([1, 1] : List Nat).map fun s => ⟨s, 0⟩)
      (encOf (encoderInitFromSizes [1, 1])).codes (by decide) 0 1 (by decide) (by decide)
      (by decide) (by decide) (by decide),
   c8_prefix_freedom.2.1 [4, 4, 3, 3, 3, 1] (decOf (decoderInit [4, 4, 3, 3, 3, 1]))
      (by decide) (by decide) (by decide),
   c8_prefix_freedom.2.2 2 [5, 9] (encOf (encoderInit 2 [5, 9])) (by decide) (by decide)
      0 1 (by decide) (by decide) (by decide) (by decide) (by decide)⟩

/-- C2 corrected: Decode soundness on the decoder table, in the no-wrap
regime of the uint32 code-total arithmetic (see the counterexample for the
wrapped regime).  Every assigned (symbol, code) pair decodes to
(symbol, size, size); every strict transmission-order prefix of an
assigned code decodes to InvalidSymbol with subtree min/max size bounds
bracketing the code's size; and a bit pattern that is neither an assigned
code nor a prefix of one decodes to (InvalidSymbol, 0, 0). -/
theorem c2_decode_soundness :
    ∀ (S : List Nat) (d : Decoder), S.length < 2 ^ 31 → TT S (maxNZ S) < U32 →
      decoderInit S = .ok d →
      ((∀ s hc, (s, hc) ∈ decoderCodes S → Decode d hc = (s, hc.size, hc.size)) ∧
       (∀ s hc, (s, hc) ∈ decoderCodes S → ∀ m, m < hc.size →
         ∃ mn mx, Decode d ⟨m, hc.bits % 2 ^ m⟩ = (InvalidSymbol, mn, mx) ∧
           mn ≤ hc.size ∧ hc.size ≤ mx) ∧
       (∀ k : Code, (∀ p ∈ decoderCodes S, ¬ isPfxOf k p.2) →
         Decode d k = (InvalidSymbol, 0, 0))) := by
  intro S d hlen hwrap hd
  by_cases hlive : ∃ s ∈ S, s ≠ 0
  · obtain ⟨htab, hshA, hpwA⟩ := decoder_table_char S d hlen hlive hwrap hd
    refine ⟨?_, ?_, ?_⟩
    · intro s hc hmem
      have hbits : hc.bits < 2 ^ hc.size := hshA (s, hc) hmem
      have h := htab hc
      unfold okAt at h
      cases htg : tget d.table hc with
      | none =>
        rw [htg] at h
        exact absurd (isPfxOf_refl hc hbits) (h (s, hc) hmem)
      | some dd =>
        rw [htg] at h
        have hrel : entryRel (decoderCodes S) hc dd := h
        have huniq : ∀ p ∈ decoderCodes S, isPfxOf hc p.2 → p = (s, hc) := by
          intro p hp hx
          by_contra hne
          rcases pairwise_mem_rel hpwA hp hmem hne with hr | hr
          · exact hr.2.1 hx
          · exact hr.1 hx
        have hminle : dd.minSize ≤ hc.size :=
          hrel.1.2 (s, hc) hmem (isPfxOf_refl hc hbits)
        have hmineq : dd.minSize = hc.size := by
          rcases hrel.1.1 with ⟨p, hp, hx, hs2⟩
          have hpe := huniq p hp hx
          rw [hpe] at hs2
          have h3 : hc.size = dd.minSize := hs2
          omega
        have hmaxge : hc.size ≤ dd.maxSize :=
          hrel.2.1.2 (s, hc) hmem (isPfxOf_refl hc hbits)
        have hmaxeq : dd.maxSize = hc.size := by
          rcases hrel.2.1.1 with ⟨p, hp, hx, hs2⟩
          have hpe := huniq p hp hx
          rw [hpe] at hs2
          have h3 : hc.size = dd.maxSize := hs2
          omega
        have hsymeq : dd.symbol = s := by
          rcases hrel.2.2 with ⟨p, hp, hpk, hps⟩ | ⟨hall, -⟩
          · have hpx : isPfxOf hc p.2 := by
              rw [hpk]
              exact isPfxOf_refl hc hbits
            have hpe := huniq p hp hpx
            rw [hpe] at hps
            exact hps
          · exact absurd rfl (hall (s, hc) hmem)
        show Decode d hc = (s, hc.size, hc.size)
        unfold Decode
        rw [htg]
        dsimp only
        rw [hsymeq, hmineq, hmaxeq]
    · intro s hc hmem m hmlt
      have hbits : hc.bits < 2 ^ hc.size := hshA (s, hc) hmem
      have hkx : isPfxOf ⟨m, hc.bits % 2 ^ m⟩ hc := ⟨Nat.le_of_lt hmlt, rfl⟩
      have h := htab ⟨m, hc.bits % 2 ^ m⟩
      unfold okAt at h
      cases htg : tget d.table ⟨m, hc.bits % 2 ^ m⟩ with
      | none =>
        rw [htg] at h
        exact absurd hkx (h (s, hc) hmem)
      | some dd =>
        rw [htg] at h
        have hrel : entryRel (decoderCodes S) ⟨m, hc.bits % 2 ^ m⟩ dd := h
        have hsyminv : dd.symbol = InvalidSymbol := by
          rcases hrel.2.2 with ⟨p, hp, hpk, hps⟩ | ⟨-, hinv⟩
          · exfalso
            have hpne : p ≠ (s, hc) := by
              intro he
              rw [he] at hpk
              have h3 : hc.size = m := congrArg Code.size hpk
              omega
            have hpx : isPfxOf p.2 hc := by
              rw [hpk]
              exact hkx
            rcases pairwise_mem_rel hpwA hp hmem hpne with hr | hr
            · exact hr.1 hpx
            · exact hr.2.1 hpx
          · exact hinv
        refine ⟨dd.minSize, dd.maxSize, ?_, ?_, ?_⟩
        · unfold Decode
          rw [htg]
          dsimp only
          rw [hsyminv]
        · exact hrel.1.2 (s, hc) hmem hkx
        · exact hrel.2.1.2 (s, hc) hmem hkx
    · intro k hknone
      have h := htab k
      unfold okAt at h
      cases htg : tget d.table k with
      | some dd =>
        rw [htg] at h
        have hrel : entryRel (decoderCodes S) k dd := h
        rcases hrel.1.1 with ⟨p, hp, hx, -⟩
        exact absurd hx (hknone p hp)
      | none =>
        unfold Decode
        rw [htg]
  · push_neg at hlive
    rcases decoderInit_ok_cases S d hd with ⟨asg, hcore⟩
    have hcore0 : decoderInitCore S = .ok (⟨[], [], 0, 0⟩, []) := by
      unfold decoderInitCore
      rw [scanSizes_all_zero S hlive]
      rfl
    rw [hcore0] at hcore
    injection hcore with h1
    have hdd : d = ⟨[], [], 0, 0⟩ := (congrArg Prod.fst h1).symm
    subst hdd
    refine ⟨?_, ?_, ?_⟩
    · intro s hc hmem
      rw [decoderCodes_all_zero S hlive] at hmem
      exact absurd hmem (List.not_mem_nil _)
    · intro s hc hmem
      rw [decoderCodes_all_zero S hlive] at hmem
      exact absurd hmem (List.not_mem_nil _)
    · intro k hk
      rfl

theorem c2_decode_soundness_witness :
    Decode (decOf (decoderInit [4, 4, 3, 3, 3, 1])) ⟨4, 7⟩ = (0, 4, 4) ∧
    (∃ mn mx, Decode (decOf (decoderInit [4, 4, 3, 3, 3, 1])) ⟨2, 3⟩ =
      (InvalidSymbol, mn, mx) ∧ mn ≤ 4 ∧ 4 ≤ mx) ∧
    Decode (decOf (decoderInit [4, 4, 3, 3, 3, 1])) ⟨2, 2⟩ = (InvalidSymbol, 0, 0) := by
  have hthm := c2_decode_soundness [4, 4, 3, 3, 3, 1]
    (decOf (decoderInit [4, 4, 3, 3, 3, 1])) (by decide) (by decide) (by decide)
  exact ⟨hthm.1 0 ⟨4, 7⟩ (by decide), hthm.2.1 0 ⟨4, 7⟩ (by decide) 2 (by decide),
    hthm.2.2 ⟨2, 2⟩ (by decide)⟩


theorem set_getD_self {α : Type} (l : List α) (i : Nat) (d : α) (h : i < l.length) :
    l.set i (l.getD i d) = l := by
  induction l generalizing i with
  | nil => simp at h
  | cons x xs ih =>
    cases i with
    | zero => rfl
    | succ j =>
      simp only [List.set_cons_succ, List.getD_cons_succ]
      rw [ih j (by simpa using h)]

theorem scanSizes_cons_zero (R : List Nat) (st : ScanSt) :
    scanSizes (0 :: R) st = scanSizes R st := rfl

theorem scanSizes_append (A B : List Nat) :
    ∀ (st st2 : ScanSt), scanSizes A st = .ok st2 →
      scanSizes (A ++ B) st = scanSizes B st2 := by
  induction A with
  | nil =>
    intro st st2 h
    simp only [scanSizes] at h
    injection h with h2
    subst h2
    rfl
  | cons s R ih =>
    intro st st2 h
    by_cases hs0 : s = 0
    · subst hs0
      rw [List.cons_append, scanSizes_cons_zero]
      rw [scanSizes_cons_zero] at h
      exact ih st st2 h
    · by_cases h15 : s ≤ 14
      · rw [List.cons_append, scanSizes_cons_nz s (R ++ B) st hs0 h15]
        rw [scanSizes_cons_nz s R st hs0 h15] at h
        exact ih _ _ h
      · exfalso
        by_cases hgt : s > 15
        · simp only [scanSizes, if_neg hs0] at h
          rw [if_pos (by unfold maxBitsPerCode; omega : s > maxBitsPerCode)] at h
          cases h
        · have hs15 : s = 15 := by omega
          subst hs15
          simp only [scanSizes] at h
          rw [if_neg (by decide : ¬ (15 : Nat) = 0),
            if_neg (by decide : ¬ (15 : Nat) > maxBitsPerCode),
            if_neg (by decide : ¬ (15 : Nat) < maxBitsPerCode)] at h
          cases h

theorem scanSizes_replicate (s : Nat) (hs0 : s ≠ 0) (hs14 : s ≤ 14) :
    ∀ (n : Nat) (st : ScanSt), st.live ≠ 0 → st.minS ≤ s → s ≤ st.maxS →
      s < st.count.length →
      st.count.getD s 0 + n < U32 → st.live + n < U32 →
      scanSizes (List.replicate n s) st =
        .ok ⟨st.count.set s (st.count.getD s 0 + n), st.live + n, st.minS, st.maxS⟩ := by
  intro n
  induction n with
  | zero =>
    intro st hlv hmn hmx hlen hcw hlw
    have he : (⟨st.count.set s (st.count.getD s 0 + 0), st.live + 0, st.minS, st.maxS⟩ :
        ScanSt) = st := by
      rw [Nat.add_zero, Nat.add_zero, set_getD_self _ _ _ hlen]
    rw [List.replicate_zero, he]
    rfl
  | succ n ih =>
    intro st hlv hmn hmx hlen hcw hlw
    rw [List.replicate_succ, scanSizes_cons_nz s _ st hs0 hs14]
    have hmm := scanStep_mm_nz st s hlv (le_trans hmn hmx)
    have hcnt := scanStep_count st s
    have hlive2 := scanStep_live st s
    have hc1 : (st.count.getD s 0 + 1) % U32 = st.count.getD s 0 + 1 :=
      Nat.mod_eq_of_lt (by omega)
    have hl1 : (st.live + 1) % U32 = st.live + 1 := Nat.mod_eq_of_lt (by omega)
    rw [hc1] at hcnt
    rw [hl1] at hlive2
    have hres := ih (scanStep st s)
      (by rw [hlive2]; omega)
      (by rw [hmm.1]; exact min_le_right _ _)
      (by rw [hmm.2]; exact le_max_right _ _)
      (by rw [hcnt, List.length_set]; exact hlen)
      (by rw [hcnt, getD_set_self _ _ _ _ hlen]; omega)
      (by rw [hlive2]; omega)
    rw [hres]
    have hclean : (scanStep st s).count.set s ((scanStep st s).count.getD s 0 + n) =
        st.count.set s (st.count.getD s 0 + (n + 1)) := by
      rw [hcnt, getD_set_self _ _ _ _ hlen, List.set_set]
      congr 1
      omega
    have hl2 : st.live + 1 + n = st.live + (n + 1) := by omega
    rw [hclean, hlive2, hl2, hmm.1, hmm.2, min_eq_left hmn, max_eq_left hmx]

theorem decoderInitCore_ok_of (S : List Nat) (st : ScanSt) (nca : List Nat) (code : Nat)
    (hscan : scanSizes S ⟨List.replicate maxBitsPerCode 0, 0, 0, 0⟩ = .ok st)
    (hlv : ¬ st.live = 0)
    (hnc : ncLoop st.count (st.maxS + 1 - st.minS) st.minS
      (List.replicate maxBitsPerCode 0) 0 = (nca, code))
    (hcond1 : ¬ ((code + st.count.getD st.maxS 0) % U32 = 1 ∧ st.maxS = 1))
    (hcond2 : (code + st.count.getD st.maxS 0) % U32 = 2 ^ st.maxS) :
    decoderInitCore S = .ok
      (⟨(assignLoop S 0 nca [] []).1, S, st.minS, st.maxS⟩,
        (assignLoop S 0 nca [] []).2) := by
  unfold decoderInitCore
  rw [hscan]
  dsimp only
  rw [if_neg hlv, hnc]
  dsimp only
  rw [if_neg hcond1, if_pos hcond2]

theorem asgRaw_cons_nz (s : Nat) (hs : s ≠ 0) (R : List Nat) (idx : Nat) (nca : List Nat) :
    asgRaw (s :: R) idx nca =
      (idx, s, nca.getD s 0) ::
        asgRaw R (idx + 1) (nca.set s ((nca.getD s 0 + 1) % U32)) := by
  simp only [asgRaw, if_neg hs]

theorem cnt_append (A B : List Nat) (b : Nat) : cnt (A ++ B) b = cnt A b + cnt B b := by
  unfold cnt
  rw [List.filter_append, List.length_append]

theorem cnt_replicate (n s b : Nat) :
    cnt (List.replicate n s) b = if s = b then n else 0 := by
  induction n with
  | zero =>
    show cnt [] b = if s = b then 0 else 0
    rw [show cnt [] b = 0 from rfl]
    by_cases h : s = b
    · rw [if_pos h]
    · rw [if_neg h]
  | succ n ih =>
    rw [List.replicate_succ, cnt_cons, ih]
    by_cases h : s = b
    · rw [if_pos h, if_pos h, if_pos h]
      omega
    · rw [if_neg h, if_neg h, if_neg h]


theorem cexScan :
    scanSizes (List.replicate (2 ^ 19) 1 ++ List.replicate (2 ^ 14) 14)
      ⟨List.replicate maxBitsPerCode 0, 0, 0, 0⟩ =
      .ok ⟨((List.replicate 15 0).set 1 524288).set 14 16384, 540672, 1, 14⟩ := by
  have hst1 : scanStep ⟨List.replicate maxBitsPerCode 0, 0, 0, 0⟩ 1 =
      ⟨(List.replicate 15 0).set 1 1, 1, 1, 1⟩ := by decide
  have hA : scanSizes (List.replicate 524287 1) ⟨(List.replicate 15 0).set 1 1, 1, 1, 1⟩ =
      .ok ⟨((List.replicate 15 0).set 1 1).set 1 524288, 524288, 1, 1⟩ := by
    have h := scanSizes_replicate 1 (by decide) (by decide) 524287
      ⟨(List.replicate 15 0).set 1 1, 1, 1, 1⟩
      (by decide) (by decide) (by decide) (by decide) (by decide) (by decide)
    rw [h]
    decide
  have hst2 : scanStep ⟨((List.replicate 15 0).set 1 1).set 1 524288, 524288, 1, 1⟩ 14 =
      ⟨(((List.replicate 15 0).set 1 1).set 1 524288).set 14 1, 524289, 1, 14⟩ := by decide
  have hB : scanSizes (List.replicate 16383 14)
      ⟨(((List.replicate 15 0).set 1 1).set 1 524288).set 14 1, 524289, 1, 14⟩ =
      .ok ⟨((List.replicate 15 0).set 1 524288).set 14 16384, 540672, 1, 14⟩ := by
    have h := scanSizes_replicate 14 (by decide) (by decide) 16383
      ⟨(((List.replicate 15 0).set 1 1).set 1 524288).set 14 1, 524289, 1, 14⟩
      (by decide) (by decide) (by decide) (by decide) (by decide) (by decide)
    rw [h]
    decide
  have hsplit1 : List.replicate (2 ^ 19) (1 : Nat) = 1 :: List.replicate 524287 1 := by
    show List.replicate (524287 + 1) (1 : Nat) = 1 :: List.replicate 524287 1
    rw [List.replicate_succ]
  have hsplit2 : List.replicate (2 ^ 14) (14 : Nat) = 14 :: List.replicate 16383 14 := by
    show List.replicate (16383 + 1) (14 : Nat) = 14 :: List.replicate 16383 14
    rw [List.replicate_succ]
  rw [hsplit1, List.cons_append, scanSizes_cons_nz 1 _ _ (by decide) (by decide), hst1,
    scanSizes_append _ _ _ _ hA, hsplit2,
    scanSizes_cons_nz 14 _ _ (by decide) (by decide), hst2, hB]


theorem cexCore :
    decoderInitCore (List.replicate (2 ^ 19) 1 ++ List.replicate (2 ^ 14) 14) = .ok
      (⟨(assignLoop (List.replicate (2 ^ 19) 1 ++ List.replicate (2 ^ 14) 14) 0
          [0, 0, 1048576, 2097152, 4194304, 8388608, 16777216, 33554432, 67108864,
            134217728, 268435456, 536870912, 1073741824, 2147483648, 0] [] []).1,
        List.replicate (2 ^ 19) 1 ++ List.replicate (2 ^ 14) 14, 1, 14⟩,
        (assignLoop (List.replicate (2 ^ 19) 1 ++ List.replicate (2 ^ 14) 14) 0
          [0, 0, 1048576, 2097152, 4194304, 8388608, 16777216, 33554432, 67108864,
            134217728, 268435456, 536870912, 1073741824, 2147483648, 0] [] []).2) :=
  decoderInitCore_ok_of (List.replicate (2 ^ 19) 1 ++ List.replicate (2 ^ 14) 14)
    ⟨((List.replicate 15 0).set 1 524288).set 14 16384, 540672, 1, 14⟩
    [0, 0, 1048576, 2097152, 4194304, 8388608, 16777216, 33554432, 67108864,
      134217728, 268435456, 536870912, 1073741824, 2147483648, 0] 0 cexScan
    (by decide) (by decide) (by decide) (by decide)

theorem cexTT :
    TT (List.replicate (2 ^ 19) 1 ++ List.replicate (2 ^ 14) 14)
      (maxNZ (List.replicate (2 ^ 19) 1 ++ List.replicate (2 ^ 14) 14)) =
      2 ^ 32 + 2 ^ 14 := by
  have hc1 : cnt (List.replicate (2 ^ 19) 1 ++ List.replicate (2 ^ 14) 14) 1 = 2 ^ 19 := by
    rw [cnt_append, cnt_replicate, cnt_replicate]
    norm_num
  have hc14 : cnt (List.replicate (2 ^ 19) 1 ++ List.replicate (2 ^ 14) 14) 14 = 2 ^ 14 := by
    rw [cnt_append, cnt_replicate, cnt_replicate]
    norm_num
  have hc0 : ∀ b, b ≠ 1 → b ≠ 14 →
      cnt (List.replicate (2 ^ 19) 1 ++ List.replicate (2 ^ 14) 14) b = 0 := by
    intro b h1 h14
    rw [cnt_append, cnt_replicate, cnt_replicate,
      if_neg (fun h => h1 h.symm), if_neg (fun h => h14 h.symm)]
  have hmem14 : (14 : Nat) ∈ (List.replicate (2 ^ 19) 1 ++ List.replicate (2 ^ 14) 14) :=
    List.mem_append_right _ (by
      rw [List.mem_replicate]
      exact ⟨by norm_num, rfl⟩)
  have hub : ∀ s ∈ (List.replicate (2 ^ 19) 1 ++ List.replicate (2 ^ 14) 14), s ≤ 14 := by
    intro s hs
    rcases List.mem_append.mp hs with h | h
    · rw [List.eq_of_mem_replicate h]
      norm_num
    · rw [List.eq_of_mem_replicate h]
  have hmax : maxNZ (List.replicate (2 ^ 19) 1 ++ List.replicate (2 ^ 14) 14) = 14 := by
    have h1 := maxNZ_ge (List.replicate (2 ^ 19) 1 ++ List.replicate (2 ^ 14) 14) 14 hmem14
    rcases maxNZ_mem (List.replicate (2 ^ 19) 1 ++ List.replicate (2 ^ 14) 14) with h0 | hm
    · omega
    · have h2 := hub _ hm
      omega
  have hstep : ∀ b, TT (List.replicate (2 ^ 19) 1 ++ List.replicate (2 ^ 14) 14) (b + 1) =
      2 * TT (List.replicate (2 ^ 19) 1 ++ List.replicate (2 ^ 14) 14) b +
        cnt (List.replicate (2 ^ 19) 1 ++ List.replicate (2 ^ 14) 14) (b + 1) :=
    fun b => rfl
  have hz : TT (List.replicate (2 ^ 19) 1 ++ List.replicate (2 ^ 14) 14) 0 = 0 := rfl
  have ht1 : TT (List.replicate (2 ^ 19) 1 ++ List.replicate (2 ^ 14) 14) 1 = 2 ^ 19 := by
    rw [show (1 : Nat) = 0 + 1 from rfl, hstep, hz, show (0 : Nat) + 1 = 1 from rfl, hc1]
    norm_num
  have ht13 : TT (List.replicate (2 ^ 19) 1 ++ List.replicate (2 ^ 14) 14) 13 = 2 ^ 31 := by
    rw [show (13 : Nat) = 12 + 1 from rfl, hstep, show (12 : Nat) = 11 + 1 from rfl, hstep,
      show (11 : Nat) = 10 + 1 from rfl, hstep, show (10 : Nat) = 9 + 1 from rfl, hstep,
      show (9 : Nat) = 8 + 1 from rfl, hstep, show (8 : Nat) = 7 + 1 from rfl, hstep,
      show (7 : Nat) = 6 + 1 from rfl, hstep, show (6 : Nat) = 5 + 1 from rfl, hstep,
      show (5 : Nat) = 4 + 1 from rfl, hstep, show (4 : Nat) = 3 + 1 from rfl, hstep,
      show (3 : Nat) = 2 + 1 from rfl, hstep, show (2 : Nat) = 1 + 1 from rfl, hstep, ht1,
      hc0 (1 + 1) (by norm_num) (by norm_num), hc0 (2 + 1) (by norm_num) (by norm_num),
      hc0 (3 + 1) (by norm_num) (by norm_num), hc0 (4 + 1) (by norm_num) (by norm_num),
      hc0 (5 + 1) (by norm_num) (by norm_num), hc0 (6 + 1) (by norm_num) (by norm_num),
      hc0 (7 + 1) (by norm_num) (by norm_num), hc0 (8 + 1) (by norm_num) (by norm_num),
      hc0 (9 + 1) (by norm_num) (by norm_num), hc0 (10 + 1) (by norm_num) (by norm_num),
      hc0 (11 + 1) (by norm_num) (by norm_num), hc0 (12 + 1) (by norm_num) (by norm_num)]
    norm_num
  rw [hmax, show (14 : Nat) = 13 + 1 from rfl, hstep, ht13,
    show (13 : Nat) + 1 = 14 from rfl, hc14]
  norm_num


theorem cexCodes0 :
    decoderCodes (List.replicate (2 ^ 19) 1 ++ List.replicate (2 ^ 14) 14) =
      (assignLoop (List.replicate (2 ^ 19) 1 ++ List.replicate (2 ^ 14) 14) 0
        [0, 0, 1048576, 2097152, 4194304, 8388608, 16777216, 33554432, 67108864,
          134217728, 268435456, 536870912, 1073741824, 2147483648, 0] [] []).2 :=
  decoderCodes_eq_of_core _ _ _ cexCore


theorem cexCodes2 :
    decoderCodes (List.replicate (2 ^ 19) 1 ++ List.replicate (2 ^ 14) 14) =
      (asgRaw (List.replicate (2 ^ 19) 1 ++ List.replicate (2 ^ 14) 14) 0
        [0, 0, 1048576, 2097152, 4194304, 8388608, 16777216, 33554432, 67108864,
          134217728, 268435456, 536870912, 1073741824, 2147483648, 0]).map rawToAsg := by
  rw [cexCodes0,
    (assignLoop_char (List.replicate (2 ^ 19) 1 ++ List.replicate (2 ^ 14) 14) 0
      [0, 0, 1048576, 2097152, 4194304, 8388608, 16777216, 33554432, 67108864,
        134217728, 268435456, 536870912, 1073741824, 2147483648, 0] [] []).1,
    List.nil_append]


theorem cexCodesHead :
    decoderCodes (List.replicate (2 ^ 19) 1 ++ List.replicate (2 ^ 14) 14) =
      ((0 : Int), (⟨1, 0⟩ : Code)) :: ((1 : Int), (⟨1, 1⟩ : Code)) ::
        ((2 : Int), (⟨1, 0⟩ : Code)) ::
        (asgRaw (List.replicate 524285 1 ++ List.replicate (2 ^ 14) 14) 3
          [0, 3, 1048576, 2097152, 4194304, 8388608, 16777216, 33554432, 67108864,
            134217728, 268435456, 536870912, 1073741824, 2147483648, 0]).map rawToAsg := by
  have hsplitS : (List.replicate (2 ^ 19) 1 ++ List.replicate (2 ^ 14) 14) =
      1 :: 1 :: 1 :: (List.replicate 524285 1 ++ List.replicate (2 ^ 14) 14) := by
    have h3 : List.replicate (2 ^ 19) (1 : Nat) = 1 :: 1 :: 1 :: List.replicate 524285 1 := by
      show List.replicate (524285 + 1 + 1 + 1) (1 : Nat) =
        1 :: 1 :: 1 :: List.replicate 524285 1
      rw [List.replicate_succ, List.replicate_succ, List.replicate_succ]
    rw [h3]
    rfl
  rw [cexCodes2, hsplitS, asgRaw_cons_nz 1 (by decide) _ _ _,
    asgRaw_cons_nz 1 (by decide) _ _ _, asgRaw_cons_nz 1 (by decide) _ _ _,
    List.map_cons, List.map_cons, List.map_cons]
  congr 1


theorem decoderInit_isOk_of_core (S : List Nat) (p : Decoder × List (Int × Code))
    (h : decoderInitCore S = .ok p) : (decoderInit S).isOk = true := by
  unfold decoderInit
  rw [h]
  rfl

/-- C2 counterexample: with enough symbols the uint32 code-count total wraps
and Decoder.Init accepts a length sequence whose true Kraft sum
oversubscribes the code space: for S = 2^19 ones followed by 2^14
fourteens, the exact consumed code space at the maximum size is
2^32 + 2^14, yet the wrapped running total equals 2^14 = 2^maxSize, so Init
accepts S, and the assignment loop then hands the SAME 1-bit transmission
code 0 to the two distinct live symbols 0 and 2 — Decode of that code
cannot return both symbols, so decode soundness fails without a no-wrap
bound. -/
theorem c2_cex_wrapped_double_assignment :
    (decoderInit (List.replicate (2 ^ 19) 1 ++ List.replicate (2 ^ 14) 14)).isOk = true ∧
    ((0 : Int), (⟨1, 0⟩ : Code)) ∈
      decoderCodes (List.replicate (2 ^ 19) 1 ++ List.replicate (2 ^ 14) 14) ∧
    ((2 : Int), (⟨1, 0⟩ : Code)) ∈
      decoderCodes (List.replicate (2 ^ 19) 1 ++ List.replicate (2 ^ 14) 14) ∧
    TT (List.replicate (2 ^ 19) 1 ++ List.replicate (2 ^ 14) 14)
      (maxNZ (List.replicate (2 ^ 19) 1 ++ List.replicate (2 ^ 14) 14)) =
      2 ^ 32 + 2 ^ 14 := by
  refine ⟨decoderInit_isOk_of_core _ _ cexCore, ?_, ?_, cexTT⟩
  · rw [cexCodesHead]
    exact List.mem_cons_self _ _
  · rw [cexCodesHead]
    exact List.mem_cons_of_mem _ (List.mem_cons_of_mem _ (List.mem_cons_self _ _))

end Huffman
